import Mathlib

/-!
The netkit HTTP router.

A shallow embedding of `netkit/http/router.h` (percent/plus decoder, pattern
compilation, route table, overload resolution, argument binding, dispatcher),
followed by theorems about it.

Strings (`std::string`, `std::string_view`) are lists of characters, one
character per byte.  A handler is represented by its name and the list of its
parameter types after the fixed context parameter; "invoking a handler" is
represented by the record of the call (handler name, context, argument values).
Behaviour of the standard library and of Boost that the router relies on
(`std::regex_match` on a compiled route, the Boost text parsers, the content of
a moved-from string) is collected in the structure `StdLib`, over which the
definitions are parameterised.
-/

set_option autoImplicit false

namespace Netkit

/-! ## Strings -/

/-- Byte strings: `std::string` and `std::string_view`. -/
abbrev Str := List Char

/-- The call `s.find(c)`: index of the first occurrence of `c`, `none` for `npos`. -/
def find (c : Char) : Str → Option Nat
  | [] => none
  | x :: t => if x = c then some 0 else (find c t).map (· + 1)

/-- The call `boost::split(vec, s, boost::is_any_of(sep))`: every separator cuts,
empty tokens are kept, and the empty string yields one empty token. -/
def split (sep : Char) : Str → List Str
  | [] => [[]]
  | c :: t =>
    if c = sep then [] :: split sep t
    else
      match split sep t with
      | tok :: toks => (c :: tok) :: toks
      | [] => [[c]]

/-- Modelled from the spec: `util::ToLower` of `netkit/utility.h`, which is not
among the sources; the spec says names are "lower-cased". ASCII letters are
mapped to lower case, every other byte is kept. -/
def ToLower (s : Str) : Str := s.map Char.toLower

/-- Modelled from the spec: `util::ToUpper` of `netkit/utility.h`, which is not
among the sources; the spec says method names are "canonicalized upper-case".
ASCII letters are mapped to upper case, every other byte is kept. -/
def ToUpper (s : Str) : Str := s.map Char.toUpper

/-! ## detail: SplitKeyValue, IsNeedDecode, DecodeData -/

/-- `SplitKeyValue(src, key, val)`: `some (key, val)` when the source returns
`true`, `none` when it returns `false` (key and val untouched). -/
def SplitKeyValue (src : Str) : Option (Str × Str) :=
  match find '=' src with
  | some pos => some (src.take pos, src.drop (pos + 1))
  | none => none

/-- `IsNeedDecode(str)`: `find_if` for `'%'` or `'+'` does not hit the end. -/
def IsNeedDecode (str : Str) : Bool :=
  str.any (fun c => c == '%' || c == '+')

/-- The `if / else if / else if / else` chain inside the `'%'` case of
`DecodeData`, for the two characters `c1 = str[i+1]`, `c2 = str[i+2]`:
`some (char(c1 * 16 + c2))` after the subtraction of the branch taken, `none`
for the final `else` (which appends `'%'` and breaks). -/
def DecodePair (c1 c2 : Char) : Option Char :=
  if '0' ≤ c1 ∧ c1 ≤ '9' ∧ '0' ≤ c2 ∧ c2 ≤ '9' then
    some (Char.ofNat (((c1.toNat - '0'.toNat) * 16 + (c2.toNat - '0'.toNat)) % 256))
  else if 'a' ≤ c1 ∧ c1 ≤ 'f' ∧ 'a' ≤ c2 ∧ c2 ≤ 'f' then
    some (Char.ofNat (((c1.toNat - 'a'.toNat + 10) * 16 + (c2.toNat - 'a'.toNat + 10)) % 256))
  else if 'A' ≤ c1 ∧ c1 ≤ 'F' ∧ 'A' ≤ c2 ∧ c2 ≤ 'F' then
    some (Char.ofNat (((c1.toNat - 'A'.toNat + 10) * 16 + (c2.toNat - 'A'.toNat + 10)) % 256))
  else none

/-- `DecodeData(str)`. The argument is the part of `str` from index `i` on; the
first equation is the end of the loop, the second is an iteration with
`i + 2 < len`, the third an iteration with `i + 2 >= len`. A decoded escape
continues after `i + 2` (`i += 2` followed by `++i`). -/
def DecodeData : Str → Str
  | [] => []
  | c :: c1 :: c2 :: tail =>
    if c = '+' then ' ' :: DecodeData (c1 :: c2 :: tail)
    else if c = '%' then
      match DecodePair c1 c2 with
      | some b => b :: DecodeData tail
      | none => '%' :: DecodeData (c1 :: c2 :: tail)
    else c :: DecodeData (c1 :: c2 :: tail)
  | c :: rest =>
    if c = '+' then ' ' :: DecodeData rest
    else if c = '%' then '%' :: DecodeData rest
    else c :: DecodeData rest

/-! ## Handlers, values, errors -/

/-- The value type of a handler parameter with `std::optional` stripped: the
four branches of `SetValue`. `lexical T` stands for any other type `T`, which
goes through `boost::lexical_cast<T>`. -/
inductive BaseTy where
  | string
  | date
  | ptime
  | lexical (T : Nat)
  deriving DecidableEq, Repr

/-- One handler parameter type `Traits::ValueType<N>`: whether it is a
`std::optional` (`IsOptional<ValueType>::kValue`) and what it wraps. -/
structure ParamTy where
  optional : Bool
  base : BaseTy
  deriving DecidableEq, Repr

/-- A registered callable `Function`: its name and its parameter types after
the `PreArgs` (so `params.length` is `Traits::kArgNum`). -/
structure HandlerFn where
  name : Str
  params : List ParamTy
  deriving DecidableEq, Repr

/-- `Traits::kArgNum`. -/
def HandlerFn.kArgNum (f : HandlerFn) : Nat := f.params.length

/-- A converted value. -/
inductive Val where
  | string (s : Str)
  | date (d : Int)
  | ptime (t : Int)
  | lexical (T : Nat) (v : Int)
  deriving DecidableEq, Repr

/-- An argument passed to a handler: a plain value or a `std::optional`. -/
inductive Arg where
  | plain (v : Val)
  | opt (v : Option Val)
  deriving DecidableEq, Repr

/-- The `PreArgs` of `Router`: the context pointer, an uninterpreted handle. -/
abbrev PreArgs := Nat

/-- A handler invocation `func_(pre_args..., values...)`. -/
structure Call where
  func : Str
  pre_args : PreArgs
  values : List Arg
  deriving DecidableEq, Repr

/-- Ways a call into the router ends without invoking a handler. The first four
are the `std::runtime_error` messages of the source; `ConversionError` is an
exception of a Boost parser; the last two are a failed `assert` and an index
outside a `std::vector`. -/
inductive Error where
  | NumberOfParametersDoesNotMatch
  | RouteNotFound
  | MethodNotAllowed
  | ParameterMismatch
  | ConversionError
  | AssertionFailed
  | IndexOutOfRange
  deriving DecidableEq, Repr

/-- What the router uses of the standard library and of Boost.
* `regex_match re s`: `std::regex_match(s, results, std::regex(re, icase))`;
  `some results` on a match, `results[0]` being the whole match and
  `results[n]` the n-th group, `none` otherwise.
* `from_simple_string`, `from_iso_extended_string`, `lexical_cast T`: the
  Boost parsers, `none` when they throw.
* `moved_from s`: the content left in a `std::string` holding `s` after it has
  been moved from. -/
structure StdLib where
  regex_match : Str → Str → Option (List Str)
  from_simple_string : Str → Option Int
  from_iso_extended_string : Str → Option Int
  lexical_cast : Nat → Str → Option Int
  moved_from : Str → Str

/-! ## ArgumentMap -/

/-- `ArgumentMap = std::unordered_map<std::string, std::string>`, as an
association list with distinct keys. -/
abbrev ArgumentMap := List (Str × Str)

/-- `arg_map.find(key)`: the mapped string, `none` for `end()`. -/
def ArgumentMap.find (arg_map : ArgumentMap) (key : Str) : Option Str :=
  List.lookup key arg_map

/-- `arg_map.contains(key)`. -/
def ArgumentMap.contains (arg_map : ArgumentMap) (key : Str) : Bool :=
  (ArgumentMap.find arg_map key).isSome

/-- `arg_map.insert(std::make_pair(key, val))`: no effect when the key is
already present. -/
def ArgumentMap.insert (arg_map : ArgumentMap) (key val : Str) : ArgumentMap :=
  if ArgumentMap.contains arg_map key then arg_map else arg_map ++ [(key, val)]

/-- Overwrite the string mapped to `key` (the effect on `it->second` of moving
out of it). -/
def ArgumentMap.assign (arg_map : ArgumentMap) (key val : Str) : ArgumentMap :=
  arg_map.map (fun kv => if kv.1 = key then (kv.1, val) else kv)

/-! ## RouteBinder -/

/-- `RouteBinder<Function>`: the three data members. -/
structure RouteBinder where
  path_arg_num_ : Nat
  capture_params_ : List Str
  func_ : HandlerFn
  deriving DecidableEq, Repr

/-- The constructor of `RouteBinder`: throws when
`capture_params_.size() + path_arg_num_ != Traits::kArgNum`. -/
def RouteBinder.make (path_arg_num : Nat) (capture_params : List Str) (func : HandlerFn) :
    Except Error RouteBinder :=
  if capture_params.length + path_arg_num ≠ func.kArgNum then
    .error .NumberOfParametersDoesNotMatch
  else .ok ⟨path_arg_num, capture_params, func⟩

/-- `IsMatched<N>(arg_map)`; the list is `ValueType<N>, ValueType<N+1>, ...`, so
the empty list is the overload for `N == kArgNum`. -/
def RouteBinder.IsMatchedFrom (b : RouteBinder) (arg_map : ArgumentMap) :
    Nat → List ParamTy → Except Error Bool
  | _, [] => .ok true
  | N, ty :: tys =>
    if b.path_arg_num_ > N then b.IsMatchedFrom arg_map (N + 1) tys
    else if !ty.optional then
      match b.capture_params_.get? (N - b.path_arg_num_) with
      | none => .error .IndexOutOfRange
      | some name =>
        if !ArgumentMap.contains arg_map name then .ok false
        else b.IsMatchedFrom arg_map (N + 1) tys
    else b.IsMatchedFrom arg_map (N + 1) tys

/-- `IsMatched(path_arg_num, arg_map)`. -/
def RouteBinder.IsMatched (b : RouteBinder) (path_arg_num : Nat) (arg_map : ArgumentMap) :
    Except Error Bool :=
  if path_arg_num ≠ b.path_arg_num_ then .ok false
  else b.IsMatchedFrom arg_map 0 b.func_.params

/-- The four branches shared by the two `SetValue` overloads: the converted
value, or the exception of the parser. -/
def Convert (lib : StdLib) (base : BaseTy) (str : Str) : Except Error Val :=
  match base with
  | .string => .ok (.string str)
  | .date =>
    match lib.from_simple_string str with
    | some d => .ok (.date d)
    | none => .error .ConversionError
  | .ptime =>
    match lib.from_iso_extended_string str with
    | some t => .ok (.ptime t)
    | none => .error .ConversionError
  | .lexical T =>
    match lib.lexical_cast T str with
    | some v => .ok (.lexical T v)
    | none => .error .ConversionError

/-- `SetValue(val, str)`: the overload for `std::optional<Value>` wraps the
converted value with `std::make_optional`. -/
def SetValue (lib : StdLib) (ty : ParamTy) (str : Str) : Except Error Arg :=
  match Convert lib ty.base str with
  | .ok v => .ok (if ty.optional then .opt (some v) else .plain v)
  | .error e => .error e

/-- The string left in `it->second` after `SetValue(value, std::move(it->second))`:
only the `std::string` branches move out of their argument. -/
def AfterSetValue (lib : StdLib) (ty : ParamTy) (str : Str) : Str :=
  if ty.base = .string then lib.moved_from str else str

/-- A default-constructed `ValueType value` of optional type. -/
def EmptyOptional : Arg := .opt none

/-- `DoInvoke(pre_args..., results, arg_map, values...)`; the list of types is
`ValueType<index>, ...` for `index = sizeof...(Values)`, so the empty list is
the overload that calls `func_`. -/
def RouteBinder.DoInvoke (lib : StdLib) (b : RouteBinder) (pre_args : PreArgs)
    (results : List Str) : ArgumentMap → List ParamTy → List Arg → Except Error Call
  | _, [], values => .ok ⟨b.func_.name, pre_args, values⟩
  | arg_map, ty :: tys, values =>
    let index := values.length
    if b.path_arg_num_ > index then
      match SetValue lib ty (results.getD (index + 1) []) with
      | .error e => .error e
      | .ok value => b.DoInvoke lib pre_args results arg_map tys (values ++ [value])
    else
      match b.capture_params_.get? (index - b.path_arg_num_) with
      | none => .error .IndexOutOfRange
      | some name =>
        match ArgumentMap.find arg_map name with
        | some second =>
          match SetValue lib ty second with
          | .error e => .error e
          | .ok value =>
            b.DoInvoke lib pre_args results
              (ArgumentMap.assign arg_map name (AfterSetValue lib ty second)) tys
              (values ++ [value])
        | none =>
          if ty.optional then
            b.DoInvoke lib pre_args results arg_map tys (values ++ [EmptyOptional])
          else .error .AssertionFailed

/-- `Invoke(pre_args..., results, arg_map)` of the binder. -/
def RouteBinder.Invoke (lib : StdLib) (b : RouteBinder) (pre_args : PreArgs)
    (results : List Str) (arg_map : ArgumentMap) : Except Error Call :=
  b.DoInvoke lib pre_args results arg_map b.func_.params []

/-! ## RouteItem -/

/-- `BinderList`. -/
abbrev BinderList := List RouteBinder

/-- `RouteItem`: `regex_path_` and `allowed_method_binders_` (an
`unordered_map` from method to `BinderList`, as an association list with
distinct keys). `regex_` is `std::regex(regex_path_, icase)`, so it is
represented by `regex_path_` (`RouteItem.make` is the constructor that compiles
it); a default-constructed item has the empty `regex_path_`. -/
structure RouteItem where
  regex_path_ : Str
  allowed_method_binders_ : List (Str × BinderList)
  deriving DecidableEq, Repr

/-- The constructor `RouteItem(regex_path)`: it is `noexcept` and builds
`std::regex(regex_path, icase)`, so a pattern the library rejects ends the
program (`none`); `regex_compiles` tells which patterns the library accepts. -/
def RouteItem.make (regex_compiles : Str → Bool) (regex_path : Str) : Option RouteItem :=
  if regex_compiles regex_path then some ⟨regex_path, []⟩ else none

/-- The loop body of `AddHandleFunc` for one method: a new one-element list
when the method has none, otherwise `emplace_back` on the method's list. -/
def AddBinder (binders : List (Str × BinderList)) (method : Str) (binder : RouteBinder) :
    List (Str × BinderList) :=
  match List.lookup method binders with
  | none => binders ++ [(method, [binder])]
  | some _ =>
    binders.map (fun kv => if kv.1 = method then (kv.1, kv.2 ++ [binder]) else kv)

/-- `AddHandleFunc(path_arg_num, allowed_methods, capture_params, func)`: the
binder is constructed first (and may throw), then added under every method. -/
def RouteItem.AddHandleFunc (item : RouteItem) (path_arg_num : Nat) (allowed_methods : List Str)
    (capture_params : List Str) (func : HandlerFn) : Except Error RouteItem :=
  match RouteBinder.make path_arg_num capture_params func with
  | .error e => .error e
  | .ok binder =>
    .ok { item with
      allowed_method_binders_ :=
        allowed_methods.foldl (fun m method => AddBinder m method binder)
          item.allowed_method_binders_ }

/-- `IsAllowedMethod(method)`. -/
def RouteItem.IsAllowedMethod (item : RouteItem) (method : Str) : Bool :=
  (List.lookup method item.allowed_method_binders_).isSome

/-- The `for` loop of `RouteItem::Invoke` over the method's binders, ending in
`throw std::runtime_error("Parameter mismatch")`. -/
def InvokeLoop (lib : StdLib) (pre_args : PreArgs) (results : List Str) (arg_map : ArgumentMap)
    (path_arg_num : Nat) : BinderList → Except Error Call
  | [] => .error .ParameterMismatch
  | binder :: rest =>
    match binder.IsMatched path_arg_num arg_map with
    | .error e => .error e
    | .ok true => binder.Invoke lib pre_args results arg_map
    | .ok false => InvokeLoop lib pre_args results arg_map path_arg_num rest

/-- `RouteItem::Invoke(pre_args..., method, results, arg_map)`. -/
def RouteItem.Invoke (lib : StdLib) (item : RouteItem) (pre_args : PreArgs) (method : Str)
    (results : List Str) (arg_map : ArgumentMap) : Except Error Call :=
  let path_arg_num := if results.length > 1 then results.length - 1 else 0
  match List.lookup method item.allowed_method_binders_ with
  | none => .error .AssertionFailed
  | some binders => InvokeLoop lib pre_args results arg_map path_arg_num binders

/-! ## Placeholders: the regex `\{([^/]*)\}` of AddRoute -/

/-- Index of the last occurrence of `c` in `s`. -/
def rfind (c : Char) : Str → Option Nat
  | [] => none
  | x :: t =>
    match rfind c t with
    | some i => some (i + 1)
    | none => if x = c then some 0 else none

/-- Length of the match of `\{([^/]*)\}` that starts at the first character of
`s`: an opening brace, then the greedy group, which backs off to the last
closing brace before the next `'/'`. -/
def PlaceholderAt : Str → Option Nat
  | [] => none
  | c :: t =>
    if c = '{' then
      match rfind '}' (t.takeWhile (fun x => x != '/')) with
      | some j => some (j + 2)
      | none => none
    else none

/-- `std::regex_search(s, results, regex)` for the placeholder regex: the
leftmost match, as (text before the match, the match, `results.suffix()`). -/
def PlaceholderSearch : Str → Option (Str × Str × Str)
  | [] => none
  | c :: t =>
    match PlaceholderAt (c :: t) with
    | some len => some ([], (c :: t).take len, (c :: t).drop len)
    | none =>
      match PlaceholderSearch t with
      | some (before, found, after) => some (c :: before, found, after)
      | none => none

/-- The counting loop of `AddRoute`:
`while (regex_search(temp_path, ...)) { ++path_arg_num; temp_path = suffix; }`,
with a bound on the number of iterations. -/
def CountPlaceholdersLoop : Nat → Str → Nat
  | 0, _ => 0
  | fuel + 1, temp_path =>
    match PlaceholderSearch temp_path with
    | some (_, _, after) => CountPlaceholdersLoop fuel after + 1
    | none => 0

/-- The value of `path_arg_num` after the counting loop; a match is at least two
characters long, so `path.length` iterations suffice. -/
def CountPlaceholders (path : Str) : Nat := CountPlaceholdersLoop path.length path

/-- `std::regex_replace(path, regex, "([^/]*)")`, with a bound on the number of
matches: every match, left to right, is replaced. -/
def ReplacePlaceholdersLoop : Nat → Str → Str
  | 0, s => s
  | fuel + 1, s =>
    match PlaceholderSearch s with
    | some (before, _, after) =>
      before ++ "([^/]*)".toList ++ ReplacePlaceholdersLoop fuel after
    | none => s

/-- The value of `replaced_path`. -/
def ReplacePlaceholders (path : Str) : Str := ReplacePlaceholdersLoop path.length path

/-! ## BasicRouter -/

/-- `BasicRouter`: `route_vec_` and `route_map_` (an `unordered_map` from path to
`RouteItem`, as an association list with distinct keys). -/
structure BasicRouter where
  route_vec_ : List RouteItem
  route_map_ : List (Str × RouteItem)
  deriving DecidableEq, Repr

/-- A default-constructed router. -/
def BasicRouter.empty : BasicRouter := ⟨[], []⟩

/-- The first part of `AddRoute`: `path` and `capture_params` from `target`. -/
def SplitTarget (target : Str) : Str × List Str :=
  match find '?' target with
  | some pos =>
    (target.take pos,
      (split '&' (target.drop (pos + 1))).map (fun str =>
        match SplitKeyValue str with
        | some (k, _) => ToLower k
        | none => ToLower str))
  | none => (target, [])

/-- Apply `f` to the first element that satisfies `p`: a write through
`item_ptr` when it points into `route_vec_`. -/
def UpdateFirst {α : Type} (p : α → Bool) (f : α → α) : List α → List α
  | [] => []
  | x :: xs => if p x then f x :: xs else x :: UpdateFirst p f xs

/-- `AddRoute(target, func, allowed_methods)` in a run that returns or throws:
the router after the call, and the exception when it throws. The route item is
looked up or created before `AddHandleFunc` runs; the constructor of a new
`RouteItem` is taken to return (`AddRouteOrTerminate` has the run in which it
ends the program). -/
def BasicRouter.AddRoute (router : BasicRouter) (target : Str) (func : HandlerFn)
    (allowed_methods : List Str) : BasicRouter × Option Error :=
  let path := (SplitTarget target).1
  let capture_params := (SplitTarget target).2
  let path_arg_num := CountPlaceholders path
  let replaced_path := ReplacePlaceholders path
  let methods := allowed_methods.map ToUpper
  if replaced_path ≠ path then
    let found := router.route_vec_.find? (fun it => it.regex_path_ = replaced_path)
    let item : RouteItem :=
      match found with
      | some it => it
      | none => ⟨replaced_path, []⟩
    let vec :=
      match found with
      | some _ => router.route_vec_
      | none => router.route_vec_ ++ [item]
    match item.AddHandleFunc path_arg_num methods capture_params func with
    | .error e => ({ router with route_vec_ := vec }, some e)
    | .ok item2 =>
      ({ router with
          route_vec_ :=
            UpdateFirst (fun it => it.regex_path_ = replaced_path) (fun _ => item2) vec },
        none)
  else
    let item : RouteItem :=
      match List.lookup path router.route_map_ with
      | some it => it
      | none => ⟨[], []⟩
    let map :=
      match List.lookup path router.route_map_ with
      | some _ => router.route_map_
      | none => router.route_map_ ++ [(path, item)]
    match item.AddHandleFunc path_arg_num methods capture_params func with
    | .error e => ({ router with route_map_ := map }, some e)
    | .ok item2 =>
      ({ router with
          route_map_ := map.map (fun kv => if kv.1 = path then (kv.1, item2) else kv) },
        none)

/-- `AddRoute(target, func, allowed_methods)` with the construction of the route
regex: `none` when the program is terminated in the constructor of `RouteItem`,
otherwise the router after the call and the exception when it throws. -/
def BasicRouter.AddRouteOrTerminate (regex_compiles : Str → Bool) (router : BasicRouter)
    (target : Str) (func : HandlerFn) (allowed_methods : List Str) :
    Option (BasicRouter × Option Error) :=
  let path := (SplitTarget target).1
  let capture_params := (SplitTarget target).2
  let path_arg_num := CountPlaceholders path
  let replaced_path := ReplacePlaceholders path
  let methods := allowed_methods.map ToUpper
  if replaced_path ≠ path then
    match router.route_vec_.find? (fun it => it.regex_path_ = replaced_path) with
    | some it =>
      match it.AddHandleFunc path_arg_num methods capture_params func with
      | .error e => some (router, some e)
      | .ok item2 =>
        some ({ router with
            route_vec_ :=
              UpdateFirst (fun it => it.regex_path_ = replaced_path) (fun _ => item2)
                router.route_vec_ },
          none)
    | none =>
      match RouteItem.make regex_compiles replaced_path with
      | none => none
      | some item =>
        match item.AddHandleFunc path_arg_num methods capture_params func with
        | .error e => some ({ router with route_vec_ := router.route_vec_ ++ [item] }, some e)
        | .ok item2 =>
          some ({ router with
              route_vec_ :=
                UpdateFirst (fun it => it.regex_path_ = replaced_path) (fun _ => item2)
                  (router.route_vec_ ++ [item]) },
            none)
  else
    match List.lookup path router.route_map_ with
    | some it =>
      match it.AddHandleFunc path_arg_num methods capture_params func with
      | .error e => some (router, some e)
      | .ok item2 =>
        some ({ router with
            route_map_ :=
              router.route_map_.map (fun kv => if kv.1 = path then (kv.1, item2) else kv) },
          none)
    | none =>
      let item : RouteItem := ⟨[], []⟩
      match item.AddHandleFunc path_arg_num methods capture_params func with
      | .error e =>
        some ({ router with route_map_ := router.route_map_ ++ [(path, item)] }, some e)
      | .ok item2 =>
        some ({ router with
            route_map_ :=
              (router.route_map_ ++ [(path, item)]).map
                (fun kv => if kv.1 = path then (kv.1, item2) else kv) },
          none)

/-- The loop of `FindRoute` over `route_vec_`: the first item whose regex
matches the whole path, with the match results. -/
def FindRegexRoute (lib : StdLib) (path : Str) : List RouteItem → Option (RouteItem × List Str)
  | [] => none
  | item :: rest =>
    match lib.regex_match item.regex_path_ path with
    | some results => some (item, results)
    | none => FindRegexRoute lib path rest

/-- `FindRoute(path, results)`: the item found (`none` for `nullptr`) together
with `results`, which stays empty when the path is a key of `route_map_`. -/
def BasicRouter.FindRoute (lib : StdLib) (router : BasicRouter) (path : Str) :
    Option (RouteItem × List Str) :=
  match List.lookup path router.route_map_ with
  | some item => some (item, [])
  | none => FindRegexRoute lib path router.route_vec_

/-- The query loop of `Routing`, `while (param_sv.size() > 0) ...`, with a bound
on the number of iterations. -/
def ParseQueryLoop : Nat → Str → ArgumentMap → ArgumentMap
  | 0, _, arg_map => arg_map
  | fuel + 1, param_sv, arg_map =>
    if param_sv.length > 0 then
      let kv_sv :=
        match find '&' param_sv with
        | some pos => param_sv.take pos
        | none => param_sv
      let rest :=
        match find '&' param_sv with
        | some pos => param_sv.drop (pos + 1)
        | none => []
      match SplitKeyValue kv_sv with
      | some (key, val) =>
        let key2 := if IsNeedDecode key then DecodeData key else key
        let val2 := if IsNeedDecode val then DecodeData val else val
        ParseQueryLoop fuel rest (ArgumentMap.insert arg_map (ToLower key2) val2)
      | none => ParseQueryLoop fuel rest arg_map
    else arg_map

/-- The `ArgumentMap` built by `Routing` from the query string; every iteration
removes at least one character, so `param_sv.length` iterations suffice. -/
def ParseQuery (param_sv : Str) : ArgumentMap :=
  ParseQueryLoop param_sv.length param_sv []

/-- `Routing(pre_args..., method, target)`. -/
def BasicRouter.Routing (lib : StdLib) (router : BasicRouter) (pre_args : PreArgs)
    (method : Str) (target : Str) : Except Error Call :=
  let path_sv :=
    match find '?' target with
    | some pos => target.take pos
    | none => target
  let param_sv :=
    match find '?' target with
    | some pos => target.drop (pos + 1)
    | none => []
  let decoded_path := if IsNeedDecode path_sv then DecodeData path_sv else path_sv
  match router.FindRoute lib decoded_path with
  | none => .error .RouteNotFound
  | some (route, results) =>
    if !route.IsAllowedMethod method then .error .MethodNotAllowed
    else route.Invoke lib pre_args method results (ParseQuery param_sv)

/-! ## A concrete library and the router of the test

`TestLib` fixes the library behaviour used when the definitions are evaluated
on concrete requests. -/

/-- A piece of a compiled route: a literal character or the group `([^/]*)`. -/
inductive Tok where
  | lit (c : Char)
  | group
  deriving DecidableEq, Repr

/-- Cut a `regex_path_` into pieces; `skip` characters of a group just
recognised are still to be passed over. -/
def Tokenize : Nat → Str → List Tok
  | _, [] => []
  | skip + 1, _ :: t => Tokenize skip t
  | 0, c :: t =>
    if (c :: t).take 7 = "([^/]*)".toList then Tok.group :: Tokenize 6 t
    else Tok.lit c :: Tokenize 0 t

/-- The greedy group `([^/]*)` followed by the rest of the pattern `k`: the
longest run of `n` or fewer characters after which `k` matches. -/
def GreedyGroup (k : Str → Option (List Str)) (s : Str) : Nat → Option (List Str)
  | 0 =>
    match k s with
    | some caps => some ([] :: caps)
    | none => none
  | n + 1 =>
    match k (s.drop (n + 1)) with
    | some caps => some (s.take (n + 1) :: caps)
    | none => GreedyGroup k s n

/-- Match the whole of a string against the pieces, ignoring ASCII case in
literals; the result is the list of group captures. -/
def MatchTokens : List Tok → Str → Option (List Str)
  | [] => fun s => if s = [] then some [] else none
  | Tok.lit c :: ts => fun s =>
    match s with
    | x :: r => if x.toLower = c.toLower then MatchTokens ts r else none
    | [] => none
  | Tok.group :: ts => fun s =>
    GreedyGroup (MatchTokens ts) s (s.takeWhile (fun x => x != '/')).length

/-- `std::regex_match` with `icase` for a `regex_path_` whose text outside the
groups `([^/]*)` has no regex metacharacter. -/
def SegmentRegexMatch (re s : Str) : Option (List Str) :=
  match MatchTokens (Tokenize 0 re) s with
  | some caps => some (s :: caps)
  | none => none

/-- Value of a string of decimal digits, `none` when a character is not a digit
or the string is empty. -/
def ParseDigits : Str → Option Nat
  | [] => none
  | s => s.foldl (fun acc c =>
      match acc with
      | some n => if '0' ≤ c ∧ c ≤ '9' then some (n * 10 + (c.toNat - '0'.toNat)) else none
      | none => none) (some 0)

/-- `boost::lexical_cast<std::int32_t>`: an optional sign, decimal digits, and a
value that fits in 32 bits. -/
def LexicalCastInt32 (s : Str) : Option Int :=
  let v : Option Int :=
    match s with
    | '-' :: t => (ParseDigits t).map (fun n => - (n : Int))
    | '+' :: t => (ParseDigits t).map (fun n => (n : Int))
    | _ => (ParseDigits s).map (fun n => (n : Int))
  match v with
  | some n => if -2147483648 ≤ n ∧ n ≤ 2147483647 then some n else none
  | none => none

/-- The library used for concrete evaluation: segment regexes, `lexical_cast`
to `std::int32_t` for every `lexical` type, a moved-from string left empty; the
date and time parsers are not exercised and reject every text. -/
def TestLib : StdLib where
  regex_match := SegmentRegexMatch
  from_simple_string := fun _ => none
  from_iso_extended_string := fun _ => none
  lexical_cast := fun _ => LexicalCastInt32
  moved_from := fun _ => []

/-- The type `std::string`. -/
def TString : ParamTy := ⟨false, .string⟩

/-- The type `std::optional<std::string>`. -/
def TOptString : ParamTy := ⟨true, .string⟩

/-- The type `std::int32_t`. -/
def TInt32 : ParamTy := ⟨false, .lexical 0⟩

/-- `OnHello(ctx)`. -/
def OnHello : HandlerFn := ⟨"OnHello".toList, []⟩

/-- `OnHelloPath(ctx, name)`. -/
def OnHelloPath : HandlerFn := ⟨"OnHelloPath".toList, [TString]⟩

/-- `OnHelloArg(ctx, name, nick_name, age)`. -/
def OnHelloArg : HandlerFn := ⟨"OnHelloArg".toList, [TString, TOptString, TInt32]⟩

/-- The router of `TestHttpRouter` after its three registrations. -/
def TestRouter : BasicRouter :=
  (((BasicRouter.empty.AddRoute "/hello?name&nick_name&age".toList OnHelloArg
      ["GET".toList]).1.AddRoute "/hello/{name}".toList OnHelloPath
      ["GET".toList]).1.AddRoute "/hello".toList OnHello ["GET".toList, "POST".toList]).1

/-! ## Notions used to state the properties -/

/-- Equality of outcomes (a result or an error) is decidable. -/
instance instDecidableEqOutcome {α : Type} [DecidableEq α] : DecidableEq (Except Error α) :=
  fun a b =>
  match a, b with
  | .ok x, .ok y =>
    if h : x = y then isTrue (by rw [h]) else isFalse (by intro h2; cases h2; exact h rfl)
  | .error x, .error y =>
    if h : x = y then isTrue (by rw [h]) else isFalse (by intro h2; cases h2; exact h rfl)
  | .ok _, .error _ => isFalse (by intro h; cases h)
  | .error _, .ok _ => isFalse (by intro h; cases h)

/-- A hexadecimal digit: `0`-`9`, `a`-`f` or `A`-`F`. -/
def IsHexDigit (c : Char) : Prop :=
  ('0' ≤ c ∧ c ≤ '9') ∨ ('a' ≤ c ∧ c ≤ 'f') ∨ ('A' ≤ c ∧ c ≤ 'F')

instance instDecidableIsHexDigit (c : Char) : Decidable (IsHexDigit c) := by
  unfold IsHexDigit; infer_instance

/-- The value of a hexadecimal digit. -/
def HexValue (c : Char) : Nat :=
  if '0' ≤ c ∧ c ≤ '9' then c.toNat - '0'.toNat
  else if 'a' ≤ c ∧ c ≤ 'f' then c.toNat - 'a'.toNat + 10
  else c.toNat - 'A'.toNat + 10

/-- Two hexadecimal digits of the same kind: both decimal digits, both
lower-case letters, or both upper-case letters. -/
def SameClass (x y : Char) : Prop :=
  ('0' ≤ x ∧ x ≤ '9' ∧ '0' ≤ y ∧ y ≤ '9') ∨ ('a' ≤ x ∧ x ≤ 'f' ∧ 'a' ≤ y ∧ y ≤ 'f') ∨
    ('A' ≤ x ∧ x ≤ 'F' ∧ 'A' ≤ y ∧ y ≤ 'F')

/-- No `'%'` of the string is followed by two hexadecimal digits. -/
def NoEscape (s : Str) : Prop :=
  ∀ (p q : Str) (x y : Char), s = p ++ '%' :: x :: y :: q → ¬ (IsHexDigit x ∧ IsHexDigit y)

/-- The string with every `'+'` replaced by a space. -/
def PlusToSpace (s : Str) : Str := s.map (fun c => if c = '+' then ' ' else c)

/-- The query loop of the dispatcher as the spec words it, decoding key and
value whether or not they need it. -/
def ParseQueryLoopAlwaysDecode : Nat → Str → ArgumentMap → ArgumentMap
  | 0, _, arg_map => arg_map
  | fuel + 1, param_sv, arg_map =>
    if param_sv.length > 0 then
      let kv_sv :=
        match find '&' param_sv with
        | some pos => param_sv.take pos
        | none => param_sv
      let rest :=
        match find '&' param_sv with
        | some pos => param_sv.drop (pos + 1)
        | none => []
      match SplitKeyValue kv_sv with
      | some (key, val) =>
        ParseQueryLoopAlwaysDecode fuel rest
          (ArgumentMap.insert arg_map (ToLower (DecodeData key)) (DecodeData val))
      | none => ParseQueryLoopAlwaysDecode fuel rest arg_map
    else arg_map

/-- The dispatcher without the fast path: path, keys and values are decoded
unconditionally. -/
def BasicRouter.RoutingAlwaysDecode (lib : StdLib) (router : BasicRouter) (pre_args : PreArgs)
    (method : Str) (target : Str) : Except Error Call :=
  let path_sv :=
    match find '?' target with
    | some pos => target.take pos
    | none => target
  let param_sv :=
    match find '?' target with
    | some pos => target.drop (pos + 1)
    | none => []
  match router.FindRoute lib (DecodeData path_sv) with
  | none => .error .RouteNotFound
  | some (route, results) =>
    if !route.IsAllowedMethod method then .error .MethodNotAllowed
    else
      route.Invoke lib pre_args method results
        (ParseQueryLoopAlwaysDecode param_sv.length param_sv [])

/-- The part of a request target before the first `'?'` (`path_sv`). -/
def TargetPath (target : Str) : Str :=
  match find '?' target with
  | some pos => target.take pos
  | none => target

/-- The part of a request target after the first `'?'` (`param_sv`), empty when
there is no `'?'`. -/
def TargetQuery (target : Str) : Str :=
  match find '?' target with
  | some pos => target.drop (pos + 1)
  | none => []

/-- The invariant established by the constructor of `RouteBinder`. -/
def RouteBinder.WellFormed (b : RouteBinder) : Prop :=
  b.capture_params_.length + b.path_arg_num_ = b.func_.kArgNum

instance instDecidableWellFormed (b : RouteBinder) : Decidable b.WellFormed := by
  unfold RouteBinder.WellFormed; infer_instance

/-- The query parameters of a binding with their declared types: the `j`-th name
belongs to handler parameter `path_arg_num_ + j`. -/
def RouteBinder.QueryParams (b : RouteBinder) : List (Str × ParamTy) :=
  List.zip b.capture_params_ (b.func_.params.drop b.path_arg_num_)

/-- The requirement of the spec on a binding, for capture count `c` and
argument map `m`: its `path_arg_count` equals `c`, and every query parameter
that is not optional is a key of `m`. -/
def RouteBinder.Satisfied (b : RouteBinder) (c : Nat) (m : ArgumentMap) : Bool :=
  decide (b.path_arg_num_ = c) &&
    b.QueryParams.all (fun q => q.2.optional || ArgumentMap.contains m q.1)

/-- The capture count `path_arg_num` that `RouteItem::Invoke` derives from the
match results. -/
def CaptureCount (results : List Str) : Nat := results.length - 1

/-- Routers built from the empty router by `AddRoute` calls that all returned
without throwing. -/
inductive Built : BasicRouter → Prop where
  | empty : Built BasicRouter.empty
  | add (r : BasicRouter) (target : Str) (func : HandlerFn) (methods : List Str) :
      Built r → (r.AddRoute target func methods).2 = none →
      Built (r.AddRoute target func methods).1

/-- Every binding stored in the route item satisfies the constructor invariant. -/
def RouteItem.BindersWellFormed (item : RouteItem) : Prop :=
  ∀ kv ∈ item.allowed_method_binders_, ∀ b ∈ kv.2, b.WellFormed

/-- Invariant of the route table: stored bindings satisfy the constructor
invariant, and the keys of `route_map_` contain no `'?'`. -/
def BasicRouter.TableOK (r : BasicRouter) : Prop :=
  (∀ item ∈ r.route_vec_, item.BindersWellFormed) ∧
  (∀ kv ∈ r.route_map_, kv.2.BindersWellFormed ∧ '?' ∉ kv.1)

/-- `OnName(ctx, name)` with `name` a `std::string`. -/
def OnName : HandlerFn := ⟨"OnName".toList, [TString]⟩

/-- A router with the single registration `("/hello?name", OnName, {"GET"})`. -/
def NameRouter : BasicRouter :=
  (BasicRouter.empty.AddRoute "/hello?name".toList OnName ["GET".toList]).1

/-- The `'&'`-separated segments of a query string that contain `'='`, each
split at its first `'='`, as pairs (decoded and lower-cased key, decoded value),
in the order of the segments. -/
def QueryPairs (query : Str) : List (Str × Str) :=
  (split '&' query).filterMap (fun seg =>
    match SplitKeyValue seg with
    | some (k, v) => some (ToLower (DecodeData k), DecodeData v)
    | none => none)

/-- `OnPair(ctx, first, second)` with two `std::string` parameters. -/
def OnPair : HandlerFn := ⟨"OnPair".toList, [TString, TString]⟩

/-- A router with the single registration `("/x?a&a", OnPair, {"GET"})`, which
declares the query name `a` for both parameters. -/
def PairRouter : BasicRouter :=
  (BasicRouter.empty.AddRoute "/x?a&a".toList OnPair ["GET".toList]).1

/-- The argument the binding rule of the spec gives parameter `i` of type `ty`:
below `path_arg_count` the conversion of capture `i`; from there on the
conversion of the string the argument map holds for the query name of the
parameter, or the empty optional when the name is absent and the type optional. -/
def ExpectedArg (lib : StdLib) (b : RouteBinder) (results : List Str) (m : ArgumentMap)
    (i : Nat) (ty : ParamTy) : Except Error Arg :=
  if i < b.path_arg_num_ then SetValue lib ty (results.getD (i + 1) [])
  else
    match ArgumentMap.find m (b.capture_params_.getD (i - b.path_arg_num_) []) with
    | some str => SetValue lib ty str
    | none => if ty.optional then .ok EmptyOptional else .error .AssertionFailed

/-! ## IoContextPool -/

/-- `IoContextPool`: the number of contexts (`contexts_.size()`; context number
`i` is `*contexts_[i]`) and `next_index_`, a `std::size_t` of 64 bits. -/
structure IoContextPool where
  contexts_size : Nat
  next_index_ : Nat
  deriving DecidableEq, Repr

/-- The constructor `IoContextPool(size)`. -/
def IoContextPool.make (size : Nat) : IoContextPool := ⟨size, 0⟩

/-- `Get()`: the number of the context returned, `next_index_++ % contexts_.size()`,
and the pool after the call, the increment wrapping at `2 ^ 64`. -/
def IoContextPool.Get (p : IoContextPool) : Nat × IoContextPool :=
  (p.next_index_ % p.contexts_size, { p with next_index_ := (p.next_index_ + 1) % 2 ^ 64 })

/-- The pool after `k` calls of `Get`. -/
def IoContextPool.AfterCalls : Nat → IoContextPool → IoContextPool
  | 0, p => p
  | k + 1, p => IoContextPool.AfterCalls k p.Get.2

/-- The context number returned by the `k`-th call of `Get`, counting from 0. -/
def IoContextPool.NthGet (k : Nat) (p : IoContextPool) : Nat :=
  (IoContextPool.AfterCalls k p).Get.1

/-- The table `kUrls` of `TestHttpRouter`: method, url, and the expected value
of `funcname` (empty when the call must throw). -/
def kUrls : List (String × String × String) :=
  [("GET", "/hello", "OnHello"),
   ("GET", "/hello?name=xxx&age=34", "OnHelloArg"),
   ("GET", "/hello?nick_name=xxx&name=yyy&age=18", "OnHelloArg"),
   ("GET", "/hello/xxx", "OnHelloPath"),
   ("GET", "/hello?name=yyy&age=18&other", "OnHelloArg"),
   ("GET", "/hello?name1=xxx", "OnHello"),
   ("GET", "/hello?nick_name=xxx", "OnHello"),
   ("GET", "/hello1", ""),
   ("GET", "/hello/xxx/yyyy", ""),
   ("GET", "/hello?name=yyy&age=bad", ""),
   ("POST", "/hello", "OnHello"),
   ("POST", "/hello?name=xxx&age=34", "OnHello"),
   ("POST", "/hello?nick_name=xxx&name=yyy&age=18", "OnHello"),
   ("POST", "/hello/xxx", ""),
   ("POST", "/hello?name=yyy&age=18&other", "OnHello"),
   ("POST", "/hello?name1=xxx", "OnHello"),
   ("POST", "/hello?nick_name=xxx", "OnHello"),
   ("POST", "/hello1", ""),
   ("POST", "/hello/xxx/yyyy", ""),
   ("POST", "/hello?name=yyy&age=bad", "OnHello")]

/-- The value of `funcname` after a call of `Routing` in the test loop: the name
of the handler invoked, or the empty string when the call threw. -/
def FuncNameAfter : Except Error Call → Str
  | .ok call => call.func
  | .error _ => []

/-- The number of `'&'`-separated query declarations after the first `'?'` of a
registration target: one more than the number of `'&'` after it, and none when
the target has no `'?'`. -/
def QueryDeclCount (target : Str) : Nat :=
  match find '?' target with
  | some pos => (target.drop (pos + 1)).count '&' + 1
  | none => 0

/-- A call `AddRoute(target, func, allowed_methods)`. -/
structure Registration where
  target : Str
  func : HandlerFn
  allowed_methods : List Str
  deriving DecidableEq, Repr

/-- The `path` of the registration: the target up to the first `'?'`. -/
def Registration.path (g : Registration) : Str := (SplitTarget g.target).1

/-- The lower-cased query names of the registration (`capture_params`). -/
def Registration.capture_params (g : Registration) : List Str := (SplitTarget g.target).2

/-- The `replaced_path` of the registration. -/
def Registration.replaced_path (g : Registration) : Str := ReplacePlaceholders g.path

/-- The `is_regex` of the registration. -/
def Registration.is_regex (g : Registration) : Bool := decide (g.replaced_path ≠ g.path)

/-- The binder the registration constructs. -/
def Registration.binder (g : Registration) : RouteBinder :=
  ⟨CountPlaceholders g.path, g.capture_params, g.func⟩

/-- The constructor of the binder does not throw. -/
def Registration.accepted (g : Registration) : Bool :=
  decide (g.capture_params.length + CountPlaceholders g.path = g.func.kArgNum)

/-- The route item `item_ptr` points to, after `AddHandleFunc`: with the new
binder added under every upper-cased method when the registration is accepted,
unchanged when the constructor of the binder threw. -/
def Registration.Apply (g : Registration) (item : RouteItem) : RouteItem :=
  if g.accepted then
    { item with
      allowed_method_binders_ :=
        (g.allowed_methods.map ToUpper).foldl (fun m method => AddBinder m method g.binder)
          item.allowed_method_binders_ }
  else item

/-- The router after a sequence of `AddRoute` calls on a default-constructed
router, exceptions of rejected calls being caught by the caller. -/
def Build (regs : List Registration) : BasicRouter :=
  regs.foldl (fun r g => (r.AddRoute g.target g.func g.allowed_methods).1) BasicRouter.empty

/-- The three registrations of `TestHttpRouter`, in order. -/
def TestRegistrations : List Registration :=
  [⟨"/hello?name&nick_name&age".toList, OnHelloArg, ["GET".toList]⟩,
   ⟨"/hello/{name}".toList, OnHelloPath, ["GET".toList]⟩,
   ⟨"/hello".toList, OnHello, ["GET".toList, "POST".toList]⟩]

/-- The distinct strings of a list, in the order of their first occurrence. -/
def FirstOccurrences (l : List Str) : List Str :=
  l.foldl (fun acc x => if x ∈ acc then acc else acc ++ [x]) []

/-- The registration is accepted, is of the given kind (with a placeholder or
literal), has the given path after replacement of the placeholders (for a
literal registration, its path), and lists `m` among its upper-cased methods. -/
def Registration.Allows (g : Registration) (is_regex : Bool) (key m : Str) : Prop :=
  g.accepted = true ∧ g.is_regex = is_regex ∧ g.replaced_path = key ∧
    m ∈ g.allowed_methods.map ToUpper

/-- A router with the single registration `("/hello", OnHello, {"get"})`. -/
def LowerCaseRegistrations : List Registration :=
  [⟨"/hello".toList, OnHello, ["get".toList]⟩]

/-- A placeholder route allowing `POST` and a literal route allowing `GET` whose
path matches the placeholder pattern. -/
def OverlapRegistrations : List Registration :=
  [⟨"/hello/{name}".toList, OnHelloPath, ["POST".toList]⟩,
   ⟨"/hello/xxx".toList, OnHello, ["GET".toList]⟩]

/-- The name of a query declaration: its text before the first `'='`, all of it
when it has none. -/
def DeclaredName (d : Str) : Str := d.takeWhile (fun c => c != '=')

/-- A router with the single registration `("/hello?Name=x", OnName, {"GET"})`. -/
def MixedCaseRegistrations : List Registration :=
  [⟨"/hello?Name=x".toList, OnName, ["GET".toList]⟩]

/-! ## Registration paths as pieces -/

/-- A piece of a registration path: a literal character, or a placeholder
`{name}`. -/
inductive Piece where
  | lit (c : Char)
  | hole (name : Str)
  deriving DecidableEq, Repr

/-- The registration path written by the pieces. -/
def Render : List Piece → Str
  | [] => []
  | Piece.lit c :: ps => c :: Render ps
  | Piece.hole name :: ps => '{' :: (name ++ '}' :: Render ps)

/-- The request path obtained by putting the values, in order, in the
placeholder positions (a placeholder without a value gets the empty string). -/
def Fill : List Piece → List Str → Str
  | [], _ => []
  | Piece.lit c :: ps, vs => c :: Fill ps vs
  | Piece.hole _ :: ps, v :: vs => v ++ Fill ps vs
  | Piece.hole _ :: ps, [] => Fill ps []

/-- The number of placeholders among the pieces. -/
def HoleCount : List Piece → Nat
  | [] => 0
  | Piece.lit _ :: ps => HoleCount ps
  | Piece.hole _ :: ps => HoleCount ps + 1

/-- The characters with a meaning of their own in an ECMAScript regular
expression. -/
def IsRegexMeta (c : Char) : Bool :=
  ['^', '$', Char.ofNat 92, '.', '*', '+', '?', '(', ')', '[', ']', '{', '}', '|'].contains c

/-- A literal piece is no regex metacharacter; the name of a placeholder has
no `'/'`. -/
def PieceOK : Piece → Bool
  | Piece.lit c => !IsRegexMeta c
  | Piece.hole name => decide ('/' ∉ name)

/-- Every piece is as `PieceOK` requires. -/
def PiecesOK (ps : List Piece) : Bool := ps.all PieceOK

/-- The pieces of `/hello/{name}`. -/
def HelloNamePieces : List Piece :=
  "/hello/".toList.map Piece.lit ++ [Piece.hole "name".toList]

/-- The pieces of `/user/{id}`. -/
def UserIdPieces : List Piece :=
  "/user/".toList.map Piece.lit ++ [Piece.hole "id".toList]

/-- `OnKind(ctx, kind)` with `kind` a `std::string`. -/
def OnKind : HandlerFn := ⟨"OnKind".toList, [TString]⟩

/-- `OnUser(ctx, id)` with `id` a `std::string`. -/
def OnUser : HandlerFn := ⟨"OnUser".toList, [TString]⟩

/-- Two placeholder routes that both match `/user/list`, the more general one
registered first. -/
def ShadowRegistrations : List Registration :=
  [⟨"/{kind}/list".toList, OnKind, ["GET".toList]⟩,
   ⟨"/user/{id}".toList, OnUser, ["GET".toList]⟩]

/-! ## Counting placeholders by path segment -/

/-- The patterns the library of the tests compiles: literal characters that are
no regex metacharacter, and groups `([^/]*)`. -/
def SegmentRegexCompiles (re : Str) : Bool :=
  (Tokenize 0 re).all (fun t =>
    match t with
    | Tok.group => true
    | Tok.lit c => !IsRegexMeta c)

/-- The number of `'/'`-separated segments of the path written by the pieces
that hold a placeholder; `seen` tells that the segment being read already
holds one. -/
def HoleSegmentsFrom : Bool → List Piece → Nat
  | _, [] => 0
  | seen, Piece.lit c :: ps =>
    if c = '/' then HoleSegmentsFrom false ps else HoleSegmentsFrom seen ps
  | seen, Piece.hole _ :: ps => (if seen then 0 else 1) + HoleSegmentsFrom true ps

/-- The number of path segments that hold a placeholder. -/
def HoleSegments (ps : List Piece) : Nat := HoleSegmentsFrom false ps

/-- No path segment holds two placeholders; `seen` tells that the segment being
read already holds one. -/
def HolesApartFrom : Bool → List Piece → Bool
  | _, [] => true
  | seen, Piece.lit c :: ps =>
    if c = '/' then HolesApartFrom false ps else HolesApartFrom seen ps
  | seen, Piece.hole _ :: ps => !seen && HolesApartFrom true ps

/-- No path segment holds two placeholders. -/
def HolesApart (ps : List Piece) : Bool := HolesApartFrom false ps

/-- The name of every placeholder is free of braces, so that the path is
written by the pieces in one way only. -/
def NamesPlain (ps : List Piece) : Bool :=
  ps.all (fun p =>
    match p with
    | Piece.lit _ => true
    | Piece.hole name => decide ('{' ∉ name ∧ '}' ∉ name))

/-- The pieces of `/x/{a}-{b}`. -/
def DashPieces : List Piece :=
  "/x/".toList.map Piece.lit ++
    [Piece.hole "a".toList, Piece.lit '-', Piece.hole "b".toList]

/-- The pieces of `/a/{x}/b/{y}`. -/
def TwoSegmentPieces : List Piece :=
  "/a/".toList.map Piece.lit ++ [Piece.hole "x".toList] ++
    "/b/".toList.map Piece.lit ++ [Piece.hole "y".toList]

/-! # Theorems -/

/-! ## The decoder -/

theorem DecodeData_plus (rest : Str) : DecodeData ('+' :: rest) = ' ' :: DecodeData rest := by
  rcases rest with _ | ⟨a, _ | ⟨b, t⟩⟩ <;> simp [DecodeData]

theorem DecodeData_other (c : Char) (rest : Str) (h1 : c ≠ '+') (h2 : c ≠ '%') :
    DecodeData (c :: rest) = c :: DecodeData rest := by
  rcases rest with _ | ⟨a, _ | ⟨b, t⟩⟩ <;> simp [DecodeData, h1, h2]

theorem DecodeData_percent_short (rest : Str) (h : rest.length < 2) :
    DecodeData ('%' :: rest) = '%' :: DecodeData rest := by
  rcases rest with _ | ⟨a, _ | ⟨b, t⟩⟩
  · simp [DecodeData]
  · simp [DecodeData]
  · simp only [List.length_cons] at h; omega

theorem DecodeData_percent_none (c1 c2 : Char) (tail : Str) (h : DecodePair c1 c2 = none) :
    DecodeData ('%' :: c1 :: c2 :: tail) = '%' :: DecodeData (c1 :: c2 :: tail) := by
  rw [DecodeData]; simp [h]

theorem DecodeData_percent_some (c1 c2 b : Char) (tail : Str) (h : DecodePair c1 c2 = some b) :
    DecodeData ('%' :: c1 :: c2 :: tail) = b :: DecodeData tail := by
  rw [DecodeData]; simp [h]

theorem DecodePair_isSome_hex (c1 c2 b : Char) (h : DecodePair c1 c2 = some b) :
    IsHexDigit c1 ∧ IsHexDigit c2 := by
  unfold DecodePair at h
  unfold IsHexDigit
  split_ifs at h with h1 h2 h3
  · exact ⟨Or.inl ⟨h1.1, h1.2.1⟩, Or.inl ⟨h1.2.2.1, h1.2.2.2⟩⟩
  · exact ⟨Or.inr (Or.inl ⟨h2.1, h2.2.1⟩), Or.inr (Or.inl ⟨h2.2.2.1, h2.2.2.2⟩)⟩
  · exact ⟨Or.inr (Or.inr ⟨h3.1, h3.2.1⟩), Or.inr (Or.inr ⟨h3.2.2.1, h3.2.2.2⟩)⟩

theorem NoEscape_tail (c : Char) (rest : Str) (h : NoEscape (c :: rest)) : NoEscape rest := by
  intro p q x y hs
  exact h (c :: p) q x y (by simp [hs])

theorem DecodeData_of_NoEscape (s : Str) (h : NoEscape s) : DecodeData s = PlusToSpace s := by
  induction s with
  | nil => simp [DecodeData, PlusToSpace]
  | cons c rest ih =>
    have ih2 := ih (NoEscape_tail c rest h)
    by_cases hp : c = '+'
    · subst hp
      rw [DecodeData_plus, ih2]; simp [PlusToSpace]
    · by_cases hq : c = '%'
      · subst hq
        have step : DecodeData ('%' :: rest) = '%' :: DecodeData rest := by
          rcases rest with _ | ⟨a, _ | ⟨b, t⟩⟩
          · exact DecodeData_percent_short _ (by simp)
          · exact DecodeData_percent_short _ (by simp)
          · apply DecodeData_percent_none
            cases hd : DecodePair a b with
            | none => rfl
            | some v =>
              exact absurd (DecodePair_isSome_hex a b v hd) (h [] t a b (by simp))
        rw [step, ih2]; simp [PlusToSpace]
      · rw [DecodeData_other c rest hp hq, ih2]; simp [PlusToSpace, hp]

theorem IsNeedDecode_iff (s : Str) : IsNeedDecode s = true ↔ ('%' ∈ s ∨ '+' ∈ s) := by
  unfold IsNeedDecode
  simp only [List.any_eq_true, Bool.or_eq_true, beq_iff_eq]
  constructor
  · rintro ⟨c, hc, h | h⟩
    · exact Or.inl (h ▸ hc)
    · exact Or.inr (h ▸ hc)
  · rintro (h | h)
    · exact ⟨_, h, Or.inl rfl⟩
    · exact ⟨_, h, Or.inr rfl⟩

theorem DecodeData_of_not_IsNeedDecode (s : Str) (h : IsNeedDecode s = false) :
    DecodeData s = s := by
  induction s with
  | nil => simp [DecodeData]
  | cons c rest ih =>
    have hs : ¬ ('%' ∈ c :: rest ∨ '+' ∈ c :: rest) := by
      rw [← IsNeedDecode_iff]; simp [h]
    simp only [List.mem_cons, not_or] at hs
    have hrest : IsNeedDecode rest = false := by
      cases hr : IsNeedDecode rest with
      | false => rfl
      | true =>
        rcases (IsNeedDecode_iff rest).1 hr with h1 | h1
        · exact absurd h1 hs.1.2
        · exact absurd h1 hs.2.2
    rw [DecodeData_other c rest (fun e => hs.2.1 e.symm) (fun e => hs.1.1 e.symm), ih hrest]

theorem decode_if_needed (s : Str) : (if IsNeedDecode s then DecodeData s else s) = DecodeData s := by
  cases h : IsNeedDecode s with
  | true => simp
  | false => simp [DecodeData_of_not_IsNeedDecode s h]

theorem ParseQueryLoop_eq_AlwaysDecode (fuel : Nat) (param_sv : Str) (arg_map : ArgumentMap) :
    ParseQueryLoop fuel param_sv arg_map = ParseQueryLoopAlwaysDecode fuel param_sv arg_map := by
  induction fuel generalizing param_sv arg_map with
  | zero => rfl
  | succ n ih =>
    simp only [ParseQueryLoop, ParseQueryLoopAlwaysDecode, decode_if_needed, ih]

theorem DecodePair_percent_left (y : Char) : DecodePair '%' y = none := by
  have h1 : ¬ ('0' ≤ '%') := by decide
  have h2 : ¬ ('a' ≤ '%') := by decide
  have h3 : ¬ ('A' ≤ '%') := by decide
  simp [DecodePair, h1, h2, h3]

theorem DecodePair_percent_right (x : Char) : DecodePair x '%' = none := by
  have h1 : ¬ ('0' ≤ '%') := by decide
  have h2 : ¬ ('a' ≤ '%') := by decide
  have h3 : ¬ ('A' ≤ '%') := by decide
  simp [DecodePair, h1, h2, h3]

theorem DecodeData_append_percent_aux (n : Nat) (p rest : Str) (h : p.length ≤ n) :
    DecodeData (p ++ '%' :: rest) = DecodeData p ++ DecodeData ('%' :: rest) := by
  induction n generalizing p with
  | zero =>
    have : p = [] := List.length_eq_zero.1 (by omega)
    subst this
    simp [DecodeData]
  | succ n ih =>
    rcases p with _ | ⟨c, t⟩
    · simp [DecodeData]
    · simp only [List.length_cons] at h
      have iht := ih t (by omega)
      by_cases hp : c = '+'
      · subst hp
        rw [List.cons_append, DecodeData_plus, DecodeData_plus, iht, List.cons_append]
      · by_cases hq : c = '%'
        · subst hq
          rcases t with _ | ⟨a, _ | ⟨b, u⟩⟩
          · rw [List.cons_append, List.nil_append]
            cases rest with
            | nil =>
              rw [DecodeData_percent_short _ (by simp)]
              simp [DecodeData]
            | cons y rest2 =>
              rw [DecodeData_percent_none '%' y rest2 (DecodePair_percent_left y)]
              simp [DecodeData]
          · have e : ('%' :: [a]) ++ '%' :: rest = '%' :: a :: '%' :: rest := rfl
            rw [e, DecodeData_percent_none a '%' rest (DecodePair_percent_right a),
              DecodeData_percent_short [a] (by simp), List.cons_append]
            have := iht
            simp only [List.cons_append, List.nil_append] at this
            rw [this]
          · have e : ('%' :: a :: b :: u) ++ '%' :: rest = '%' :: a :: b :: (u ++ '%' :: rest) :=
              rfl
            rw [e]
            cases hd : DecodePair a b with
            | none =>
              rw [DecodeData_percent_none a b _ hd, DecodeData_percent_none a b _ hd,
                List.cons_append]
              have := iht
              simp only [List.cons_append] at this
              rw [this]
            | some v =>
              rw [DecodeData_percent_some a b v _ hd, DecodeData_percent_some a b v _ hd,
                List.cons_append, ih u (by simp only [List.length_cons] at h; omega)]
        · rw [List.cons_append, DecodeData_other c _ hp hq, DecodeData_other c _ hp hq, iht,
            List.cons_append]

theorem DecodePair_of_SameClass (x y : Char) (h : SameClass x y) :
    DecodePair x y = some (Char.ofNat ((16 * HexValue x + HexValue y) % 256)) := by
  unfold DecodePair
  by_cases h1 : '0' ≤ x ∧ x ≤ '9' ∧ '0' ≤ y ∧ y ≤ '9'
  · have hx : HexValue x = x.toNat - '0'.toNat := by simp [HexValue, h1.1, h1.2.1]
    have hy : HexValue y = y.toNat - '0'.toNat := by simp [HexValue, h1.2.2.1, h1.2.2.2]
    rw [if_pos h1, hx, hy, Nat.mul_comm]
  · rw [if_neg h1]
    have hxu : x ≤ '9' → x.toNat ≤ 57 := fun hle => hle
    have hyu : y ≤ '9' → y.toNat ≤ 57 := fun hle => hle
    have hxa : 'a' ≤ x → 97 ≤ x.toNat := fun hle => hle
    have hya : 'a' ≤ y → 97 ≤ y.toNat := fun hle => hle
    have hxf : x ≤ 'f' → x.toNat ≤ 102 := fun hle => hle
    have hyf : y ≤ 'f' → y.toNat ≤ 102 := fun hle => hle
    have hxA : 'A' ≤ x → 65 ≤ x.toNat := fun hle => hle
    have hyA : 'A' ≤ y → 65 ≤ y.toNat := fun hle => hle
    by_cases h2 : 'a' ≤ x ∧ x ≤ 'f' ∧ 'a' ≤ y ∧ y ≤ 'f'
    · have nx : ¬ ('0' ≤ x ∧ x ≤ '9') := fun hh => by
        have := hxu hh.2; have := hxa h2.1; omega
      have ny : ¬ ('0' ≤ y ∧ y ≤ '9') := fun hh => by
        have := hyu hh.2; have := hya h2.2.2.1; omega
      have hx : HexValue x = x.toNat - 'a'.toNat + 10 := by
        simp [HexValue, nx, h2.1, h2.2.1]
      have hy : HexValue y = y.toNat - 'a'.toNat + 10 := by
        simp [HexValue, ny, h2.2.2.1, h2.2.2.2]
      rw [if_pos h2, hx, hy, Nat.mul_comm]
    · rw [if_neg h2]
      have h3 : 'A' ≤ x ∧ x ≤ 'F' ∧ 'A' ≤ y ∧ y ≤ 'F' := by
        rcases h with h | h | h
        · exact absurd h h1
        · exact absurd h h2
        · exact h
      have hxF : x ≤ 'F' → x.toNat ≤ 70 := fun hle => hle
      have hyF : y ≤ 'F' → y.toNat ≤ 70 := fun hle => hle
      have nx : ¬ ('0' ≤ x ∧ x ≤ '9') := fun hh => by
        have := hxu hh.2; have := hxA h3.1; omega
      have ny : ¬ ('0' ≤ y ∧ y ≤ '9') := fun hh => by
        have := hyu hh.2; have := hyA h3.2.2.1; omega
      have nx2 : ¬ ('a' ≤ x ∧ x ≤ 'f') := fun hh => by
        have := hxa hh.1; have := hxF h3.2.1; omega
      have ny2 : ¬ ('a' ≤ y ∧ y ≤ 'f') := fun hh => by
        have := hya hh.1; have := hyF h3.2.2.2; omega
      have hx : HexValue x = x.toNat - 'A'.toNat + 10 := by simp [HexValue, nx, nx2]
      have hy : HexValue y = y.toNat - 'A'.toNat + 10 := by simp [HexValue, ny, ny2]
      rw [if_pos h3, hx, hy, Nat.mul_comm]

/-- What `DecodeData` does decode: an escape whose two hexadecimal digits are of
the same kind becomes, at its position, the single byte `16 * X + Y`. -/
theorem DecodeData_escape_same_class (p q : Str) (x y : Char) (h : SameClass x y) :
    DecodeData (p ++ '%' :: x :: y :: q) =
      DecodeData p ++ Char.ofNat ((16 * HexValue x + HexValue y) % 256) :: DecodeData q := by
  rw [DecodeData_append_percent_aux p.length p _ (Nat.le_refl _),
    DecodeData_percent_some x y _ q (DecodePair_of_SameClass x y h)]

/-- C1 (evaluation at the failing inputs): the escapes `%2F` and `%3a`, whose
two hexadecimal digits are a decimal digit and a letter, are not decoded:
`DecodeData` returns them unchanged instead of the one byte `/` or `:`. -/
theorem C1_mixed_escape_not_decoded :
    DecodeData "%2F".toList = "%2F".toList ∧ DecodeData "%3a".toList = "%3a".toList ∧
    DecodeData "%2F".toList ≠ "/".toList ∧ DecodeData "%3a".toList ≠ ":".toList ∧
    IsHexDigit '2' ∧ IsHexDigit 'F' ∧ IsHexDigit '3' ∧ IsHexDigit 'a' := by
  decide

/-- C2: for every string in which no `'%'` is followed by two hexadecimal
digits, `DecodeData` returns the string with every `'+'` replaced by a space
(so every `'%'` is kept and the characters after it are processed as usual),
which has the length of the input. -/
theorem C2_DecodeData_malformed_passthrough (s : Str) (h : NoEscape s) :
    DecodeData s = PlusToSpace s ∧ (DecodeData s).length = s.length := by
  rw [DecodeData_of_NoEscape s h]
  exact ⟨rfl, by simp [PlusToSpace]⟩

/-- C2 at `a+%zz%4`: a `'+'`, a `'%'` before non-hexadecimal characters, and a
`'%'` with a single character after it. -/
theorem C2_witness :
    NoEscape "a+%zz%4".toList ∧
      (DecodeData "a+%zz%4".toList = PlusToSpace "a+%zz%4".toList ∧
        (DecodeData "a+%zz%4".toList).length = "a+%zz%4".toList.length) :=
  have h : NoEscape "a+%zz%4".toList := by
    intro p q x y hs
    have hx : x = 'z' ∧ y = 'z' := by
      rcases p with _ | ⟨a0, _ | ⟨a1, _ | ⟨a2, _ | ⟨a3, _ | ⟨a4, _ | ⟨a5, _ | ⟨a6, p⟩⟩⟩⟩⟩⟩⟩ <;>
        simp at hs
      exact ⟨hs.2.2.1.symm, hs.2.2.2.1.symm⟩
    rw [hx.1, hx.2]
    decide
  ⟨h, C2_DecodeData_malformed_passthrough _ h⟩

theorem Routing_eq_RoutingAlwaysDecode (lib : StdLib) (router : BasicRouter) (pre_args : PreArgs)
    (method target : Str) :
    router.Routing lib pre_args method target =
      router.RoutingAlwaysDecode lib pre_args method target := by
  simp only [BasicRouter.Routing, BasicRouter.RoutingAlwaysDecode, ParseQuery, decode_if_needed,
    ParseQueryLoop_eq_AlwaysDecode]

/-- C3: `IsNeedDecode s` is true iff `s` contains `'%'` or `'+'`; when it is
false `DecodeData s = s`, hence `DecodeData (DecodeData s) = DecodeData s`; and
`Routing`, which decodes path, key and value only when `IsNeedDecode` says so,
has the same outcome as the dispatcher that decodes them unconditionally. -/
theorem C3_IsNeedDecode_fast_path (s : Str) (lib : StdLib) (router : BasicRouter)
    (pre_args : PreArgs) (method target : Str) :
    (IsNeedDecode s = true ↔ ('%' ∈ s ∨ '+' ∈ s)) ∧
    (IsNeedDecode s = false → DecodeData s = s ∧ DecodeData (DecodeData s) = DecodeData s) ∧
    (if IsNeedDecode s then DecodeData s else s) = DecodeData s ∧
    router.Routing lib pre_args method target =
      router.RoutingAlwaysDecode lib pre_args method target := by
  refine ⟨IsNeedDecode_iff s, ?_, decode_if_needed s,
    Routing_eq_RoutingAlwaysDecode lib router pre_args method target⟩
  intro h
  have e := DecodeData_of_not_IsNeedDecode s h
  exact ⟨e, by rw [e, e]⟩

/-- C3 at the path `/hello`, which needs no decoding. -/
theorem C3_witness :
    IsNeedDecode "/hello".toList = false ∧ DecodeData "/hello".toList = "/hello".toList ∧
      DecodeData (DecodeData "/hello".toList) = DecodeData "/hello".toList :=
  have h : IsNeedDecode "/hello".toList = false := by decide
  ⟨h, (C3_IsNeedDecode_fast_path "/hello".toList TestLib TestRouter 0 "GET".toList
    "/hello".toList).2.1 h⟩

/-! ## Overload resolution -/

theorem IsMatchedFrom_eq (b : RouteBinder) (m : ArgumentMap) (tys : List ParamTy) (N : Nat)
    (h : N + tys.length = b.path_arg_num_ + b.capture_params_.length) :
    b.IsMatchedFrom m N tys =
      .ok ((List.zip (b.capture_params_.drop (N - b.path_arg_num_))
        (tys.drop (b.path_arg_num_ - N))).all
          (fun q => q.2.optional || ArgumentMap.contains m q.1)) := by
  induction tys generalizing N with
  | nil => simp [RouteBinder.IsMatchedFrom]
  | cons ty tys ih =>
    simp only [List.length_cons] at h
    rw [RouteBinder.IsMatchedFrom]
    by_cases hp : b.path_arg_num_ > N
    · rw [if_pos hp, ih (N + 1) (by omega)]
      have e1 : N + 1 - b.path_arg_num_ = N - b.path_arg_num_ := by omega
      have e2 : b.path_arg_num_ - N = (b.path_arg_num_ - (N + 1)) + 1 := by omega
      rw [e1, e2, List.drop_succ_cons]
    · rw [if_neg hp]
      have hlt : N - b.path_arg_num_ < b.capture_params_.length := by omega
      have e2 : b.path_arg_num_ - N = 0 := by omega
      have e3 : b.path_arg_num_ - (N + 1) = 0 := by omega
      have e4 : N + 1 - b.path_arg_num_ = (N - b.path_arg_num_) + 1 := by omega
      have hd : b.capture_params_.drop (N - b.path_arg_num_) =
          b.capture_params_[N - b.path_arg_num_] ::
            b.capture_params_.drop (N - b.path_arg_num_ + 1) :=
        List.drop_eq_getElem_cons hlt
      have hg : b.capture_params_.get? (N - b.path_arg_num_) =
          some b.capture_params_[N - b.path_arg_num_] := by
        simp [List.getElem?_eq_getElem hlt]
      have ihn := ih (N + 1) (by omega)
      rw [e3, e4] at ihn
      rw [e2, hd, List.drop_zero, List.zip_cons_cons, List.all_cons, hg, ihn]
      simp only [List.drop_zero]
      cases ty.optional <;> cases ArgumentMap.contains m _ <;> simp

theorem IsMatched_eq_Satisfied (b : RouteBinder) (hwf : b.WellFormed) (c : Nat) (m : ArgumentMap) :
    b.IsMatched c m = .ok (b.Satisfied c m) := by
  unfold RouteBinder.IsMatched RouteBinder.Satisfied RouteBinder.QueryParams
  by_cases hc : c = b.path_arg_num_
  · have h := IsMatchedFrom_eq b m b.func_.params 0 (by
      unfold RouteBinder.WellFormed HandlerFn.kArgNum at hwf; omega)
    simp only [Nat.zero_sub, List.drop_zero, Nat.sub_zero] at h
    simp [hc, h]
  · have hc2 : ¬ b.path_arg_num_ = c := fun e => hc e.symm
    simp [hc, hc2]

theorem SetValue_error (lib : StdLib) (ty : ParamTy) (str : Str) (e : Error)
    (h : SetValue lib ty str = .error e) : e = .ConversionError := by
  unfold SetValue Convert at h
  rcases ty with ⟨o, base⟩
  cases base <;> simp only at h
  · cases h
  · cases hd : lib.from_simple_string str <;> simp only [hd] at h <;> cases h; rfl
  · cases hd : lib.from_iso_extended_string str <;> simp only [hd] at h <;> cases h; rfl
  · rename_i T
    cases hd : lib.lexical_cast T str <;> simp only [hd] at h <;> cases h; rfl

theorem InvokeLoop_first (lib : StdLib) (pre_args : PreArgs) (results : List Str)
    (m : ArgumentMap) (c : Nat) (front : BinderList) (b : RouteBinder) (back : BinderList)
    (hfront : ∀ x ∈ front, x.IsMatched c m = .ok false) (hb : b.IsMatched c m = .ok true) :
    InvokeLoop lib pre_args results m c (front ++ b :: back) = b.Invoke lib pre_args results m := by
  induction front with
  | nil => simp [InvokeLoop, hb]
  | cons x xs ih =>
    have hx := hfront x (List.mem_cons_self _ _)
    simp only [List.cons_append, InvokeLoop, hx]
    exact ih (fun y hy => hfront y (List.mem_cons_of_mem _ hy))

theorem path_arg_num_eq (results : List Str) :
    (if results.length > 1 then results.length - 1 else 0) = CaptureCount results := by
  unfold CaptureCount; split_ifs <;> omega

theorem find_eq_none_iff (c : Char) (s : Str) : find c s = none ↔ c ∉ s := by
  induction s with
  | nil => simp [find]
  | cons x t ih =>
    by_cases hx : x = c
    · simp [find, hx]
    · have hx2 : ¬ c = x := fun e => hx e.symm
      simp [find, hx, hx2, ih]

theorem find_some_take (c : Char) (s : Str) (pos : Nat) (h : find c s = some pos) :
    c ∉ s.take pos ∧ pos < s.length ∧ s = s.take pos ++ c :: s.drop (pos + 1) := by
  induction s generalizing pos with
  | nil => simp [find] at h
  | cons x t ih =>
    by_cases hx : x = c
    · simp [find, hx] at h
      subst h; subst hx
      simp
    · simp only [find, hx, if_false, Option.map_eq_some'] at h
      obtain ⟨i, hi, rfl⟩ := h
      obtain ⟨h1, h2, h3⟩ := ih i hi
      have hx2 : ¬ c = x := fun e => hx e.symm
      refine ⟨by simp [hx2, h1], by simp [h2], ?_⟩
      simp only [List.take_succ_cons, List.drop_succ_cons, List.cons_append]
      rw [← h3]

theorem SplitTarget_fst_no_question (target : Str) : '?' ∉ (SplitTarget target).1 := by
  unfold SplitTarget
  cases h : find '?' target with
  | none => simpa using (find_eq_none_iff '?' target).1 h
  | some pos => simpa using (find_some_take '?' target pos h).1

theorem lookup_mem {β : Type} (k : Str) (l : List (Str × β)) (v : β)
    (h : List.lookup k l = some v) : (k, v) ∈ l := by
  induction l with
  | nil => simp at h
  | cons kv l ih =>
    rcases kv with ⟨a, b⟩
    by_cases hk : k = a
    · subst hk
      simp [List.lookup] at h
      simp [h]
    · have : (k == a) = false := by simpa using hk
      simp only [List.lookup, this] at h
      exact List.mem_cons_of_mem _ (ih h)

theorem AddBinder_binders (m : List (Str × BinderList)) (method : Str) (binder : RouteBinder)
    (P : RouteBinder → Prop) (hm : ∀ kv ∈ m, ∀ b ∈ kv.2, P b) (hb : P binder) :
    ∀ kv ∈ AddBinder m method binder, ∀ b ∈ kv.2, P b := by
  unfold AddBinder
  cases List.lookup method m with
  | none =>
    intro kv hkv b hbm
    simp only [List.mem_append, List.mem_singleton] at hkv
    rcases hkv with hkv | hkv
    · exact hm kv hkv b hbm
    · subst hkv
      simp only [List.mem_singleton] at hbm
      exact hbm ▸ hb
  | some _ =>
    intro kv hkv b hbm
    simp only [List.mem_map] at hkv
    obtain ⟨kv0, hkv0, rfl⟩ := hkv
    by_cases hk : kv0.1 = method
    · simp only [hk, if_true, List.mem_append, List.mem_singleton] at hbm
      rcases hbm with hbm | hbm
      · exact hm kv0 hkv0 b hbm
      · exact hbm ▸ hb
    · simp only [hk, if_false] at hbm
      exact hm kv0 hkv0 b hbm

theorem foldl_AddBinder_binders (methods : List Str) (m : List (Str × BinderList))
    (binder : RouteBinder) (P : RouteBinder → Prop) (hm : ∀ kv ∈ m, ∀ b ∈ kv.2, P b)
    (hb : P binder) :
    ∀ kv ∈ methods.foldl (fun m method => AddBinder m method binder) m, ∀ b ∈ kv.2, P b := by
  induction methods generalizing m with
  | nil => simpa using hm
  | cons x xs ih =>
    simp only [List.foldl_cons]
    exact ih _ (AddBinder_binders m x binder P hm hb)

theorem make_ok_WellFormed (n : Nat) (cp : List Str) (func : HandlerFn) (b : RouteBinder)
    (h : RouteBinder.make n cp func = .ok b) : b.WellFormed ∧ b = ⟨n, cp, func⟩ := by
  unfold RouteBinder.make at h
  split_ifs at h with hc
  cases h
  exact ⟨by simpa [RouteBinder.WellFormed] using hc, rfl⟩

theorem AddHandleFunc_ok (item : RouteItem) (n : Nat) (methods cp : List Str) (func : HandlerFn)
    (item2 : RouteItem) (h : item.AddHandleFunc n methods cp func = .ok item2) :
    RouteBinder.WellFormed ⟨n, cp, func⟩ ∧
      item2 = { item with
        allowed_method_binders_ :=
          methods.foldl (fun m method => AddBinder m method ⟨n, cp, func⟩)
            item.allowed_method_binders_ } := by
  unfold RouteItem.AddHandleFunc at h
  cases hb : RouteBinder.make n cp func with
  | error e => simp [hb] at h
  | ok b =>
    obtain ⟨hwf, rfl⟩ := make_ok_WellFormed n cp func b hb
    simp only [hb, Except.ok.injEq] at h
    exact ⟨hwf, h.symm⟩

theorem AddHandleFunc_BindersWellFormed (item : RouteItem) (n : Nat) (methods cp : List Str)
    (func : HandlerFn) (item2 : RouteItem) (h : item.AddHandleFunc n methods cp func = .ok item2)
    (hi : item.BindersWellFormed) : item2.BindersWellFormed := by
  obtain ⟨hwf, rfl⟩ := AddHandleFunc_ok item n methods cp func item2 h
  exact foldl_AddBinder_binders methods _ _ RouteBinder.WellFormed hi hwf

theorem mem_UpdateFirst {α : Type} (p : α → Bool) (y : α) (l : List α) (x : α)
    (h : x ∈ UpdateFirst p (fun _ => y) l) : x ∈ l ∨ x = y := by
  induction l with
  | nil => simp [UpdateFirst] at h
  | cons a l ih =>
    simp only [UpdateFirst] at h
    split_ifs at h
    · simp only [List.mem_cons] at h
      rcases h with h | h
      · exact Or.inr h
      · exact Or.inl (List.mem_cons_of_mem _ h)
    · simp only [List.mem_cons] at h
      rcases h with h | h
      · exact Or.inl (h ▸ List.mem_cons_self _ _)
      · rcases ih h with h2 | h2
        · exact Or.inl (List.mem_cons_of_mem _ h2)
        · exact Or.inr h2

theorem BindersWellFormed_empty (re : Str) : RouteItem.BindersWellFormed ⟨re, []⟩ := by
  intro kv hkv
  simp at hkv

theorem AddRoute_TableOK (r : BasicRouter) (target : Str) (func : HandlerFn) (methods : List Str)
    (hr : r.TableOK) (h : (r.AddRoute target func methods).2 = none) :
    (r.AddRoute target func methods).1.TableOK := by
  unfold BasicRouter.AddRoute at h ⊢
  simp only at h ⊢
  by_cases hre : ReplacePlaceholders (SplitTarget target).1 ≠ (SplitTarget target).1
  · simp only [if_pos hre] at h ⊢
    cases hf : r.route_vec_.find?
        (fun it => decide (it.regex_path_ = ReplacePlaceholders (SplitTarget target).1)) with
    | none =>
      simp only [hf] at h ⊢
      cases ha : RouteItem.AddHandleFunc ⟨ReplacePlaceholders (SplitTarget target).1, []⟩
          (CountPlaceholders (SplitTarget target).1) (methods.map ToUpper)
          (SplitTarget target).2 func with
      | error e => simp [ha] at h
      | ok item2 =>
        simp only [ha]
        refine ⟨?_, hr.2⟩
        intro item hitem
        rcases mem_UpdateFirst _ _ _ _ hitem with h1 | h1
        · simp only [List.mem_append, List.mem_singleton] at h1
          rcases h1 with h1 | h1
          · exact hr.1 item h1
          · exact h1 ▸ BindersWellFormed_empty _
        · exact h1 ▸ AddHandleFunc_BindersWellFormed _ _ _ _ _ _ ha (BindersWellFormed_empty _)
    | some it0 =>
      simp only [hf] at h ⊢
      cases ha : RouteItem.AddHandleFunc it0
          (CountPlaceholders (SplitTarget target).1) (methods.map ToUpper)
          (SplitTarget target).2 func with
      | error e => simp [ha] at h
      | ok item2 =>
        simp only [ha]
        refine ⟨?_, hr.2⟩
        intro item hitem
        rcases mem_UpdateFirst _ _ _ _ hitem with h1 | h1
        · exact hr.1 item h1
        · exact h1 ▸ AddHandleFunc_BindersWellFormed _ _ _ _ _ _ ha
            (hr.1 it0 (List.mem_of_find?_eq_some hf))
  · simp only [if_neg hre] at h ⊢
    cases hf : List.lookup (SplitTarget target).1 r.route_map_ with
    | none =>
      simp only [hf] at h ⊢
      cases ha : RouteItem.AddHandleFunc ⟨[], []⟩
          (CountPlaceholders (SplitTarget target).1) (methods.map ToUpper)
          (SplitTarget target).2 func with
      | error e => simp [ha] at h
      | ok item2 =>
        simp only [ha]
        refine ⟨hr.1, ?_⟩
        intro kv hkv
        simp only [List.mem_map] at hkv
        obtain ⟨kv0, hkv0, rfl⟩ := hkv
        simp only [List.mem_append, List.mem_singleton] at hkv0
        have hok : kv0.2.BindersWellFormed ∧ '?' ∉ kv0.1 := by
          rcases hkv0 with h1 | h1
          · exact hr.2 kv0 h1
          · subst h1
            exact ⟨BindersWellFormed_empty _, SplitTarget_fst_no_question target⟩
        by_cases hk : kv0.1 = (SplitTarget target).1
        · simp only [hk, if_true]
          exact ⟨AddHandleFunc_BindersWellFormed _ _ _ _ _ _ ha (BindersWellFormed_empty _),
            SplitTarget_fst_no_question target⟩
        · simpa only [hk, if_false] using hok
    | some it0 =>
      simp only [hf] at h ⊢
      cases ha : RouteItem.AddHandleFunc it0
          (CountPlaceholders (SplitTarget target).1) (methods.map ToUpper)
          (SplitTarget target).2 func with
      | error e => simp [ha] at h
      | ok item2 =>
        simp only [ha]
        refine ⟨hr.1, ?_⟩
        intro kv hkv
        simp only [List.mem_map] at hkv
        obtain ⟨kv0, hkv0, rfl⟩ := hkv
        by_cases hk : kv0.1 = (SplitTarget target).1
        · simp only [hk, if_true]
          exact ⟨AddHandleFunc_BindersWellFormed _ _ _ _ _ _ ha
            (hr.2 _ (lookup_mem _ _ _ hf)).1, SplitTarget_fst_no_question target⟩
        · simpa only [hk, if_false] using hr.2 kv0 hkv0

theorem Built_TableOK (r : BasicRouter) (h : Built r) : r.TableOK := by
  induction h with
  | empty => exact ⟨by simp [BasicRouter.empty], by simp [BasicRouter.empty]⟩
  | add r target func methods _ hok ih => exact AddRoute_TableOK r target func methods ih hok

/-! ## The dispatcher -/

theorem Routing_eq (lib : StdLib) (r : BasicRouter) (pre_args : PreArgs) (method target : Str) :
    r.Routing lib pre_args method target =
      match r.FindRoute lib (DecodeData (TargetPath target)) with
      | none => .error .RouteNotFound
      | some (route, results) =>
        if !route.IsAllowedMethod method then .error .MethodNotAllowed
        else route.Invoke lib pre_args method results (ParseQuery (TargetQuery target)) := by
  simp only [BasicRouter.Routing, decode_if_needed, TargetPath, TargetQuery]

theorem InvokeLoop_eq_find (lib : StdLib) (pre_args : PreArgs) (results : List Str)
    (m : ArgumentMap) (c : Nat) (binders : BinderList) (hwf : ∀ b ∈ binders, b.WellFormed) :
    InvokeLoop lib pre_args results m c binders =
      match binders.find? (fun b => b.Satisfied c m) with
      | some b => b.Invoke lib pre_args results m
      | none => .error .ParameterMismatch := by
  induction binders with
  | nil => simp [InvokeLoop]
  | cons x xs ih =>
    have hx := IsMatched_eq_Satisfied x (hwf x (List.mem_cons_self _ _)) c m
    have ih2 := ih (fun y hy => hwf y (List.mem_cons_of_mem _ hy))
    simp only [InvokeLoop, hx, List.find?_cons]
    cases hs : x.Satisfied c m with
    | true => simp
    | false => simpa using ih2

theorem Invoke_eq_find (lib : StdLib) (item : RouteItem) (pre_args : PreArgs) (method : Str)
    (results : List Str) (m : ArgumentMap) (binders : BinderList)
    (hl : List.lookup method item.allowed_method_binders_ = some binders)
    (hwf : item.BindersWellFormed) :
    item.Invoke lib pre_args method results m =
      match binders.find? (fun b => b.Satisfied (CaptureCount results) m) with
      | some b => b.Invoke lib pre_args results m
      | none => .error .ParameterMismatch := by
  have hinv : item.Invoke lib pre_args method results m =
      InvokeLoop lib pre_args results m (CaptureCount results) binders := by
    simp only [RouteItem.Invoke, hl, path_arg_num_eq]
  rw [hinv]
  exact InvokeLoop_eq_find lib pre_args results m _ binders
    (fun b hb => hwf (method, binders) (lookup_mem _ _ _ hl) b hb)

theorem FindRegexRoute_mem (lib : StdLib) (path : Str) (vec : List RouteItem) (route : RouteItem)
    (results : List Str) (h : FindRegexRoute lib path vec = some (route, results)) :
    route ∈ vec := by
  induction vec with
  | nil => simp [FindRegexRoute] at h
  | cons x xs ih =>
    simp only [FindRegexRoute] at h
    cases hm : lib.regex_match x.regex_path_ path with
    | none =>
      simp only [hm] at h
      exact List.mem_cons_of_mem _ (ih h)
    | some res =>
      simp only [hm, Option.some.injEq, Prod.mk.injEq] at h
      exact h.1 ▸ List.mem_cons_self _ _

theorem FindRoute_BindersWellFormed (lib : StdLib) (r : BasicRouter) (hr : r.TableOK) (path : Str)
    (route : RouteItem) (results : List Str) (h : r.FindRoute lib path = some (route, results)) :
    route.BindersWellFormed := by
  unfold BasicRouter.FindRoute at h
  cases hl : List.lookup path r.route_map_ with
  | none =>
    simp only [hl] at h
    exact hr.1 route (FindRegexRoute_mem lib path _ route results h)
  | some item =>
    simp only [hl, Option.some.injEq, Prod.mk.injEq] at h
    exact h.1 ▸ (hr.2 _ (lookup_mem _ _ _ hl)).1

theorem DoInvoke_all_absent (lib : StdLib) (b : RouteBinder) (pre_args : PreArgs)
    (results : List Str) (hp : b.path_arg_num_ = 0) (tys : List ParamTy) (values : List Arg)
    (hlen : values.length + tys.length = b.capture_params_.length)
    (hopt : ∀ ty ∈ tys, ty.optional = true) :
    b.DoInvoke lib pre_args results [] tys values =
      .ok ⟨b.func_.name, pre_args, values ++ tys.map (fun _ => EmptyOptional)⟩ := by
  induction tys generalizing values with
  | nil => simp [RouteBinder.DoInvoke]
  | cons ty tys ih =>
    simp only [List.length_cons] at hlen
    rw [RouteBinder.DoInvoke]
    have hlt : values.length < b.capture_params_.length := by omega
    have hg : b.capture_params_.get? (values.length - b.path_arg_num_) =
        some b.capture_params_[values.length] := by
      simp [hp, List.getElem?_eq_getElem hlt]
    have ho := hopt ty (List.mem_cons_self _ _)
    have hnp : ¬ b.path_arg_num_ > values.length := by omega
    have hfind : ArgumentMap.find [] b.capture_params_[values.length] = none := rfl
    rw [if_neg hnp, hg]
    simp only [hfind]
    rw [if_pos ho, ih (values ++ [EmptyOptional]) (by simp; omega)
      (fun t ht => hopt t (List.mem_cons_of_mem _ ht))]
    simp

theorem Invoke_all_absent (lib : StdLib) (b : RouteBinder) (pre_args : PreArgs)
    (hwf : b.WellFormed) (hs : b.Satisfied 0 [] = true) :
    b.Invoke lib pre_args [] [] =
      .ok ⟨b.func_.name, pre_args, b.func_.params.map (fun _ => EmptyOptional)⟩ := by
  unfold RouteBinder.Satisfied RouteBinder.QueryParams at hs
  simp only [Bool.and_eq_true, decide_eq_true_eq, List.all_eq_true, Bool.or_eq_true] at hs
  obtain ⟨hp, hall⟩ := hs
  unfold RouteBinder.WellFormed HandlerFn.kArgNum at hwf
  rw [hp] at hwf hall
  simp only [List.drop_zero, Nat.add_zero] at hwf hall
  have hopt : ∀ ty ∈ b.func_.params, ty.optional = true := by
    intro ty hty
    have hmap : (List.zip b.capture_params_ b.func_.params).map Prod.snd = b.func_.params :=
      List.map_snd_zip _ _ (by omega)
    rw [← hmap] at hty
    obtain ⟨q, hq, rfl⟩ := List.mem_map.1 hty
    rcases hall q hq with h1 | h1
    · exact h1
    · simp [ArgumentMap.contains, ArgumentMap.find] at h1
  have := DoInvoke_all_absent lib b pre_args [] hp b.func_.params [] (by simp; omega) hopt
  simpa [RouteBinder.Invoke] using this

theorem Built_TestRouter : Built TestRouter :=
  Built.add _ _ _ _ (Built.add _ _ _ _ (Built.add _ _ _ _ Built.empty (by decide)) (by decide))
    (by decide)

theorem find?_sat {α : Type} (p : α → Bool) (l : List α) (b : α) (h : l.find? p = some b) :
    p b = true ∧ b ∈ l := by
  induction l with
  | nil => simp at h
  | cons a l ih =>
    rw [List.find?_cons] at h
    cases hp : p a with
    | true =>
      simp only [hp, Option.some.injEq] at h
      subst h
      exact ⟨hp, List.mem_cons_self _ _⟩
    | false =>
      simp only [hp] at h
      exact ⟨(ih h).1, List.mem_cons_of_mem _ (ih h).2⟩

theorem TargetPath_of_no_question (path : Str) (h : '?' ∉ path) :
    TargetPath path = path ∧ TargetQuery path = [] := by
  have := (find_eq_none_iff '?' path).2 h
  simp [TargetPath, TargetQuery, this]

theorem FindRoute_literal (lib : StdLib) (r : BasicRouter) (path : Str) (item : RouteItem)
    (h : List.lookup path r.route_map_ = some item) : r.FindRoute lib path = some (item, []) := by
  simp [BasicRouter.FindRoute, h]

/-- C5 (amended): for every router built from successful `AddRoute` calls, every
literal path registered in it that contains neither `'%'` nor `'+'`, and every
method allowed on that route, `Routing` with exactly that path as target
invokes exactly one handler when the method's list has a binding with
`path_arg_count` 0 whose query parameters are all optional (the first such
binding, every argument an empty optional), and fails with "Parameter
mismatch", invoking no handler, when the list has no such binding. -/
theorem C5_literal_route (lib : StdLib) (r : BasicRouter) (hb : Built r) (path : Str)
    (item : RouteItem) (hreg : List.lookup path r.route_map_ = some item)
    (hplain : IsNeedDecode path = false) (method : Str)
    (hallowed : item.IsAllowedMethod method = true) (pre_args : PreArgs) :
    ∃ binders, List.lookup method item.allowed_method_binders_ = some binders ∧
      r.Routing lib pre_args method path =
        match binders.find? (fun b => b.Satisfied 0 []) with
        | some b => .ok ⟨b.func_.name, pre_args, b.func_.params.map (fun _ => EmptyOptional)⟩
        | none => .error .ParameterMismatch := by
  have hok := Built_TableOK r hb
  have hq : '?' ∉ path := (hok.2 _ (lookup_mem _ _ _ hreg)).2
  have hwf : item.BindersWellFormed := (hok.2 _ (lookup_mem _ _ _ hreg)).1
  obtain ⟨hpath, hquery⟩ := TargetPath_of_no_question path hq
  unfold RouteItem.IsAllowedMethod at hallowed
  cases hl : List.lookup method item.allowed_method_binders_ with
  | none => simp [hl] at hallowed
  | some binders =>
    refine ⟨binders, rfl, ?_⟩
    have hallowed2 : item.IsAllowedMethod method = true := by
      simp [RouteItem.IsAllowedMethod, hl]
    have hinv := Invoke_eq_find lib item pre_args method [] [] binders hl hwf
    have hc : CaptureCount [] = 0 := rfl
    rw [hc] at hinv
    rw [Routing_eq, hpath, hquery, DecodeData_of_not_IsNeedDecode path hplain,
      FindRoute_literal lib r path item hreg]
    have hpq : ParseQuery [] = [] := rfl
    simp only [hallowed2, Bool.not_true, Bool.false_eq_true, if_false, hpq, hinv]
    cases hf : binders.find? (fun b => b.Satisfied 0 []) with
    | none => rfl
    | some b =>
      obtain ⟨hbs, hbm⟩ := find?_sat _ binders b hf
      exact Invoke_all_absent lib b pre_args (hwf _ (lookup_mem _ _ _ hl) b hbm) hbs

/-- C5 at the router of the test: `GET /hello` invokes `OnHello`, the first
binding of the list without a required query parameter. -/
theorem C5_witness :
    Built TestRouter ∧
    List.lookup "/hello".toList TestRouter.route_map_ =
      some ⟨[], [("GET".toList,
        [⟨0, ["name".toList, "nick_name".toList, "age".toList], OnHelloArg⟩, ⟨0, [], OnHello⟩]),
        ("POST".toList, [⟨0, [], OnHello⟩])]⟩ ∧
    IsNeedDecode "/hello".toList = false ∧
    TestRouter.Routing TestLib 7 "GET".toList "/hello".toList =
      .ok ⟨"OnHello".toList, 7, []⟩ := by
  have hreg : List.lookup "/hello".toList TestRouter.route_map_ =
      some ⟨[], [("GET".toList,
        [⟨0, ["name".toList, "nick_name".toList, "age".toList], OnHelloArg⟩, ⟨0, [], OnHello⟩]),
        ("POST".toList, [⟨0, [], OnHello⟩])]⟩ := by decide
  have hplain : IsNeedDecode "/hello".toList = false := by decide
  obtain ⟨binders, hl, hrt⟩ := C5_literal_route TestLib TestRouter Built_TestRouter
    "/hello".toList _ hreg hplain "GET".toList (by decide) 7
  have hbinders : binders =
      [⟨0, ["name".toList, "nick_name".toList, "age".toList], OnHelloArg⟩, ⟨0, [], OnHello⟩] := by
    have h2 : List.lookup "GET".toList
        (⟨[], [("GET".toList,
          [⟨0, ["name".toList, "nick_name".toList, "age".toList], OnHelloArg⟩, ⟨0, [], OnHello⟩]),
          ("POST".toList, [⟨0, [], OnHello⟩])]⟩ : RouteItem).allowed_method_binders_ =
        some [⟨0, ["name".toList, "nick_name".toList, "age".toList], OnHelloArg⟩,
          ⟨0, [], OnHello⟩] := by decide
    rw [h2] at hl
    exact (Option.some.inj hl).symm
  subst hbinders
  exact ⟨Built_TestRouter, hreg, hplain, hrt⟩

/-- C5 (counterexample): after the single successful registration
`("/hello?name", OnName, {"GET"})`, the literal path `/hello` is registered and
allows `GET`, yet `Routing` with target `/hello` and method `GET` invokes no
handler: it fails with "Parameter mismatch". -/
theorem C5_counterexample :
    (BasicRouter.empty.AddRoute "/hello?name".toList OnName ["GET".toList]).2 = none ∧
    (List.lookup "/hello".toList NameRouter.route_map_).map
      (fun item => item.IsAllowedMethod "GET".toList) = some true ∧
    NameRouter.Routing TestLib 0 "GET".toList "/hello".toList = .error .ParameterMismatch := by
  decide

theorem split_of_find_none (c : Char) (s : Str) (h : find c s = none) : split c s = [s] := by
  induction s with
  | nil => simp [split]
  | cons x t ih =>
    by_cases hx : x = c
    · simp [find, hx] at h
    · simp only [find, hx, if_false, Option.map_eq_none'] at h
      simp [split, hx, ih h]

theorem split_of_find_some (c : Char) (s : Str) (pos : Nat) (h : find c s = some pos) :
    split c s = s.take pos :: split c (s.drop (pos + 1)) := by
  induction s generalizing pos with
  | nil => simp [find] at h
  | cons x t ih =>
    by_cases hx : x = c
    · simp only [find, hx, if_true, Option.some.injEq] at h
      subst h
      simp [split, hx]
    · simp only [find, hx, if_false, Option.map_eq_some'] at h
      obtain ⟨i, hi, rfl⟩ := h
      simp [split, hx, ih i hi]

theorem ParseQueryLoop_nil (fuel : Nat) (m : ArgumentMap) : ParseQueryLoop fuel [] m = m := by
  cases fuel <;> simp [ParseQueryLoop]

theorem QueryPairs_nil : QueryPairs [] = [] := by
  simp [QueryPairs, split, SplitKeyValue, find]

theorem ParseQueryLoop_eq_foldl (fuel : Nat) (s : Str) (m : ArgumentMap) (h : s.length ≤ fuel) :
    ParseQueryLoop fuel s m =
      (QueryPairs s).foldl (fun acc kv => ArgumentMap.insert acc kv.1 kv.2) m := by
  induction fuel generalizing s m with
  | zero =>
    have : s = [] := List.length_eq_zero.1 (by omega)
    subst this
    simp [ParseQueryLoop, QueryPairs_nil]
  | succ n ih =>
    rcases s with _ | ⟨x, t⟩
    · simp [ParseQueryLoop, QueryPairs_nil]
    · have hpos : (x :: t).length > 0 := by simp
      rw [ParseQueryLoop, if_pos hpos]
      cases hf : find '&' (x :: t) with
      | none =>
        have hs := split_of_find_none '&' (x :: t) hf
        simp only [QueryPairs, hs, List.filterMap_cons, List.filterMap_nil]
        cases hkv : SplitKeyValue (x :: t) with
        | none => simp [ParseQueryLoop_nil]
        | some kv => simp [ParseQueryLoop_nil, decode_if_needed]
      | some pos =>
        have hs := split_of_find_some '&' (x :: t) pos hf
        have hlen : ((x :: t).drop (pos + 1)).length ≤ n := by
          simp only [List.length_drop, List.length_cons] at h ⊢
          omega
        simp only [QueryPairs, hs, List.filterMap_cons]
        cases hkv : SplitKeyValue ((x :: t).take pos) with
        | none =>
          simp only
          rw [ih _ _ hlen]
          rfl
        | some kv =>
          simp only [decode_if_needed, List.foldl_cons]
          rw [ih _ _ hlen]
          rfl

theorem ParseQuery_eq_foldl (query : Str) :
    ParseQuery query =
      (QueryPairs query).foldl (fun acc kv => ArgumentMap.insert acc kv.1 kv.2) [] :=
  ParseQueryLoop_eq_foldl query.length query [] (Nat.le_refl _)

theorem ParseQueryLoop_fuel (fuel : Nat) (s : Str) (m : ArgumentMap) (h : s.length ≤ fuel) :
    ParseQueryLoop fuel s m = ParseQueryLoop s.length s m := by
  rw [ParseQueryLoop_eq_foldl fuel s m h, ParseQueryLoop_eq_foldl s.length s m (Nat.le_refl _)]

theorem lookup_append_str {β : Type} (K : Str) (l1 l2 : List (Str × β)) :
    List.lookup K (l1 ++ l2) =
      match List.lookup K l1 with
      | some v => some v
      | none => List.lookup K l2 := by
  induction l1 with
  | nil => simp
  | cons kv l ih =>
    rcases kv with ⟨a, b⟩
    cases hk : (K == a) with
    | true => simp [List.lookup, hk]
    | false => simpa [List.lookup, hk] using ih

theorem lookup_insert (m : ArgumentMap) (k v K : Str) :
    List.lookup K (ArgumentMap.insert m k v) =
      match List.lookup K m with
      | some x => some x
      | none => if k = K then some v else none := by
  unfold ArgumentMap.insert ArgumentMap.contains ArgumentMap.find
  cases hc : (List.lookup k m).isSome with
  | true =>
    simp only [if_true]
    cases hK : List.lookup K m with
    | some x => rfl
    | none =>
      by_cases hk : k = K
      · subst hk; simp [hK] at hc
      · simp [hk]
  | false =>
    simp only [Bool.false_eq_true, if_false, lookup_append_str]
    cases hK : List.lookup K m with
    | some x => rfl
    | none =>
      by_cases hk : k = K
      · subst hk; simp [List.lookup]
      · have : (K == k) = false := by simpa using fun e => hk e.symm
        simp [List.lookup, this, hk]

theorem lookup_foldl_insert (pairs : List (Str × Str)) (m : ArgumentMap) (K : Str) :
    List.lookup K (pairs.foldl (fun acc kv => ArgumentMap.insert acc kv.1 kv.2) m) =
      match List.lookup K m with
      | some x => some x
      | none => List.lookup K pairs := by
  induction pairs generalizing m with
  | nil => simp only [List.foldl_nil, List.lookup]; cases List.lookup K m <;> rfl
  | cons kv rest ih =>
    rcases kv with ⟨k, v⟩
    simp only [List.foldl_cons]
    rw [ih, lookup_insert]
    cases hK : List.lookup K m with
    | some x => rfl
    | none =>
      by_cases hk : k = K
      · subst hk; simp [List.lookup]
      · have : (K == k) = false := by simpa using fun e => hk e.symm
        simp [List.lookup, this, hk]

theorem lookup_eq_find? (K : Str) (l : List (Str × Str)) :
    List.lookup K l = (l.find? (fun kv => kv.1 = K)).map (fun kv => kv.2) := by
  induction l with
  | nil => rfl
  | cons kv l ih =>
    rcases kv with ⟨a, b⟩
    by_cases hk : a = K
    · subst hk; simp [List.lookup]
    · have : (K == a) = false := by simpa using fun e => hk e.symm
      simp [List.lookup, this, hk, ih]

theorem find_ParseQuery (query K : Str) :
    ArgumentMap.find (ParseQuery query) K = List.lookup K (QueryPairs query) := by
  unfold ArgumentMap.find
  rw [ParseQuery_eq_foldl, lookup_foldl_insert]
  rfl

/-- C7: duplicate query keys are first-wins. For every query string and key `K`,
the `ArgumentMap` built by `Routing` maps `K` to the decoded value of the first
`'&'`-separated segment containing `'='` whose decoded, lower-cased key is `K`
(and has no entry for `K` when there is no such segment); and
`GET /hello?name=A&name=B` binds `name` to `A`. -/
theorem C7_first_wins :
    (∀ query K : Str,
      ArgumentMap.find (ParseQuery query) K =
        ((QueryPairs query).find? (fun kv => kv.1 = K)).map (fun kv => kv.2)) ∧
    ArgumentMap.find (ParseQuery "name=A&name=B".toList) "name".toList = some "A".toList ∧
    NameRouter.Routing TestLib 0 "GET".toList "/hello?name=A&name=B".toList =
      .ok ⟨"OnName".toList, 0, [.plain (.string "A".toList)]⟩ := by
  refine ⟨fun query K => ?_, by decide, by decide⟩
  rw [find_ParseQuery, lookup_eq_find?]

theorem find_append_of_mem (c : Char) (s t : Str) (h : c ∈ s) : find c (s ++ t) = find c s := by
  induction s with
  | nil => simp at h
  | cons x r ih =>
    by_cases hx : x = c
    · simp [find, hx]
    · have hr : c ∈ r := by
        simp only [List.mem_cons] at h
        rcases h with h | h
        · exact absurd h.symm hx
        · exact h
      simp [find, hx, ih hr]

theorem Target_append (target t : Str) (h : '?' ∈ target) :
    TargetPath (target ++ t) = TargetPath target ∧
      TargetQuery (target ++ t) = TargetQuery target ++ t := by
  cases hf : find '?' target with
  | none => exact absurd h ((find_eq_none_iff '?' target).1 hf)
  | some pos =>
    obtain ⟨_, hlt, _⟩ := find_some_take '?' target pos hf
    have hle : pos ≤ target.length := by omega
    have hle1 : pos + 1 ≤ target.length := by omega
    simp only [TargetPath, TargetQuery, find_append_of_mem '?' target t h, hf]
    exact ⟨List.take_append_of_le_length hle, List.drop_append_of_le_length hle1⟩

theorem split_ne_nil (c : Char) (s : Str) : split c s ≠ [] := by
  cases s with
  | nil => simp [split]
  | cons x t =>
    by_cases hx : x = c
    · simp [split, hx]
    · simp only [split, hx, if_false]
      cases split c t <;> simp

theorem split_append_sep (c : Char) (q t : Str) :
    split c (q ++ c :: t) = split c q ++ split c t := by
  induction q with
  | nil => simp [split]
  | cons x r ih =>
    by_cases hx : x = c
    · simp [split, hx, ih]
    · rw [List.cons_append, split, if_neg hx, ih, split, if_neg hx]
      cases hs : split c r with
      | nil => exact absurd hs (split_ne_nil c r)
      | cons a l => simp

theorem split_mem_sub (c : Char) (t seg : Str) (h : seg ∈ split c t) : ∀ x ∈ seg, x ∈ t := by
  induction t generalizing seg with
  | nil =>
    simp only [split, List.mem_singleton] at h
    subst h; simp
  | cons a r ih =>
    by_cases ha : a = c
    · simp only [split, ha, if_true, List.mem_cons] at h
      rcases h with h | h
      · subst h; simp
      · intro x hx
        exact List.mem_cons_of_mem _ (ih seg h x hx)
    · simp only [split, ha, if_false] at h
      cases hs : split c r with
      | nil => exact absurd hs (split_ne_nil c r)
      | cons tok toks =>
        simp only [hs, List.mem_cons] at h
        intro x hx
        rcases h with h | h
        · subst h
          simp only [List.mem_cons] at hx ⊢
          rcases hx with hx | hx
          · exact Or.inl hx
          · exact Or.inr (ih tok (by simp [hs]) x hx)
        · exact List.mem_cons_of_mem _ (ih seg (by simp [hs, h]) x hx)

theorem SplitKeyValue_none_of_no_eq (seg : Str) (h : '=' ∉ seg) : SplitKeyValue seg = none := by
  simp [SplitKeyValue, (find_eq_none_iff '=' seg).2 h]

theorem QueryPairs_append_token (q token : Str) (h : '=' ∉ token) :
    QueryPairs (q ++ '&' :: token) = QueryPairs q := by
  unfold QueryPairs
  rw [split_append_sep, List.filterMap_append]
  have : (split '&' token).filterMap (fun seg =>
      match SplitKeyValue seg with
      | some (k, v) => some (ToLower (DecodeData k), DecodeData v)
      | none => none) = [] := by
    rw [List.filterMap_eq_nil_iff]
    intro seg hseg
    have hno : '=' ∉ seg := fun hm => h (split_mem_sub '&' token seg hseg _ hm)
    simp [SplitKeyValue_none_of_no_eq seg hno]
  rw [this, List.append_nil]

theorem ParseQuery_append_token (q token : Str) (h : '=' ∉ token) :
    ParseQuery (q ++ '&' :: token) = ParseQuery q := by
  rw [ParseQuery_eq_foldl, ParseQuery_eq_foldl, QueryPairs_append_token q token h]

theorem lookup_isSome_iff (K : Str) (l : List (Str × Str)) :
    (List.lookup K l).isSome = true ↔ ∃ kv ∈ l, kv.1 = K := by
  induction l with
  | nil => simp
  | cons kv l ih =>
    rcases kv with ⟨a, b⟩
    by_cases hk : a = K
    · subst hk; simp [List.lookup]
    · have : (K == a) = false := by simpa using fun e => hk e.symm
      simp [List.lookup, this, hk, ih]

/-- C8 (amended): the key set of the `ArgumentMap` is exactly the set of
lower-cased decoded keys of the `'&'`-separated segments that contain `'='`
(split at the first `'='`), so segments without `'='` and empty segments
contribute nothing; and adding `"&token"`, with `token` free of `'='`, to a
target that contains `'?'` never changes the outcome of `Routing` (the handler
selected and the arguments it receives). -/
theorem C8_key_only_tokens_discarded :
    (∀ query K : Str,
      ArgumentMap.contains (ParseQuery query) K = true ↔
        ∃ seg ∈ split '&' query, ∃ k v,
          SplitKeyValue seg = some (k, v) ∧ ToLower (DecodeData k) = K) ∧
    (∀ (lib : StdLib) (r : BasicRouter) (pre_args : PreArgs) (method target token : Str),
      '?' ∈ target → '=' ∉ token →
      r.Routing lib pre_args method (target ++ '&' :: token) =
        r.Routing lib pre_args method target) := by
  constructor
  · intro query K
    unfold ArgumentMap.contains
    rw [find_ParseQuery, lookup_isSome_iff]
    unfold QueryPairs
    constructor
    · rintro ⟨kv, hkv, rfl⟩
      obtain ⟨seg, hseg, hsome⟩ := List.mem_filterMap.1 hkv
      cases hs : SplitKeyValue seg with
      | none => simp [hs] at hsome
      | some p =>
        rcases p with ⟨k, v⟩
        simp only [hs, Option.some.injEq] at hsome
        exact ⟨seg, hseg, k, v, hs, by rw [← hsome]⟩
    · rintro ⟨seg, hseg, k, v, hs, rfl⟩
      exact ⟨(ToLower (DecodeData k), DecodeData v),
        List.mem_filterMap.2 ⟨seg, hseg, by simp [hs]⟩, rfl⟩
  · intro lib r pre_args method target token hq htok
    obtain ⟨hp, hqry⟩ := Target_append target ('&' :: token) hq
    rw [Routing_eq, Routing_eq, hp, hqry, ParseQuery_append_token _ token htok]

/-- C8 at the router of the test: `&other` added to `/hello?name=yyy&age=18`. -/
theorem C8_witness :
    '?' ∈ "/hello?name=yyy&age=18".toList ∧ '=' ∉ "other".toList ∧
    TestRouter.Routing TestLib 0 "GET".toList ("/hello?name=yyy&age=18".toList ++
      '&' :: "other".toList) =
        TestRouter.Routing TestLib 0 "GET".toList "/hello?name=yyy&age=18".toList ∧
    TestRouter.Routing TestLib 0 "GET".toList "/hello?name=yyy&age=18&other".toList =
      .ok ⟨"OnHelloArg".toList, 0,
        [.plain (.string "yyy".toList), .opt none, .plain (.lexical 0 18)]⟩ :=
  have h1 : '?' ∈ "/hello?name=yyy&age=18".toList := by decide
  have h2 : '=' ∉ "other".toList := by decide
  ⟨h1, h2, C8_key_only_tokens_discarded.2 TestLib TestRouter 0 "GET".toList _ _ h1 h2, by decide⟩

/-- C8 (counterexample): a target without `'?'`. `GET /hello` invokes `OnHello`,
but with `"&other"` added the target is `/hello&other`, whose path is not
registered: `Routing` fails with "Route not found". -/
theorem C8_counterexample :
    '=' ∉ "other".toList ∧
    TestRouter.Routing TestLib 0 "GET".toList "/hello".toList = .ok ⟨"OnHello".toList, 0, []⟩ ∧
    TestRouter.Routing TestLib 0 "GET".toList ("/hello".toList ++ '&' :: "other".toList) =
      .error .RouteNotFound := by
  decide

/-! ## Conversion and argument binding -/

/-- C9: conversion failure commits to the selected overload. When the route
found for the request has, in the list of the request method, a first matching
binding whose invocation fails with a conversion error, `Routing` fails with
that conversion error: no handler is invoked and the bindings after it are not
tried, whatever they are. -/
theorem C9_conversion_failure_commits (lib : StdLib) (r : BasicRouter) (pre_args : PreArgs)
    (method target : Str) (route : RouteItem) (results : List Str)
    (binders front back : BinderList) (b : RouteBinder)
    (hfind : r.FindRoute lib (DecodeData (TargetPath target)) = some (route, results))
    (hl : List.lookup method route.allowed_method_binders_ = some binders)
    (hsplit : binders = front ++ b :: back)
    (hfront : ∀ x ∈ front,
      x.IsMatched (CaptureCount results) (ParseQuery (TargetQuery target)) = .ok false)
    (hb : b.IsMatched (CaptureCount results) (ParseQuery (TargetQuery target)) = .ok true)
    (hconv : b.Invoke lib pre_args results (ParseQuery (TargetQuery target)) =
      .error .ConversionError) :
    r.Routing lib pre_args method target = .error .ConversionError := by
  have hallowed : route.IsAllowedMethod method = true := by
    simp [RouteItem.IsAllowedMethod, hl]
  rw [Routing_eq, hfind]
  simp only [hallowed, Bool.not_true, Bool.false_eq_true, if_false]
  have hinv : route.Invoke lib pre_args method results (ParseQuery (TargetQuery target)) =
      InvokeLoop lib pre_args results (ParseQuery (TargetQuery target)) (CaptureCount results)
        binders := by
    simp only [RouteItem.Invoke, hl, path_arg_num_eq]
  rw [hinv, hsplit, InvokeLoop_first lib pre_args results _ _ front b back hfront hb, hconv]

/-- C9 at the router of the test and `GET /hello?name=yyy&age=bad`: `OnHelloArg`
is matched first and the conversion of `bad` fails, although the binding of
`OnHello` after it matches and its invocation succeeds. -/
theorem C9_witness :
    TestRouter.Routing TestLib 0 "GET".toList "/hello?name=yyy&age=bad".toList =
      .error .ConversionError ∧
    RouteBinder.IsMatched ⟨0, [], OnHello⟩ (CaptureCount [])
      (ParseQuery (TargetQuery "/hello?name=yyy&age=bad".toList)) = .ok true ∧
    RouteBinder.Invoke TestLib ⟨0, [], OnHello⟩ 0 []
      (ParseQuery (TargetQuery "/hello?name=yyy&age=bad".toList)) =
        .ok ⟨"OnHello".toList, 0, []⟩ :=
  ⟨C9_conversion_failure_commits TestLib TestRouter 0 "GET".toList
      "/hello?name=yyy&age=bad".toList
      ⟨[], [("GET".toList,
        [⟨0, ["name".toList, "nick_name".toList, "age".toList], OnHelloArg⟩, ⟨0, [], OnHello⟩]),
        ("POST".toList, [⟨0, [], OnHello⟩])]⟩
      []
      [⟨0, ["name".toList, "nick_name".toList, "age".toList], OnHelloArg⟩, ⟨0, [], OnHello⟩]
      [] [⟨0, [], OnHello⟩]
      ⟨0, ["name".toList, "nick_name".toList, "age".toList], OnHelloArg⟩
      (by decide) (by decide) rfl (by simp) (by decide) (by decide),
    by decide, by decide⟩

theorem find_assign_ne (m : ArgumentMap) (k v K : Str) (h : K ≠ k) :
    ArgumentMap.find (ArgumentMap.assign m k v) K = ArgumentMap.find m K := by
  unfold ArgumentMap.find ArgumentMap.assign
  induction m with
  | nil => rfl
  | cons kv l ih =>
    rcases kv with ⟨a, b⟩
    by_cases ha : a = k
    · subst ha
      have hKa : (K == a) = false := by simpa using h
      have e : (if (a, b).1 = a then ((a, b).1, v) else (a, b)) = (a, v) := by simp
      rw [List.map_cons, e, List.lookup, List.lookup, hKa]
      exact ih
    · have e : (if (a, b).1 = k then ((a, b).1, v) else (a, b)) = (a, b) := by simp [ha]
      rw [List.map_cons, e, List.lookup, List.lookup]
      cases (K == a)
      · exact ih
      · rfl

theorem DoInvoke_expected (lib : StdLib) (b : RouteBinder) (pre_args : PreArgs)
    (results : List Str) (m : ArgumentMap) (hnd : b.capture_params_.Nodup)
    (tys : List ParamTy) (m2 : ArgumentMap) (values vs : List Arg)
    (hlen : values.length + tys.length = b.path_arg_num_ + b.capture_params_.length)
    (hagree : ∀ j (hj : j < b.capture_params_.length), values.length - b.path_arg_num_ ≤ j →
      ArgumentMap.find m2 b.capture_params_[j] = ArgumentMap.find m b.capture_params_[j])
    (hexp : (tys.enumFrom values.length).map
      (fun it => ExpectedArg lib b results m it.1 it.2) = vs.map Except.ok) :
    b.DoInvoke lib pre_args results m2 tys values = .ok ⟨b.func_.name, pre_args, values ++ vs⟩ := by
  induction tys generalizing m2 values vs with
  | nil =>
    cases vs with
    | nil => simp [RouteBinder.DoInvoke]
    | cons v vs => simp at hexp
  | cons ty tys ih =>
    cases vs with
    | nil => simp at hexp
    | cons v vs =>
      simp only [List.enumFrom_cons, List.map_cons, List.cons.injEq] at hexp
      obtain ⟨hhead, htail⟩ := hexp
      simp only [List.length_cons] at hlen
      have hnext : (values ++ [v]).length = values.length + 1 := by simp
      rw [RouteBinder.DoInvoke]
      by_cases hp : b.path_arg_num_ > values.length
      · have hlt : values.length < b.path_arg_num_ := hp
        rw [ExpectedArg, if_pos hlt] at hhead
        rw [if_pos hp, hhead]
        dsimp only
        rw [ih m2 (values ++ [v]) vs (by rw [hnext]; omega)
          (fun j hj hle => hagree j hj (by omega)) (by rw [hnext]; exact htail)]
        simp
      · have hnlt : ¬ values.length < b.path_arg_num_ := hp
        have hidx : values.length - b.path_arg_num_ < b.capture_params_.length := by omega
        have hg : b.capture_params_.get? (values.length - b.path_arg_num_) =
            some b.capture_params_[values.length - b.path_arg_num_] := by
          simp [List.getElem?_eq_getElem hidx]
        have hgd : b.capture_params_.getD (values.length - b.path_arg_num_) [] =
            b.capture_params_[values.length - b.path_arg_num_] := by
          simp [List.getD_eq_getElem?_getD, List.getElem?_eq_getElem hidx]
        rw [ExpectedArg, if_neg hnlt, hgd, ← hagree _ hidx (Nat.le_refl _)] at hhead
        rw [if_neg hp, hg]
        dsimp only
        cases hf : ArgumentMap.find m2 b.capture_params_[values.length - b.path_arg_num_] with
        | none =>
          rw [hf] at hhead
          dsimp only at hhead ⊢
          by_cases ho : ty.optional = true
          · rw [if_pos ho] at hhead ⊢
            cases hhead
            rw [ih m2 (values ++ [EmptyOptional]) vs (by simp; omega)
              (fun j hj hle => hagree j hj (by omega)) (by simpa using htail)]
            simp
          · rw [if_neg ho] at hhead; cases hhead
        | some second =>
          rw [hf] at hhead
          dsimp only at hhead ⊢
          rw [hhead]
          dsimp only
          rw [ih _ (values ++ [v]) vs (by rw [hnext]; omega) ?_ (by rw [hnext]; exact htail)]
          · simp
          · intro j hj hle
            rw [hnext] at hle
            have hne : b.capture_params_[j] ≠
                b.capture_params_[values.length - b.path_arg_num_] := by
              intro e
              have := (List.Nodup.getElem_inj_iff hnd).1 e
              omega
            rw [find_assign_ne _ _ _ _ hne]
            exact hagree j hj (by omega)

/-- Argument binding for a binding whose query names are pairwise distinct and
which satisfies the constructor invariant: when the conversions of the binding
rule all succeed, the handler is called with the context and exactly those
values, path-derived first, then query-derived in declared order. -/
theorem Invoke_binds_expected (lib : StdLib) (b : RouteBinder) (pre_args : PreArgs)
    (results : List Str) (m : ArgumentMap) (vs : List Arg) (hwf : b.WellFormed)
    (hnd : b.capture_params_.Nodup)
    (hexp : b.func_.params.enum.map (fun it => ExpectedArg lib b results m it.1 it.2) =
      vs.map Except.ok) :
    b.Invoke lib pre_args results m = .ok ⟨b.func_.name, pre_args, vs⟩ := by
  unfold RouteBinder.WellFormed HandlerFn.kArgNum at hwf
  have := DoInvoke_expected lib b pre_args results m hnd b.func_.params m [] vs
    (by simp; omega) (fun _ _ _ => rfl) (by simpa [List.enum] using hexp)
  simpa [RouteBinder.Invoke] using this

/-- C10 (evaluation at the failing input): after the successful registration
`("/x?a&a", OnPair, {"GET"})`, the request `GET /x?a=v` builds the argument
map `{a ↦ "v"}`, and `OnPair` receives `"v"` for its first parameter but the
empty string for its second: the first `SetValue` has moved the mapped string
out of the map. -/
theorem C10_repeated_name_moved_from :
    (BasicRouter.empty.AddRoute "/x?a&a".toList OnPair ["GET".toList]).2 = none ∧
    ParseQuery (TargetQuery "/x?a=v".toList) = [("a".toList, "v".toList)] ∧
    PairRouter.Routing TestLib 0 "GET".toList "/x?a=v".toList =
      .ok ⟨"OnPair".toList, 0, [.plain (.string "v".toList), .plain (.string [])]⟩ := by
  decide

/-! ## The executor pool -/

theorem AfterCalls_next_index (k : Nat) (p : IoContextPool) (hp : p.next_index_ < 2 ^ 64) :
    (IoContextPool.AfterCalls k p).next_index_ = (p.next_index_ + k) % 2 ^ 64 := by
  induction k generalizing p with
  | zero =>
    rw [IoContextPool.AfterCalls, Nat.add_zero, Nat.mod_eq_of_lt hp]
  | succ n ih =>
    have hlt : p.Get.2.next_index_ < 2 ^ 64 := Nat.mod_lt _ (by decide)
    rw [IoContextPool.AfterCalls, ih p.Get.2 hlt]
    simp only [IoContextPool.Get, Nat.mod_add_mod]
    congr 1
    omega

theorem AfterCalls_contexts_size (k : Nat) (p : IoContextPool) :
    (IoContextPool.AfterCalls k p).contexts_size = p.contexts_size := by
  induction k generalizing p with
  | zero => rfl
  | succ n ih => simp only [IoContextPool.AfterCalls, ih, IoContextPool.Get]

theorem NthGet_make (N k : Nat) (hk : k < 2 ^ 64) :
    IoContextPool.NthGet k (IoContextPool.make N) = k % N := by
  have hs := AfterCalls_contexts_size k (IoContextPool.make N)
  have hn := AfterCalls_next_index k (IoContextPool.make N)
    (show (0 : Nat) < 2 ^ 64 by decide)
  unfold IoContextPool.NthGet IoContextPool.Get
  rw [hs, hn]
  simp only [IoContextPool.make, Nat.zero_add, Nat.mod_eq_of_lt hk]

theorem count_shifted_mod (N k c : Nat) (hc : c < N) :
    ((List.range N).map (fun i => (k + i) % N)).count c = 1 := by
  have hN : 0 < N := by omega
  have hnd : ((List.range N).map (fun i => (k + i) % N)).Nodup := by
    refine (List.nodup_range N).map_on ?_
    intro i hi j hj hij
    rw [List.mem_range] at hi hj
    have h1 : i % N = j % N := Nat.ModEq.add_left_cancel' k hij
    rwa [Nat.mod_eq_of_lt hi, Nat.mod_eq_of_lt hj] at h1
  have hmem : c ∈ (List.range N).map (fun i => (k + i) % N) := by
    rw [List.mem_map]
    refine ⟨(c + (N - k % N)) % N, List.mem_range.2 (Nat.mod_lt _ hN), ?_⟩
    have hkm : k % N < N := Nat.mod_lt _ hN
    calc (k + (c + (N - k % N)) % N) % N
        = (k % N + (c + (N - k % N)) % N % N) % N := Nat.add_mod _ _ _
      _ = (k % N + (c + (N - k % N)) % N) % N := by rw [Nat.mod_mod]
      _ = (k % N + (c + (N - k % N))) % N := by rw [Nat.add_mod_mod]
      _ = (c + N) % N := by congr 1; omega
      _ = c := by rw [Nat.add_mod_right, Nat.mod_eq_of_lt hc]
  exact List.count_eq_one_of_mem hnd hmem

/-- C20: round-robin executor assignment. For a pool of `N ≥ 1` contexts the
`k`-th call of `Get` (counting from 0, `k < 2 ^ 64`) returns context number
`k mod N`; so `N` consecutive calls (the `k`-th to the `(k+N-1)`-th, all below
`2 ^ 64`) return each context number `c < N` exactly once. -/
theorem C20_round_robin (N k : Nat) (hN : 1 ≤ N) (hk : k < 2 ^ 64) :
    IoContextPool.NthGet k (IoContextPool.make N) = k % N ∧
    IoContextPool.NthGet k (IoContextPool.make N) < N ∧
    (k + N ≤ 2 ^ 64 → ∀ c, c < N →
      ((List.range N).map
        (fun i => IoContextPool.NthGet (k + i) (IoContextPool.make N))).count c = 1) := by
  refine ⟨NthGet_make N k hk, ?_, ?_⟩
  · rw [NthGet_make N k hk]; exact Nat.mod_lt _ (by omega)
  · intro hkn c hc
    have : (List.range N).map (fun i => IoContextPool.NthGet (k + i) (IoContextPool.make N)) =
        (List.range N).map (fun i => (k + i) % N) := by
      apply List.map_congr_left
      intro i hi
      rw [List.mem_range] at hi
      exact NthGet_make N (k + i) (by omega)
    rw [this]
    exact count_shifted_mod N k c hc

/-- C20 at a pool of three contexts: calls 4, 5, 6 return contexts 1, 2, 0. -/
theorem C20_witness :
    1 ≤ 3 ∧ 4 < 2 ^ 64 ∧ IoContextPool.NthGet 4 (IoContextPool.make 3) = 4 % 3 ∧
    (List.range 3).map (fun i => IoContextPool.NthGet (4 + i) (IoContextPool.make 3)) =
      [1, 2, 0] :=
  ⟨by decide, by decide, (C20_round_robin 3 4 (by decide) (by decide)).1, by decide⟩

/-! ## The test table -/

/-- C16: the three registrations of the test succeed in the order given, and on
the resulting router each of the 20 rows of `kUrls` makes `Routing` invoke
exactly the handler named in the row, or throw (no handler) when the name is
empty; `GET /hello?name=xxx&age=34` calls `OnHelloArg("xxx", empty, 34)` and
`POST /hello?name=yyy&age=bad` calls `OnHello`. -/
theorem C16_test_table :
    (BasicRouter.empty.AddRoute "/hello?name&nick_name&age".toList OnHelloArg
      ["GET".toList]).2 = none ∧
    ((BasicRouter.empty.AddRoute "/hello?name&nick_name&age".toList OnHelloArg
      ["GET".toList]).1.AddRoute "/hello/{name}".toList OnHelloPath ["GET".toList]).2 = none ∧
    (((BasicRouter.empty.AddRoute "/hello?name&nick_name&age".toList OnHelloArg
      ["GET".toList]).1.AddRoute "/hello/{name}".toList OnHelloPath
      ["GET".toList]).1.AddRoute "/hello".toList OnHello ["GET".toList, "POST".toList]).2 = none ∧
    kUrls.length = 20 ∧
    (∀ row ∈ kUrls,
      FuncNameAfter (TestRouter.Routing TestLib 0 row.1.toList row.2.1.toList) =
        row.2.2.toList) ∧
    TestRouter.Routing TestLib 0 "GET".toList "/hello?name=xxx&age=34".toList =
      .ok ⟨"OnHelloArg".toList, 0,
        [.plain (.string "xxx".toList), .opt none, .plain (.lexical 0 34)]⟩ ∧
    TestRouter.Routing TestLib 0 "POST".toList "/hello?name=yyy&age=bad".toList =
      .ok ⟨"OnHello".toList, 0, []⟩ := by
  refine ⟨by decide, by decide, by decide, by decide, ?_, by decide, by decide⟩
  decide

/-! ## Registration -/

theorem rfind_lt (c : Char) (s : Str) (j : Nat) (h : rfind c s = some j) :
    j < s.length ∧ s.get? j = some c ∧ c ∉ s.drop (j + 1) := by
  induction s generalizing j with
  | nil => simp [rfind] at h
  | cons x t ih =>
    rw [rfind] at h
    cases hr : rfind c t with
    | some i =>
      rw [hr] at h
      simp only [Option.some.injEq] at h
      subst h
      obtain ⟨h1, h2, h3⟩ := ih i hr
      exact ⟨by simp only [List.length_cons]; omega, by simpa using h2, by simpa using h3⟩
    | none =>
      rw [hr] at h
      dsimp only at h
      by_cases hx : x = c
      · rw [if_pos hx] at h
        simp only [Option.some.injEq] at h
        subst h
        refine ⟨by simp, by simp [hx], ?_⟩
        simp only [Nat.zero_add, List.drop_succ_cons, List.drop_zero]
        clear ih
        induction t with
        | nil => simp
        | cons y u ihu =>
          rw [rfind] at hr
          cases hu : rfind c u with
          | some i => rw [hu] at hr; cases hr
          | none =>
            rw [hu] at hr
            dsimp only at hr
            by_cases hy : y = c
            · rw [if_pos hy] at hr; cases hr
            · simp only [List.mem_cons, not_or]
              exact ⟨fun e => hy e.symm, ihu hu⟩
      · rw [if_neg hx] at h; cases h

theorem PlaceholderAt_len (s : Str) (len : Nat) (h : PlaceholderAt s = some len) :
    2 ≤ len ∧ len ≤ s.length := by
  cases s with
  | nil => simp [PlaceholderAt] at h
  | cons c t =>
    rw [PlaceholderAt] at h
    by_cases hc : c = '{'
    · rw [if_pos hc] at h
      cases hr : rfind '}' (t.takeWhile (fun x => x != '/')) with
      | none => rw [hr] at h; cases h
      | some j =>
        rw [hr] at h
        simp only [Option.some.injEq] at h
        subst h
        have h1 := (rfind_lt _ _ j hr).1
        have h2 : (t.takeWhile (fun x => x != '/')).length ≤ t.length :=
          (List.takeWhile_sublist _).length_le
        simp only [List.length_cons]
        omega
    · rw [if_neg hc] at h; cases h

theorem PlaceholderSearch_split (s before found after : Str)
    (h : PlaceholderSearch s = some (before, found, after)) :
    s = before ++ found ++ after ∧ 2 ≤ found.length := by
  induction s generalizing before with
  | nil => simp [PlaceholderSearch] at h
  | cons c t ih =>
    rw [PlaceholderSearch] at h
    cases hp : PlaceholderAt (c :: t) with
    | some len =>
      rw [hp] at h
      simp only [Option.some.injEq, Prod.mk.injEq] at h
      obtain ⟨rfl, rfl, rfl⟩ := h
      obtain ⟨h2, hle⟩ := PlaceholderAt_len _ len hp
      refine ⟨by simp, ?_⟩
      rw [List.length_take]
      omega
    | none =>
      rw [hp] at h
      dsimp only at h
      cases hs : PlaceholderSearch t with
      | none => rw [hs] at h; cases h
      | some res =>
        obtain ⟨b, f, a⟩ := res
        rw [hs] at h
        simp only [Option.some.injEq, Prod.mk.injEq] at h
        obtain ⟨rfl, rfl, rfl⟩ := h
        obtain ⟨h1, h2⟩ := ih b hs
        exact ⟨by rw [h1]; simp, h2⟩

theorem PlaceholderSearch_after_lt (s before found after : Str)
    (h : PlaceholderSearch s = some (before, found, after)) : after.length + 2 ≤ s.length := by
  obtain ⟨h1, h2⟩ := PlaceholderSearch_split s before found after h
  rw [h1]
  simp only [List.length_append]
  omega

/-- Enough fuel: the counting loop of `AddRoute` has finished after at most
`temp_path.length` iterations. -/
theorem CountPlaceholdersLoop_fuel (fuel : Nat) (s : Str) (h : s.length ≤ fuel) :
    CountPlaceholdersLoop fuel s = CountPlaceholders s := by
  unfold CountPlaceholders
  induction fuel using Nat.strong_induction_on generalizing s with
  | _ fuel ih =>
    cases hs : PlaceholderSearch s with
    | none =>
      cases fuel <;> cases hl : s.length <;> simp [CountPlaceholdersLoop, hs]
    | some res =>
      obtain ⟨b, f, a⟩ := res
      have hlt := PlaceholderSearch_after_lt s b f a hs
      cases fuel with
      | zero => omega
      | succ n =>
        cases hl : s.length with
        | zero => omega
        | succ m =>
          simp only [CountPlaceholdersLoop, hs]
          rw [ih n (by omega) a (by omega)]
          have := ih m (by omega) a (by omega)
          rw [this]

/-- Enough fuel: `regex_replace` has replaced every match after at most
`path.length` replacements. -/
theorem ReplacePlaceholdersLoop_fuel (fuel : Nat) (s : Str) (h : s.length ≤ fuel) :
    ReplacePlaceholdersLoop fuel s = ReplacePlaceholders s := by
  unfold ReplacePlaceholders
  induction fuel using Nat.strong_induction_on generalizing s with
  | _ fuel ih =>
    cases hs : PlaceholderSearch s with
    | none =>
      cases fuel <;> cases hl : s.length <;> simp [ReplacePlaceholdersLoop, hs]
    | some res =>
      obtain ⟨b, f, a⟩ := res
      have hlt := PlaceholderSearch_after_lt s b f a hs
      cases fuel with
      | zero => omega
      | succ n =>
        cases hl : s.length with
        | zero => omega
        | succ m =>
          simp only [ReplacePlaceholdersLoop, hs]
          rw [ih n (by omega) a (by omega)]
          have := ih m (by omega) a (by omega)
          rw [this]

theorem split_length (c : Char) (s : Str) : (split c s).length = s.count c + 1 := by
  induction s with
  | nil => simp [split]
  | cons x t ih =>
    by_cases hx : x = c
    · subst hx
      simp [split, ih]
    · rw [split, if_neg hx]
      have hc : List.count c (x :: t) = List.count c t := by
        rw [List.count_cons]; simp [hx]
      cases hs : split c t with
      | nil => exact absurd hs (split_ne_nil c t)
      | cons tok toks =>
        rw [hs] at ih
        simp only [List.length_cons] at ih ⊢
        omega

theorem SplitTarget_fst (target : Str) : (SplitTarget target).1 = TargetPath target := by
  unfold SplitTarget TargetPath
  cases find '?' target <;> rfl

theorem SplitTarget_snd_length (target : Str) :
    (SplitTarget target).2.length = QueryDeclCount target := by
  unfold SplitTarget QueryDeclCount
  cases find '?' target with
  | none => rfl
  | some pos => simp [split_length]

theorem lookup_isSome_of_mem {β : Type} (k : Str) (l : List (Str × β)) (kv : Str × β)
    (h : kv ∈ l) (hk : kv.1 = k) : (List.lookup k l).isSome = true := by
  induction l with
  | nil => simp at h
  | cons a l ih =>
    rcases a with ⟨x, y⟩
    by_cases hx : k = x
    · subst hx; simp [List.lookup]
    · have hb : (k == x) = false := by simpa using hx
      simp only [List.mem_cons] at h
      rcases h with h | h
      · subst h; exact absurd hk.symm hx
      · simp only [List.lookup, hb]
        exact ih h

theorem AddHandleFunc_eq (g : Registration) (item : RouteItem) :
    item.AddHandleFunc (CountPlaceholders g.path) (g.allowed_methods.map ToUpper)
        g.capture_params g.func =
      if g.accepted then .ok (g.Apply item) else .error .NumberOfParametersDoesNotMatch := by
  unfold RouteItem.AddHandleFunc RouteBinder.make Registration.Apply Registration.accepted
    Registration.binder
  by_cases h : g.capture_params.length + CountPlaceholders g.path = g.func.kArgNum
  · simp [h]
  · simp [h]

theorem UpdateFirst_append_fresh {α : Type} (p : α → Bool) (y x : α) (l : List α)
    (hl : l.find? p = none) (hx : p x = true) :
    UpdateFirst p (fun _ => y) (l ++ [x]) = l ++ [y] := by
  induction l with
  | nil => simp [UpdateFirst, hx]
  | cons a l ih =>
    rw [List.find?_cons] at hl
    cases hp : p a with
    | true => simp [hp] at hl
    | false =>
      simp only [hp] at hl
      simp [UpdateFirst, hp, ih hl]

theorem UpdateFirst_self {α : Type} (p : α → Bool) (x : α) (l : List α)
    (hl : l.find? p = some x) : UpdateFirst p (fun _ => x) l = l := by
  induction l with
  | nil => simp at hl
  | cons a l ih =>
    rw [List.find?_cons] at hl
    cases hp : p a with
    | true =>
      simp only [hp, Option.some.injEq] at hl
      subst hl
      simp [UpdateFirst, hp]
    | false =>
      simp only [hp] at hl
      simp [UpdateFirst, hp, ih hl]

/-- `AddRoute` in terms of the registration: the exception, and the router
after the call. -/
theorem AddRoute_eq (r : BasicRouter) (g : Registration) :
    r.AddRoute g.target g.func g.allowed_methods =
      (if g.is_regex then
          { r with
            route_vec_ :=
              match r.route_vec_.find? (fun it => it.regex_path_ = g.replaced_path) with
              | some it =>
                UpdateFirst (fun it => it.regex_path_ = g.replaced_path) (fun _ => g.Apply it)
                  r.route_vec_
              | none => r.route_vec_ ++ [g.Apply ⟨g.replaced_path, []⟩] }
        else
          { r with
            route_map_ :=
              match List.lookup g.path r.route_map_ with
              | some it =>
                if g.accepted then
                  r.route_map_.map (fun kv => if kv.1 = g.path then (kv.1, g.Apply it) else kv)
                else r.route_map_
              | none => r.route_map_ ++ [(g.path, g.Apply ⟨[], []⟩)] },
        if g.accepted then none else some .NumberOfParametersDoesNotMatch) := by
  have hA := AddHandleFunc_eq g
  unfold Registration.path Registration.capture_params at hA
  unfold BasicRouter.AddRoute Registration.is_regex Registration.replaced_path Registration.path
  simp only
  by_cases hre : ReplacePlaceholders (SplitTarget g.target).1 ≠ (SplitTarget g.target).1
  · simp only [if_pos hre, decide_eq_true hre, if_true]
    cases hf : r.route_vec_.find?
        (fun it => decide (it.regex_path_ = ReplacePlaceholders (SplitTarget g.target).1)) with
    | none =>
      simp only [hA]
      by_cases hacc : g.accepted = true
      · simp only [hacc, if_true]
        rw [UpdateFirst_append_fresh _ _ _ _ hf (by simp)]
      · have hacc2 : g.accepted = false := by simpa using hacc
        have : g.Apply ⟨ReplacePlaceholders (SplitTarget g.target).1, []⟩ =
            ⟨ReplacePlaceholders (SplitTarget g.target).1, []⟩ := by
          simp [Registration.Apply, hacc]
        simp only [hacc2, Bool.false_eq_true, if_false, this]
    | some it0 =>
      simp only [hA]
      by_cases hacc : g.accepted = true
      · simp only [hacc, if_true]
      · have hacc2 : g.accepted = false := by simpa using hacc
        have : g.Apply it0 = it0 := by simp [Registration.Apply, hacc]
        simp only [hacc2, Bool.false_eq_true, if_false, this, UpdateFirst_self _ _ _ hf]
  · have hre2 : decide (ReplacePlaceholders (SplitTarget g.target).1 ≠ (SplitTarget g.target).1) =
        false := decide_eq_false hre
    simp only [if_neg hre, hre2, Bool.false_eq_true, if_false]
    cases hf : List.lookup (SplitTarget g.target).1 r.route_map_ with
    | none =>
      simp only [hA]
      by_cases hacc : g.accepted = true
      · simp only [hacc, if_true]
        have hnot : ∀ kv ∈ r.route_map_, kv.1 ≠ (SplitTarget g.target).1 := by
          intro kv hkv e
          have := (lookup_isSome_of_mem (SplitTarget g.target).1 r.route_map_ kv hkv e)
          simp [hf] at this
        have hmap : r.route_map_.map (fun kv =>
            if kv.1 = (SplitTarget g.target).1 then (kv.1, g.Apply ⟨[], []⟩) else kv) =
            r.route_map_ := by
          have e : r.route_map_.map (fun kv =>
              if kv.1 = (SplitTarget g.target).1 then (kv.1, g.Apply ⟨[], []⟩) else kv) =
              r.route_map_.map id :=
            List.map_congr_left (fun kv hkv => by simp [hnot kv hkv])
          rw [e, List.map_id]
        simp only [List.map_append, hmap, List.map_cons, List.map_nil, if_true]
      · have hacc2 : g.accepted = false := by simpa using hacc
        have : g.Apply ⟨[], []⟩ = ⟨[], []⟩ := by simp [Registration.Apply, hacc]
        simp only [hacc2, Bool.false_eq_true, if_false, this]
    | some it0 =>
      simp only [hA]
      by_cases hacc : g.accepted = true
      · simp only [hacc, if_true]
      · have hacc2 : g.accepted = false := by simpa using hacc
        simp only [hacc2, Bool.false_eq_true, if_false]

/-- The placeholder regex is greedy within a path segment: two brace groups in
one segment are one match, replaced by one group. -/
theorem CountPlaceholders_same_segment :
    CountPlaceholders "/x/{a}{b}".toList = 1 ∧
    ReplacePlaceholders "/x/{a}{b}".toList = "/x/([^/]*)".toList ∧
    CountPlaceholders "/x/{a}-{b}/{c}".toList = 2 ∧
    ReplacePlaceholders "/x/{a}-{b}/{c}".toList = "/x/([^/]*)/([^/]*)".toList := by
  decide

/-! ## The route table after any sequence of registrations -/

theorem lookup_map_update {β : Type} (K key : Str) (f : β → β) (l : List (Str × β)) :
    List.lookup K (l.map (fun kv => if kv.1 = key then (kv.1, f kv.2) else kv)) =
      if K = key then (List.lookup K l).map f else List.lookup K l := by
  induction l with
  | nil => simp
  | cons a l ih =>
    rcases a with ⟨x, y⟩
    by_cases hx : x = key
    · have e : (if (x, y).1 = key then ((x, y).1, f (x, y).2) else (x, y)) = (x, f y) := by
        simp [hx]
      rw [List.map_cons, e]
      by_cases hK : K = x
      · subst hK
        simp [List.lookup, hx]
      · have hb : (K == x) = false := by simpa using hK
        rw [List.lookup, List.lookup, hb, ih]
    · have e : (if (x, y).1 = key then ((x, y).1, f (x, y).2) else (x, y)) = (x, y) := by
        simp [hx]
      rw [List.map_cons, e]
      by_cases hK : K = x
      · subst hK
        simp [List.lookup, hx]
      · have hb : (K == x) = false := by simpa using hK
        rw [List.lookup, List.lookup, hb, ih]

theorem contains_assign (m : ArgumentMap) (k v K : Str) :
    ArgumentMap.contains (ArgumentMap.assign m k v) K = ArgumentMap.contains m K := by
  unfold ArgumentMap.contains ArgumentMap.find ArgumentMap.assign
  have h := lookup_map_update K k (fun _ => v) m
  simp only at h
  rw [h]
  by_cases hK : K = k
  · rw [if_pos hK]
    cases List.lookup K m <;> rfl
  · rw [if_neg hK]

theorem Apply_BindersWellFormed (g : Registration) (item : RouteItem)
    (h : item.BindersWellFormed) : (g.Apply item).BindersWellFormed := by
  unfold Registration.Apply
  by_cases hacc : g.accepted = true
  · rw [if_pos hacc]
    have hwf : g.binder.WellFormed := by
      simpa [Registration.accepted, RouteBinder.WellFormed, Registration.binder] using hacc
    exact foldl_AddBinder_binders _ _ _ RouteBinder.WellFormed h hwf
  · rw [if_neg hacc]; exact h

theorem AddRoute_TableOK_any (r : BasicRouter) (g : Registration) (hr : r.TableOK) :
    (r.AddRoute g.target g.func g.allowed_methods).1.TableOK := by
  rw [AddRoute_eq]
  by_cases hre : g.is_regex = true
  · simp only [hre, if_true]
    refine ⟨?_, hr.2⟩
    intro item hitem
    cases hf : r.route_vec_.find? (fun it => decide (it.regex_path_ = g.replaced_path)) with
    | none =>
      simp only [hf, List.mem_append, List.mem_singleton] at hitem
      rcases hitem with h1 | h1
      · exact hr.1 item h1
      · exact h1 ▸ Apply_BindersWellFormed g _ (BindersWellFormed_empty _)
    | some it0 =>
      simp only [hf] at hitem
      rcases mem_UpdateFirst _ _ _ _ hitem with h1 | h1
      · exact hr.1 item h1
      · exact h1 ▸ Apply_BindersWellFormed g _ (hr.1 it0 (List.mem_of_find?_eq_some hf))
  · have hre2 : g.is_regex = false := by simpa using hre
    simp only [hre2, Bool.false_eq_true, if_false]
    refine ⟨hr.1, ?_⟩
    intro kv hkv
    have hq : '?' ∉ g.path := SplitTarget_fst_no_question g.target
    cases hf : List.lookup g.path r.route_map_ with
    | none =>
      simp only [hf, List.mem_append, List.mem_singleton] at hkv
      rcases hkv with h1 | h1
      · exact hr.2 kv h1
      · subst h1
        exact ⟨Apply_BindersWellFormed g _ (BindersWellFormed_empty _), hq⟩
    | some it0 =>
      simp only [hf] at hkv
      by_cases hacc : g.accepted = true
      · simp only [hacc, if_true, List.mem_map] at hkv
        obtain ⟨kv0, hkv0, rfl⟩ := hkv
        by_cases hk : kv0.1 = g.path
        · simp only [hk, if_true]
          exact ⟨Apply_BindersWellFormed g _ (hr.2 _ (lookup_mem _ _ _ hf)).1, hq⟩
        · simpa only [hk, if_false] using hr.2 kv0 hkv0
      · have hacc2 : g.accepted = false := by simpa using hacc
        simp only [hacc2, Bool.false_eq_true, if_false] at hkv
        exact hr.2 kv hkv

theorem foldl_AddRoute_TableOK (regs : List Registration) (r : BasicRouter) (hr : r.TableOK) :
    (regs.foldl (fun r g => (r.AddRoute g.target g.func g.allowed_methods).1) r).TableOK := by
  induction regs generalizing r with
  | nil => exact hr
  | cons g gs ih => exact ih _ (AddRoute_TableOK_any r g hr)

theorem Build_TableOK (regs : List Registration) : (Build regs).TableOK :=
  foldl_AddRoute_TableOK regs _ ⟨by simp [BasicRouter.empty], by simp [BasicRouter.empty]⟩

theorem Build_append (regs : List Registration) (g : Registration) :
    Build (regs ++ [g]) = ((Build regs).AddRoute g.target g.func g.allowed_methods).1 := by
  simp [Build, List.foldl_append]

/-! ## The defensive assertions -/

theorem DoInvoke_no_assert (lib : StdLib) (b : RouteBinder) (pre_args : PreArgs)
    (results : List Str) (tys : List ParamTy) (m2 : ArgumentMap) (values : List Arg)
    (hlen : values.length + tys.length = b.path_arg_num_ + b.capture_params_.length)
    (hreq : (List.zip (b.capture_params_.drop (values.length - b.path_arg_num_))
      (tys.drop (b.path_arg_num_ - values.length))).all
        (fun q => q.2.optional || ArgumentMap.contains m2 q.1) = true) :
    b.DoInvoke lib pre_args results m2 tys values ≠ .error .AssertionFailed ∧
      b.DoInvoke lib pre_args results m2 tys values ≠ .error .IndexOutOfRange := by
  induction tys generalizing m2 values with
  | nil => simp [RouteBinder.DoInvoke]
  | cons ty tys ih =>
    simp only [List.length_cons] at hlen
    rw [RouteBinder.DoInvoke]
    by_cases hp : b.path_arg_num_ > values.length
    · rw [if_pos hp]
      cases hs : SetValue lib ty (results.getD (values.length + 1) []) with
      | error e =>
        have := SetValue_error lib ty _ e hs
        subst this
        simp
      | ok v =>
        dsimp only
        apply ih
        · simp only [List.length_append, List.length_singleton]; omega
        · have e1 : (values ++ [v]).length - b.path_arg_num_ = values.length - b.path_arg_num_ := by
            simp only [List.length_append, List.length_singleton]; omega
          have e2 : b.path_arg_num_ - values.length =
              (b.path_arg_num_ - (values ++ [v]).length) + 1 := by
            simp only [List.length_append, List.length_singleton]; omega
          rw [e2, List.drop_succ_cons] at hreq
          rw [e1]; exact hreq
    · rw [if_neg hp]
      have hidx : values.length - b.path_arg_num_ < b.capture_params_.length := by omega
      have hg : b.capture_params_.get? (values.length - b.path_arg_num_) =
          some b.capture_params_[values.length - b.path_arg_num_] := by
        simp [List.getElem?_eq_getElem hidx]
      have e0 : b.path_arg_num_ - values.length = 0 := by omega
      rw [e0, List.drop_zero, List.drop_eq_getElem_cons hidx, List.zip_cons_cons, List.all_cons,
        Bool.and_eq_true] at hreq
      obtain ⟨hhead, hrest⟩ := hreq
      rw [hg]
      dsimp only
      have hnext : ∀ v : Arg, (values ++ [v]).length - b.path_arg_num_ =
          values.length - b.path_arg_num_ + 1 := by
        intro v; simp only [List.length_append, List.length_singleton]; omega
      have hnext2 : ∀ v : Arg, b.path_arg_num_ - (values ++ [v]).length = 0 := by
        intro v; simp only [List.length_append, List.length_singleton]; omega
      cases hf : ArgumentMap.find m2 b.capture_params_[values.length - b.path_arg_num_] with
      | none =>
        dsimp only
        have hc : ArgumentMap.contains m2 b.capture_params_[values.length - b.path_arg_num_] =
            false := by simp [ArgumentMap.contains, hf]
        rw [hc, Bool.or_false] at hhead
        rw [if_pos hhead]
        apply ih
        · simp only [List.length_append, List.length_singleton]; omega
        · rw [hnext, hnext2, List.drop_zero]; exact hrest
      | some second =>
        dsimp only
        cases hs : SetValue lib ty second with
        | error e =>
          have := SetValue_error lib ty _ e hs
          subst this
          simp
        | ok v =>
          dsimp only
          apply ih
          · simp only [List.length_append, List.length_singleton]; omega
          · rw [hnext, hnext2, List.drop_zero]
            rw [List.all_eq_true] at hrest ⊢
            intro q hq
            rw [contains_assign]
            exact hrest q hq

theorem Invoke_no_assert (lib : StdLib) (b : RouteBinder) (pre_args : PreArgs)
    (results : List Str) (m : ArgumentMap) (c : Nat) (hwf : b.WellFormed)
    (hs : b.Satisfied c m = true) :
    b.Invoke lib pre_args results m ≠ .error .AssertionFailed ∧
      b.Invoke lib pre_args results m ≠ .error .IndexOutOfRange := by
  unfold RouteBinder.Satisfied RouteBinder.QueryParams at hs
  simp only [Bool.and_eq_true] at hs
  unfold RouteBinder.WellFormed HandlerFn.kArgNum at hwf
  have hreq : (List.zip (b.capture_params_.drop (([] : List Arg).length - b.path_arg_num_))
      (b.func_.params.drop (b.path_arg_num_ - ([] : List Arg).length))).all
        (fun q => q.2.optional || ArgumentMap.contains m q.1) = true := by
    simp only [List.length_nil, Nat.zero_sub, List.drop_zero, Nat.sub_zero]
    exact hs.2
  exact DoInvoke_no_assert lib b pre_args results b.func_.params m []
    (by simp only [List.length_nil]; omega) hreq

/-- C18: the defensive assertions are unreachable. On the router left by any
sequence of `AddRoute` calls, no call of `Routing` ends in a failed `assert` or
in an index outside `capture_params_`; when a route is found and allows the
method, `Invoke` finds the handler list of the method, and the binding it
selects satisfies `path_arg_count + |query names| = arity`, reads only captures
that exist, and finds every non-optional query parameter in the `ArgumentMap`. -/
theorem C18_assertions_unreachable (lib : StdLib) (regs : List Registration)
    (pre_args : PreArgs) (method target : Str) :
    (Build regs).Routing lib pre_args method target ≠ .error .AssertionFailed ∧
    (Build regs).Routing lib pre_args method target ≠ .error .IndexOutOfRange ∧
    (∀ route results,
      (Build regs).FindRoute lib (DecodeData (TargetPath target)) = some (route, results) →
      route.IsAllowedMethod method = true →
      ∃ binders, List.lookup method route.allowed_method_binders_ = some binders ∧
        ∀ b, binders.find? (fun x =>
            x.Satisfied (CaptureCount results) (ParseQuery (TargetQuery target))) = some b →
          b.capture_params_.length + b.path_arg_num_ = b.func_.kArgNum ∧
          (∀ i, i < b.path_arg_num_ → i + 1 < results.length) ∧
          (∀ q ∈ b.QueryParams, q.2.optional = false →
            ArgumentMap.contains (ParseQuery (TargetQuery target)) q.1 = true)) := by
  have hok := Build_TableOK regs
  have hnot : (Build regs).Routing lib pre_args method target ≠ .error .AssertionFailed ∧
      (Build regs).Routing lib pre_args method target ≠ .error .IndexOutOfRange := by
    rw [Routing_eq]
    cases hf : (Build regs).FindRoute lib (DecodeData (TargetPath target)) with
    | none => simp
    | some found =>
      obtain ⟨route, results⟩ := found
      dsimp only
      have hwf := FindRoute_BindersWellFormed lib _ hok _ route results hf
      cases ha : route.IsAllowedMethod method with
      | false => simp
      | true =>
        simp only [Bool.not_true, Bool.false_eq_true, if_false]
        unfold RouteItem.IsAllowedMethod at ha
        cases hl : List.lookup method route.allowed_method_binders_ with
        | none => simp [hl] at ha
        | some binders =>
          rw [Invoke_eq_find lib route pre_args method results _ binders hl hwf]
          cases hfind : binders.find? (fun x =>
              x.Satisfied (CaptureCount results) (ParseQuery (TargetQuery target))) with
          | none => simp
          | some b =>
            dsimp only
            obtain ⟨hsat, hmem⟩ := find?_sat _ binders b hfind
            exact Invoke_no_assert lib b pre_args results _ _
              (hwf _ (lookup_mem _ _ _ hl) b hmem) hsat
  refine ⟨hnot.1, hnot.2, ?_⟩
  intro route results hf ha
  have hwf := FindRoute_BindersWellFormed lib _ hok _ route results hf
  unfold RouteItem.IsAllowedMethod at ha
  cases hl : List.lookup method route.allowed_method_binders_ with
  | none => simp [hl] at ha
  | some binders =>
    refine ⟨binders, rfl, ?_⟩
    intro b hfind
    obtain ⟨hsat, hmem⟩ := find?_sat _ binders b hfind
    have hb := hwf _ (lookup_mem _ _ _ hl) b hmem
    unfold RouteBinder.Satisfied at hsat
    simp only [Bool.and_eq_true, decide_eq_true_eq, List.all_eq_true, Bool.or_eq_true] at hsat
    refine ⟨hb, ?_, ?_⟩
    · intro i hi
      have := hsat.1
      unfold CaptureCount at this
      omega
    · intro q hq hopt
      rcases hsat.2 q hq with h1 | h1
      · rw [hopt] at h1; cases h1
      · exact h1

theorem Build_TestRegistrations : Build TestRegistrations = TestRouter := by
  decide

/-- C18 at the router of the test and `GET /hello?name=xxx&age=34`. -/
theorem C18_witness :
    (Build TestRegistrations).Routing TestLib 0 "GET".toList "/hello?name=xxx&age=34".toList ≠
      .error .AssertionFailed ∧
    (Build TestRegistrations).Routing TestLib 0 "GET".toList "/hello?name=xxx&age=34".toList ≠
      .error .IndexOutOfRange ∧
    (Build TestRegistrations).Routing TestLib 0 "GET".toList "/hello?name=xxx&age=34".toList =
      .ok ⟨"OnHelloArg".toList, 0,
        [.plain (.string "xxx".toList), .opt none, .plain (.lexical 0 34)]⟩ :=
  ⟨(C18_assertions_unreachable TestLib TestRegistrations 0 "GET".toList
      "/hello?name=xxx&age=34".toList).1,
    (C18_assertions_unreachable TestLib TestRegistrations 0 "GET".toList
      "/hello?name=xxx&age=34".toList).2.1, by decide⟩

/-! ## The route table in terms of the registrations -/

theorem FirstOccurrences_append (l : List Str) (x : Str) :
    FirstOccurrences (l ++ [x]) =
      if x ∈ FirstOccurrences l then FirstOccurrences l else FirstOccurrences l ++ [x] := by
  simp [FirstOccurrences, List.foldl_append]

theorem mem_FirstOccurrences (l : List Str) (x : Str) : x ∈ FirstOccurrences l ↔ x ∈ l := by
  induction l using List.reverseRecOn with
  | nil => simp [FirstOccurrences]
  | append_singleton l a ih =>
    rw [FirstOccurrences_append]
    by_cases ha : a ∈ FirstOccurrences l
    · rw [if_pos ha]
      by_cases hx : x = a
      · subst hx; simp [ha]
      · simp [ih, hx]
    · rw [if_neg ha]
      simp [ih]

theorem Apply_regex_path (g : Registration) (item : RouteItem) :
    (g.Apply item).regex_path_ = item.regex_path_ := by
  unfold Registration.Apply
  split_ifs <;> rfl

theorem AddBinder_lookup_isSome (binders : List (Str × BinderList)) (x m : Str)
    (b : RouteBinder) :
    (List.lookup m (AddBinder binders x b)).isSome =
      ((List.lookup m binders).isSome || decide (m = x)) := by
  unfold AddBinder
  cases hx : List.lookup x binders with
  | none =>
    simp only [lookup_append_str]
    cases hm : List.lookup m binders with
    | some v => simp
    | none =>
      by_cases hmx : m = x
      · subst hmx; simp [List.lookup]
      · have hb : (m == x) = false := by simpa using hmx
        simp [List.lookup, hb, hmx]
  | some v =>
    have h := lookup_map_update m x (fun l => l ++ [b]) binders
    simp only at h ⊢
    rw [h]
    by_cases hmx : m = x
    · subst hmx
      simp [hx]
    · rw [if_neg hmx]
      simp [hmx]

theorem foldl_AddBinder_lookup_isSome (ms : List Str) (binders : List (Str × BinderList))
    (m : Str) (b : RouteBinder) :
    (List.lookup m (ms.foldl (fun acc method => AddBinder acc method b) binders)).isSome =
      ((List.lookup m binders).isSome || decide (m ∈ ms)) := by
  induction ms generalizing binders with
  | nil => simp
  | cons x xs ih =>
    rw [List.foldl_cons, ih, AddBinder_lookup_isSome]
    by_cases hmx : m = x
    · subst hmx; simp
    · by_cases hxs : m ∈ xs <;> simp [hmx, hxs]

/-- A registration adds its upper-cased methods to the item when it is accepted,
and nothing otherwise. -/
theorem Apply_IsAllowedMethod (g : Registration) (item : RouteItem) (m : Str) :
    (g.Apply item).IsAllowedMethod m =
      (item.IsAllowedMethod m || (g.accepted && decide (m ∈ g.allowed_methods.map ToUpper))) := by
  unfold Registration.Apply RouteItem.IsAllowedMethod
  by_cases hacc : g.accepted = true
  · simp only [hacc, if_true, Bool.true_and]
    exact foldl_AddBinder_lookup_isSome _ _ _ _
  · have hacc2 : g.accepted = false := by simpa using hacc
    simp [hacc2]

theorem find?_regex_path_none_iff (vec : List RouteItem) (re : Str) :
    vec.find? (fun it => decide (it.regex_path_ = re)) = none ↔
      re ∉ vec.map (fun it => it.regex_path_) := by
  induction vec with
  | nil => simp
  | cons a l ih =>
    by_cases ha : a.regex_path_ = re
    · simp [List.find?_cons, ha]
    · have ha2 : ¬ re = a.regex_path_ := fun e => ha e.symm
      simp only [List.find?_cons, ha, decide_False, List.map_cons, List.mem_cons, ha2,
        false_or]
      exact ih

theorem find?_regex_path_some (vec : List RouteItem) (re : Str) (it : RouteItem)
    (h : vec.find? (fun it => decide (it.regex_path_ = re)) = some it) :
    it ∈ vec ∧ it.regex_path_ = re := by
  obtain ⟨h1, h2⟩ := find?_sat _ vec it h
  exact ⟨h2, by simpa using h1⟩

theorem UpdateFirst_map_regex_path (vec : List RouteItem) (re : Str) (y : RouteItem)
    (hy : y.regex_path_ = re) :
    (UpdateFirst (fun it => decide (it.regex_path_ = re)) (fun _ => y) vec).map
      (fun it => it.regex_path_) = vec.map (fun it => it.regex_path_) := by
  induction vec with
  | nil => rfl
  | cons a l ih =>
    by_cases ha : a.regex_path_ = re
    · simp [UpdateFirst, ha, hy]
    · simp [UpdateFirst, ha, ih]

/-- The items of `route_vec_` after a call: the patterns, in order. -/
theorem AddRoute_vec_paths (r : BasicRouter) (g : Registration) :
    (r.AddRoute g.target g.func g.allowed_methods).1.route_vec_.map (fun it => it.regex_path_) =
      if g.is_regex then
        if g.replaced_path ∈ r.route_vec_.map (fun it => it.regex_path_) then
          r.route_vec_.map (fun it => it.regex_path_)
        else r.route_vec_.map (fun it => it.regex_path_) ++ [g.replaced_path]
      else r.route_vec_.map (fun it => it.regex_path_) := by
  rw [AddRoute_eq]
  by_cases hre : g.is_regex = true
  · simp only [hre, if_true]
    cases hf : r.route_vec_.find? (fun it => decide (it.regex_path_ = g.replaced_path)) with
    | none =>
      have hn := (find?_regex_path_none_iff _ _).1 hf
      rw [if_neg hn]
      simp [Apply_regex_path]
    | some it0 =>
      obtain ⟨hmem, hrp⟩ := find?_regex_path_some _ _ _ hf
      have hin : g.replaced_path ∈ r.route_vec_.map (fun it => it.regex_path_) :=
        List.mem_map.2 ⟨it0, hmem, hrp⟩
      rw [if_pos hin]
      dsimp only
      exact UpdateFirst_map_regex_path _ _ _ (by rw [Apply_regex_path, hrp])
  · have hre2 : g.is_regex = false := by simpa using hre
    simp [hre2]

/-- The patterns of `route_vec_` are those of the registrations with a
placeholder, in the order of their first registration. -/
theorem Build_vec_paths (regs : List Registration) :
    (Build regs).route_vec_.map (fun it => it.regex_path_) =
      FirstOccurrences ((regs.filter (fun g => g.is_regex)).map (fun g => g.replaced_path)) := by
  induction regs using List.reverseRecOn with
  | nil => simp [Build, BasicRouter.empty, FirstOccurrences]
  | append_singleton regs g ih =>
    rw [Build_append, AddRoute_vec_paths, ih, List.filter_append, List.map_append]
    by_cases hre : g.is_regex = true
    · simp only [hre, if_true, List.filter_cons, List.filter_nil, List.map_cons, List.map_nil]
      rw [FirstOccurrences_append]
    · have hre2 : g.is_regex = false := by simpa using hre
      simp [hre2]

theorem FirstOccurrences_nodup (l : List Str) : (FirstOccurrences l).Nodup := by
  induction l using List.reverseRecOn with
  | nil => simp [FirstOccurrences]
  | append_singleton l a ih =>
    rw [FirstOccurrences_append]
    by_cases ha : a ∈ FirstOccurrences l
    · rw [if_pos ha]; exact ih
    · rw [if_neg ha]
      exact List.Nodup.append ih (List.nodup_singleton a) (by simpa using ha)

theorem mem_UpdateFirst_nodup (vec : List RouteItem) (re : Str) (y item : RouteItem)
    (hnd : (vec.map (fun it => it.regex_path_)).Nodup)
    (h : item ∈ UpdateFirst (fun it => decide (it.regex_path_ = re)) (fun _ => y) vec) :
    (item ∈ vec ∧ item.regex_path_ ≠ re) ∨ item = y := by
  induction vec with
  | nil => simp [UpdateFirst] at h
  | cons a l ih =>
    rw [List.map_cons, List.nodup_cons] at hnd
    by_cases ha : a.regex_path_ = re
    · simp only [UpdateFirst, ha, decide_True, if_true, List.mem_cons] at h
      rcases h with h | h
      · exact Or.inr h
      · left
        refine ⟨List.mem_cons_of_mem _ h, ?_⟩
        intro e
        exact hnd.1 (List.mem_map.2 ⟨item, h, by rw [e, ha]⟩)
    · simp only [UpdateFirst, ha, decide_False, Bool.false_eq_true, if_false,
        List.mem_cons] at h
      rcases h with h | h
      · left; subst h; exact ⟨List.mem_cons_self _ _, ha⟩
      · rcases ih hnd.2 h with ⟨h1, h2⟩ | h1
        · exact Or.inl ⟨List.mem_cons_of_mem _ h1, h2⟩
        · exact Or.inr h1

theorem Build_vec_nodup (regs : List Registration) :
    ((Build regs).route_vec_.map (fun it => it.regex_path_)).Nodup := by
  rw [Build_vec_paths]; exact FirstOccurrences_nodup _

theorem Build_vec_mem_paths (regs : List Registration) (re : Str) :
    re ∈ (Build regs).route_vec_.map (fun it => it.regex_path_) ↔
      ∃ g ∈ regs, g.is_regex = true ∧ g.replaced_path = re := by
  rw [Build_vec_paths, mem_FirstOccurrences, List.mem_map]
  constructor
  · rintro ⟨g, hg, rfl⟩
    rw [List.mem_filter] at hg
    exact ⟨g, hg.1, hg.2, rfl⟩
  · rintro ⟨g, hg, hre, rfl⟩
    exact ⟨g, List.mem_filter.2 ⟨hg, hre⟩, rfl⟩

/-- The methods a placeholder route allows are the upper-cased methods of the
accepted registrations of its pattern. -/
theorem Build_vec_methods (regs : List Registration) (item : RouteItem)
    (hitem : item ∈ (Build regs).route_vec_) (m : Str) :
    item.IsAllowedMethod m = true ↔ ∃ g ∈ regs, g.Allows true item.regex_path_ m := by
  induction regs using List.reverseRecOn generalizing item with
  | nil => simp [Build, BasicRouter.empty] at hitem
  | append_singleton regs g ih =>
    have hex : (∃ g2 ∈ regs ++ [g], g2.Allows true item.regex_path_ m) ↔
        ((∃ g2 ∈ regs, g2.Allows true item.regex_path_ m) ∨ g.Allows true item.regex_path_ m) := by
      simp only [List.mem_append, List.mem_singleton]
      constructor
      · rintro ⟨g2, h1 | h1, h2⟩
        · exact Or.inl ⟨g2, h1, h2⟩
        · exact Or.inr (h1 ▸ h2)
      · rintro (⟨g2, h1, h2⟩ | h2)
        · exact ⟨g2, Or.inl h1, h2⟩
        · exact ⟨g, Or.inr rfl, h2⟩
    rw [hex]
    rw [Build_append, AddRoute_eq] at hitem
    by_cases hre : g.is_regex = true
    · simp only [hre, if_true] at hitem
      cases hf : (Build regs).route_vec_.find?
          (fun it => decide (it.regex_path_ = g.replaced_path)) with
      | none =>
        have hn := (find?_regex_path_none_iff _ _).1 hf
        simp only [hf, List.mem_append, List.mem_singleton] at hitem
        rcases hitem with h1 | h1
        · have hne : g.replaced_path ≠ item.regex_path_ := by
            intro e
            exact hn (List.mem_map.2 ⟨item, h1, e.symm⟩)
          rw [ih item h1]
          constructor
          · exact Or.inl
          · rintro (h | h)
            · exact h
            · exact absurd h.2.2.1 hne
        · subst h1
          rw [Apply_IsAllowedMethod, Apply_regex_path]
          have hno : ¬ ∃ g2 ∈ regs, g2.Allows true g.replaced_path m := by
            rintro ⟨g2, hg2, h2⟩
            exact hn ((Build_vec_mem_paths regs _).2 ⟨g2, hg2, h2.2.1, h2.2.2.1⟩)
          simp only [RouteItem.IsAllowedMethod, List.lookup, Option.isSome_none, Bool.false_or,
            Bool.and_eq_true, decide_eq_true_eq]
          constructor
          · intro h
            exact Or.inr ⟨h.1, hre, rfl, h.2⟩
          · rintro (h | h)
            · exact absurd h hno
            · exact ⟨h.1, h.2.2.2⟩
      | some it0 =>
        obtain ⟨hmem0, hrp0⟩ := find?_regex_path_some _ _ _ hf
        simp only [hf] at hitem
        rcases mem_UpdateFirst_nodup _ _ _ _ (Build_vec_nodup regs) hitem with ⟨h1, h2⟩ | h1
        · rw [ih item h1]
          constructor
          · exact Or.inl
          · rintro (h | h)
            · exact h
            · exact absurd h.2.2.1.symm h2
        · subst h1
          rw [Apply_IsAllowedMethod, Apply_regex_path, hrp0]
          have ih0 := ih it0 hmem0
          rw [hrp0] at ih0
          simp only [Bool.or_eq_true, Bool.and_eq_true, decide_eq_true_eq, ih0]
          constructor
          · rintro (h | h)
            · exact Or.inl h
            · exact Or.inr ⟨h.1, hre, rfl, h.2⟩
          · rintro (h | h)
            · exact Or.inl h
            · exact Or.inr ⟨h.1, h.2.2.2⟩
    · have hre2 : g.is_regex = false := by simpa using hre
      simp only [hre2, Bool.false_eq_true, if_false] at hitem
      rw [ih item hitem]
      constructor
      · exact Or.inl
      · rintro (h | h)
        · exact h
        · have := h.2.1
          rw [hre2] at this
          cases this

/-- The entries of `route_map_` after a call. -/
theorem AddRoute_map_lookup (r : BasicRouter) (g : Registration) (k : Str) :
    List.lookup k (r.AddRoute g.target g.func g.allowed_methods).1.route_map_ =
      if g.is_regex = false ∧ k = g.path then
        some (g.Apply ((List.lookup g.path r.route_map_).getD ⟨[], []⟩))
      else List.lookup k r.route_map_ := by
  rw [AddRoute_eq]
  by_cases hre : g.is_regex = true
  · simp [hre]
  · have hre2 : g.is_regex = false := by simpa using hre
    simp only [hre2, Bool.false_eq_true, if_false, true_and]
    cases hf : List.lookup g.path r.route_map_ with
    | none =>
      simp only [lookup_append_str, Option.getD_none]
      by_cases hk : k = g.path
      · subst hk
        simp [hf, List.lookup]
      · have hb : (k == g.path) = false := by simpa using hk
        rw [if_neg hk]
        cases List.lookup k r.route_map_ <;> simp [List.lookup, hb]
    | some it0 =>
      simp only [Option.getD_some]
      by_cases hacc : g.accepted = true
      · simp only [hacc, if_true]
        have h := lookup_map_update k g.path (fun _ => g.Apply it0) r.route_map_
        simp only at h
        rw [h]
        by_cases hk : k = g.path
        · subst hk; simp [hf]
        · simp [hk]
      · have hacc2 : g.accepted = false := by simpa using hacc
        have hap : g.Apply it0 = it0 := by simp [Registration.Apply, hacc2]
        simp only [hacc2, Bool.false_eq_true, if_false, hap]
        by_cases hk : k = g.path
        · subst hk; simp [hf]
        · simp [hk]

/-- The keys of `route_map_` are the paths of the literal registrations. -/
theorem Build_map_isSome (regs : List Registration) (k : Str) :
    (List.lookup k (Build regs).route_map_).isSome = true ↔
      ∃ g ∈ regs, g.is_regex = false ∧ g.path = k := by
  induction regs using List.reverseRecOn with
  | nil => simp [Build, BasicRouter.empty]
  | append_singleton regs g ih =>
    rw [Build_append, AddRoute_map_lookup]
    by_cases hc : g.is_regex = false ∧ k = g.path
    · rw [if_pos hc]
      simp only [Option.isSome_some, true_iff]
      exact ⟨g, by simp, hc.1, hc.2.symm⟩
    · rw [if_neg hc, ih]
      constructor
      · rintro ⟨g2, h1, h2⟩
        exact ⟨g2, by simp [h1], h2⟩
      · rintro ⟨g2, h1, h2⟩
        simp only [List.mem_append, List.mem_singleton] at h1
        rcases h1 with h1 | h1
        · exact ⟨g2, h1, h2⟩
        · subst h1
          exact absurd ⟨h2.1, h2.2.symm⟩ hc

theorem literal_replaced_path (g : Registration) (h : g.is_regex = false) :
    g.replaced_path = g.path := by
  simpa [Registration.is_regex] using h

/-- The methods a literal route allows are the upper-cased methods of the
accepted registrations of its path. -/
theorem Build_map_methods (regs : List Registration) (k : Str) (item : RouteItem)
    (hitem : List.lookup k (Build regs).route_map_ = some item) (m : Str) :
    item.IsAllowedMethod m = true ↔ ∃ g ∈ regs, g.Allows false k m := by
  induction regs using List.reverseRecOn generalizing item with
  | nil => simp [Build, BasicRouter.empty] at hitem
  | append_singleton regs g ih =>
    have hex : (∃ g2 ∈ regs ++ [g], g2.Allows false k m) ↔
        ((∃ g2 ∈ regs, g2.Allows false k m) ∨ g.Allows false k m) := by
      simp only [List.mem_append, List.mem_singleton]
      constructor
      · rintro ⟨g2, h1 | h1, h2⟩
        · exact Or.inl ⟨g2, h1, h2⟩
        · exact Or.inr (h1 ▸ h2)
      · rintro (⟨g2, h1, h2⟩ | h2)
        · exact ⟨g2, Or.inl h1, h2⟩
        · exact ⟨g, Or.inr rfl, h2⟩
    rw [hex]
    rw [Build_append, AddRoute_map_lookup] at hitem
    by_cases hc : g.is_regex = false ∧ k = g.path
    · rw [if_pos hc, Option.some.injEq] at hitem
      obtain ⟨hre, hk⟩ := hc
      subst hitem
      rw [Apply_IsAllowedMethod]
      have hold : (((List.lookup g.path (Build regs).route_map_).getD ⟨[], []⟩).IsAllowedMethod m
          = true) ↔ ∃ g2 ∈ regs, g2.Allows false k m := by
        cases hl : List.lookup g.path (Build regs).route_map_ with
        | some it0 =>
          rw [Option.getD_some]
          rw [← hk] at hl
          exact ih it0 hl
        | none =>
          rw [Option.getD_none]
          simp only [RouteItem.IsAllowedMethod, List.lookup, Option.isSome_none,
            Bool.false_eq_true, false_iff]
          rintro ⟨g2, hg2, h2⟩
          have := (Build_map_isSome regs g.path).2
            ⟨g2, hg2, h2.2.1, by rw [← literal_replaced_path g2 h2.2.1, h2.2.2.1, hk]⟩
          simp [hl] at this
      simp only [Bool.or_eq_true, Bool.and_eq_true, decide_eq_true_eq, hold]
      constructor
      · rintro (h | h)
        · exact Or.inl h
        · exact Or.inr ⟨h.1, hre, by rw [literal_replaced_path g hre, hk], h.2⟩
      · rintro (h | h)
        · exact Or.inl h
        · exact Or.inr ⟨h.1, h.2.2.2⟩
    · rw [if_neg hc] at hitem
      rw [ih item hitem]
      constructor
      · exact Or.inl
      · rintro (h | h)
        · exact h
        · exfalso
          apply hc
          exact ⟨h.2.1, by rw [← h.2.2.1, literal_replaced_path g h.2.1]⟩

/-! ## Route lookup and the method check -/

theorem Built_Build (r : BasicRouter) (h : Built r) :
    ∃ regs, (∀ g ∈ regs, g.accepted = true) ∧ r = Build regs := by
  induction h with
  | empty => exact ⟨[], by simp, rfl⟩
  | add r target func methods _ hok ih =>
    obtain ⟨regs, hacc, rfl⟩ := ih
    refine ⟨regs ++ [⟨target, func, methods⟩], ?_, ?_⟩
    · intro g hg
      simp only [List.mem_append, List.mem_singleton] at hg
      rcases hg with hg | hg
      · exact hacc g hg
      · subst hg
        have h1 := AddRoute_eq (Build regs) ⟨target, func, methods⟩
        simp only at h1
        rw [h1] at hok
        by_contra hc
        simp [hc] at hok
    · rw [Build_append]

theorem FindRegexRoute_none_iff (lib : StdLib) (path : Str) (vec : List RouteItem) :
    FindRegexRoute lib path vec = none ↔
      ∀ item ∈ vec, lib.regex_match item.regex_path_ path = none := by
  induction vec with
  | nil => simp [FindRegexRoute]
  | cons a l ih =>
    rw [FindRegexRoute]
    cases hm : lib.regex_match a.regex_path_ path with
    | none => simp [ih, hm]
    | some res => simp [hm]

theorem FindRegexRoute_some_iff (lib : StdLib) (path : Str) (vec : List RouteItem)
    (item : RouteItem) (results : List Str) :
    FindRegexRoute lib path vec = some (item, results) ↔
      ∃ front back, vec = front ++ item :: back ∧
        (∀ x ∈ front, lib.regex_match x.regex_path_ path = none) ∧
        lib.regex_match item.regex_path_ path = some results := by
  induction vec with
  | nil => simp [FindRegexRoute]
  | cons a l ih =>
    rw [FindRegexRoute]
    cases hm : lib.regex_match a.regex_path_ path with
    | none =>
      dsimp only
      rw [ih]
      constructor
      · rintro ⟨front, back, h1, h2, h3⟩
        refine ⟨a :: front, back, by simp [h1], ?_, h3⟩
        intro x hx
        simp only [List.mem_cons] at hx
        rcases hx with hx | hx
        · exact hx ▸ hm
        · exact h2 x hx
      · rintro ⟨front, back, h1, h2, h3⟩
        cases front with
        | nil =>
          simp only [List.nil_append, List.cons.injEq] at h1
          rw [← h1.1, hm] at h3; cases h3
        | cons f fs =>
          simp only [List.cons_append, List.cons.injEq] at h1
          exact ⟨fs, back, h1.2, fun x hx => h2 x (List.mem_cons_of_mem _ hx), h3⟩
    | some res =>
      dsimp only
      constructor
      · intro h
        simp only [Option.some.injEq, Prod.mk.injEq] at h
        exact ⟨[], l, by simp [h.1], by simp, by rw [← h.1, hm, h.2]⟩
      · rintro ⟨front, back, h1, h2, h3⟩
        cases front with
        | nil =>
          simp only [List.nil_append, List.cons.injEq] at h1
          rw [← h1.1, hm] at h3
          simp only [Option.some.injEq] at h3
          rw [h1.1, h3]
        | cons f fs =>
          simp only [List.cons_append, List.cons.injEq] at h1
          have := h2 f (List.mem_cons_self _ _)
          rw [← h1.1, hm] at this; cases this

theorem lookup_none_of_not_isSome {β : Type} (k : Str) (l : List (Str × β))
    (h : ¬ (List.lookup k l).isSome = true) : List.lookup k l = none := by
  cases hl : List.lookup k l with
  | none => rfl
  | some v => simp [hl] at h

theorem IsMatchedFrom_error (b : RouteBinder) (m : ArgumentMap) (tys : List ParamTy) (N : Nat)
    (e : Error) (h : b.IsMatchedFrom m N tys = .error e) : e = .IndexOutOfRange := by
  induction tys generalizing N with
  | nil => simp [RouteBinder.IsMatchedFrom] at h
  | cons ty tys ih =>
    rw [RouteBinder.IsMatchedFrom] at h
    by_cases hp : b.path_arg_num_ > N
    · rw [if_pos hp] at h; exact ih _ h
    · rw [if_neg hp] at h
      cases ho : ty.optional with
      | true =>
        simp only [ho, Bool.not_true, Bool.false_eq_true, if_false] at h
        exact ih _ h
      | false =>
        simp only [ho, Bool.not_false, if_true] at h
        cases hg : b.capture_params_.get? (N - b.path_arg_num_) with
        | none =>
          rw [hg] at h
          simp only [Except.error.injEq] at h
          exact h.symm
        | some name =>
          rw [hg] at h
          dsimp only at h
          cases hc : ArgumentMap.contains m name with
          | true =>
            simp only [hc, Bool.not_true, Bool.false_eq_true, if_false] at h
            exact ih _ h
          | false => simp [hc] at h

theorem DoInvoke_error_cases (lib : StdLib) (b : RouteBinder) (pre_args : PreArgs)
    (results : List Str) (tys : List ParamTy) (m : ArgumentMap) (values : List Arg) (e : Error)
    (h : b.DoInvoke lib pre_args results m tys values = .error e) :
    e = .ConversionError ∨ e = .AssertionFailed ∨ e = .IndexOutOfRange := by
  induction tys generalizing m values with
  | nil => simp [RouteBinder.DoInvoke] at h
  | cons ty tys ih =>
    rw [RouteBinder.DoInvoke] at h
    by_cases hp : b.path_arg_num_ > values.length
    · rw [if_pos hp] at h
      cases hs : SetValue lib ty (results.getD (values.length + 1) []) with
      | error e2 =>
        rw [hs] at h
        simp only [Except.error.injEq] at h
        subst h
        exact Or.inl (SetValue_error lib ty _ _ hs)
      | ok v =>
        rw [hs] at h
        exact ih _ _ h
    · rw [if_neg hp] at h
      cases hg : b.capture_params_.get? (values.length - b.path_arg_num_) with
      | none =>
        rw [hg] at h
        simp only [Except.error.injEq] at h
        exact Or.inr (Or.inr h.symm)
      | some name =>
        rw [hg] at h
        dsimp only at h
        cases hf : ArgumentMap.find m name with
        | none =>
          rw [hf] at h
          dsimp only at h
          by_cases ho : ty.optional = true
          · rw [if_pos ho] at h; exact ih _ _ h
          · rw [if_neg ho] at h
            simp only [Except.error.injEq] at h
            exact Or.inr (Or.inl h.symm)
        | some second =>
          rw [hf] at h
          dsimp only at h
          cases hs : SetValue lib ty second with
          | error e2 =>
            rw [hs] at h
            simp only [Except.error.injEq] at h
            subst h
            exact Or.inl (SetValue_error lib ty _ _ hs)
          | ok v =>
            rw [hs] at h
            exact ih _ _ h

theorem InvokeLoop_error_cases (lib : StdLib) (pre_args : PreArgs) (results : List Str)
    (m : ArgumentMap) (c : Nat) (binders : BinderList) (e : Error)
    (h : InvokeLoop lib pre_args results m c binders = .error e) :
    e = .ParameterMismatch ∨ e = .ConversionError ∨ e = .AssertionFailed ∨
      e = .IndexOutOfRange := by
  induction binders with
  | nil =>
    simp only [InvokeLoop, Except.error.injEq] at h
    exact Or.inl h.symm
  | cons b bs ih =>
    rw [InvokeLoop] at h
    cases hm : b.IsMatched c m with
    | error e2 =>
      rw [hm] at h
      simp only [Except.error.injEq] at h
      subst h
      unfold RouteBinder.IsMatched at hm
      split_ifs at hm
      exact Or.inr (Or.inr (Or.inr (IsMatchedFrom_error b m _ _ e2 hm)))
    | ok v =>
      rw [hm] at h
      cases v with
      | false => exact ih h
      | true =>
        dsimp only at h
        exact Or.inr (DoInvoke_error_cases lib b pre_args results _ m [] e h)

theorem Invoke_error_cases (lib : StdLib) (item : RouteItem) (pre_args : PreArgs)
    (method : Str) (results : List Str) (m : ArgumentMap) (e : Error)
    (h : item.Invoke lib pre_args method results m = .error e) :
    e = .ParameterMismatch ∨ e = .ConversionError ∨ e = .AssertionFailed ∨
      e = .IndexOutOfRange := by
  unfold RouteItem.Invoke at h
  dsimp only at h
  cases hl : List.lookup method item.allowed_method_binders_ with
  | none =>
    rw [hl] at h
    simp only [Except.error.injEq] at h
    exact Or.inr (Or.inr (Or.inl h.symm))
  | some binders =>
    rw [hl] at h
    exact InvokeLoop_error_cases lib pre_args results m _ binders e h

/-- `Routing` fails with "Route not found" exactly when `FindRoute` finds nothing. -/
theorem Routing_not_found_iff (lib : StdLib) (r : BasicRouter) (pre_args : PreArgs)
    (method target : Str) :
    r.Routing lib pre_args method target = .error .RouteNotFound ↔
      r.FindRoute lib (DecodeData (TargetPath target)) = none := by
  rw [Routing_eq]
  cases hf : r.FindRoute lib (DecodeData (TargetPath target)) with
  | none => simp
  | some found =>
    obtain ⟨route, results⟩ := found
    dsimp only
    simp only [reduceCtorEq, iff_false]
    cases ha : route.IsAllowedMethod method with
    | false => simp
    | true =>
      simp only [Bool.not_true, Bool.false_eq_true, if_false]
      intro h
      rcases Invoke_error_cases lib route pre_args method results _ _ h with h1 | h1 | h1 | h1 <;>
        cases h1

/-- `Routing` fails with "Method not allowed" exactly when `FindRoute` finds a
route that does not allow the method. -/
theorem Routing_method_not_allowed_iff (lib : StdLib) (r : BasicRouter) (pre_args : PreArgs)
    (method target : Str) :
    r.Routing lib pre_args method target = .error .MethodNotAllowed ↔
      ∃ route results, r.FindRoute lib (DecodeData (TargetPath target)) = some (route, results) ∧
        route.IsAllowedMethod method = false := by
  rw [Routing_eq]
  cases hf : r.FindRoute lib (DecodeData (TargetPath target)) with
  | none => simp
  | some found =>
    obtain ⟨route, results⟩ := found
    dsimp only
    cases ha : route.IsAllowedMethod method with
    | false => simp [ha]
    | true =>
      simp only [Bool.not_true, Bool.false_eq_true, if_false, Option.some.injEq, Prod.mk.injEq]
      constructor
      · intro h
        rcases Invoke_error_cases lib route pre_args method results _ _ h with h1 | h1 | h1 | h1 <;>
          cases h1
      · rintro ⟨route2, results2, ⟨h1, _⟩, h2⟩
        rw [← h1, ha] at h2; cases h2

theorem FindRoute_none_iff (lib : StdLib) (r : BasicRouter) (path : Str) :
    r.FindRoute lib path = none ↔
      List.lookup path r.route_map_ = none ∧
        ∀ item ∈ r.route_vec_, lib.regex_match item.regex_path_ path = none := by
  unfold BasicRouter.FindRoute
  cases hl : List.lookup path r.route_map_ with
  | none => simp [FindRegexRoute_none_iff]
  | some item => simp

/-- C12: on the router built from registrations that all succeeded, `Routing`
fails with "Route not found" iff the request path (the target before the first
question mark, decoded) equals the path of no literal registration and is
matched by the pattern of no placeholder registration; the condition does not
involve the method or the query, and the outcome is an error, so no handler is
invoked. -/
theorem C12_route_not_found (lib : StdLib) (regs : List Registration)
    (hacc : ∀ g ∈ regs, g.accepted = true) (pre_args : PreArgs) (method target : Str) :
    (Build regs).Routing lib pre_args method target = .error .RouteNotFound ↔
      (∀ g ∈ regs, g.is_regex = false → g.path ≠ DecodeData (TargetPath target)) ∧
      (∀ g ∈ regs, g.is_regex = true →
        lib.regex_match g.replaced_path (DecodeData (TargetPath target)) = none) := by
  have _ := hacc
  rw [Routing_not_found_iff, FindRoute_none_iff]
  constructor
  · rintro ⟨h1, h2⟩
    constructor
    · intro g hg hre hp
      have := (Build_map_isSome regs _).2 ⟨g, hg, hre, hp⟩
      simp [h1] at this
    · intro g hg hre
      obtain ⟨item, hitem, hrp⟩ := List.mem_map.1
        ((Build_vec_mem_paths regs g.replaced_path).2 ⟨g, hg, hre, rfl⟩)
      rw [← hrp]
      exact h2 item hitem
  · rintro ⟨h1, h2⟩
    constructor
    · apply lookup_none_of_not_isSome
      intro h
      obtain ⟨g, hg, hre, hp⟩ := (Build_map_isSome regs _).1 h
      exact h1 g hg hre hp
    · intro item hitem
      obtain ⟨g, hg, hre, hrp⟩ := (Build_vec_mem_paths regs item.regex_path_).1
        (List.mem_map.2 ⟨item, hitem, rfl⟩)
      rw [← hrp]
      exact h2 g hg hre

/-- C12 at the router of the test: `GET /hello1` fails with "Route not found". -/
theorem C12_witness :
    (∀ g ∈ TestRegistrations, g.accepted = true) ∧
    (Build TestRegistrations).Routing TestLib 0 "GET".toList "/hello1".toList =
      .error .RouteNotFound ∧
    (∀ g ∈ TestRegistrations, g.is_regex = false →
      g.path ≠ DecodeData (TargetPath "/hello1".toList)) ∧
    (∀ g ∈ TestRegistrations, g.is_regex = true →
      TestLib.regex_match g.replaced_path (DecodeData (TargetPath "/hello1".toList)) = none) :=
  have hacc : ∀ g ∈ TestRegistrations, g.accepted = true := by decide
  have hr : (Build TestRegistrations).Routing TestLib 0 "GET".toList "/hello1".toList =
      .error .RouteNotFound := by decide
  ⟨hacc, hr, (C12_route_not_found TestLib TestRegistrations hacc 0 "GET".toList
    "/hello1".toList).1 hr⟩

/-- C13: on the router left by a sequence of registrations, `Routing` fails with
"Method not allowed" iff a route is found for the path and the request method
is not equal, character for character, to the upper-cased form of a method name
of an accepted registration on that route (the literal route of that path, or
the placeholder route found). The condition does not involve the query, and a
route that fails it gives this error whatever its bindings are. Registering
`{"get"}` allows `GET`, while a request with method `get` is rejected. -/
theorem C13_method_not_allowed (lib : StdLib) (regs : List Registration) (pre_args : PreArgs)
    (method target : Str) :
    ((Build regs).Routing lib pre_args method target = .error .MethodNotAllowed ↔
      ∃ route results,
        (Build regs).FindRoute lib (DecodeData (TargetPath target)) = some (route, results) ∧
        ∀ g ∈ regs,
          ¬ g.Allows
            (List.lookup (DecodeData (TargetPath target)) (Build regs).route_map_).isNone
            (if (List.lookup (DecodeData (TargetPath target)) (Build regs).route_map_).isNone
              then route.regex_path_ else DecodeData (TargetPath target))
            method) ∧
    (Build LowerCaseRegistrations).Routing TestLib 0 "GET".toList "/hello".toList =
      .ok ⟨"OnHello".toList, 0, []⟩ ∧
    (Build LowerCaseRegistrations).Routing TestLib 0 "get".toList "/hello".toList =
      .error .MethodNotAllowed ∧
    (Build TestRegistrations).Routing TestLib 0 "POST".toList "/hello/xxx?name=a".toList =
      .error .MethodNotAllowed := by
  refine ⟨?_, by decide, by decide, by decide⟩
  rw [Routing_method_not_allowed_iff]
  have key : ∀ route results,
      (Build regs).FindRoute lib (DecodeData (TargetPath target)) = some (route, results) →
      (route.IsAllowedMethod method = false ↔
        ∀ g ∈ regs,
          ¬ g.Allows
            (List.lookup (DecodeData (TargetPath target)) (Build regs).route_map_).isNone
            (if (List.lookup (DecodeData (TargetPath target)) (Build regs).route_map_).isNone
              then route.regex_path_ else DecodeData (TargetPath target))
            method) := by
    intro route results hf
    unfold BasicRouter.FindRoute at hf
    cases hl : List.lookup (DecodeData (TargetPath target)) (Build regs).route_map_ with
    | none =>
      rw [hl] at hf
      dsimp only at hf
      have hmem := FindRegexRoute_mem lib _ _ route results hf
      have h := Build_vec_methods regs route hmem method
      simp only [Option.isNone_none, if_true]
      constructor
      · intro hfalse g hg hall
        have := h.2 ⟨g, hg, hall⟩
        rw [hfalse] at this; cases this
      · intro hno
        cases hm : route.IsAllowedMethod method with
        | false => rfl
        | true =>
          obtain ⟨g, hg, hall⟩ := h.1 hm
          exact absurd hall (hno g hg)
    | some item =>
      rw [hl] at hf
      simp only [Option.some.injEq, Prod.mk.injEq] at hf
      obtain ⟨rfl, _⟩ := hf
      have h := Build_map_methods regs _ item hl method
      simp only [Option.isNone_some, Bool.false_eq_true, if_false]
      constructor
      · intro hfalse g hg hall
        have := h.2 ⟨g, hg, hall⟩
        rw [hfalse] at this; cases this
      · intro hno
        cases hm : item.IsAllowedMethod method with
        | false => rfl
        | true =>
          obtain ⟨g, hg, hall⟩ := h.1 hm
          exact absurd hall (hno g hg)
  constructor
  · rintro ⟨route, results, hf, hm⟩
    exact ⟨route, results, hf, (key route results hf).1 hm⟩
  · rintro ⟨route, results, hf, hm⟩
    exact ⟨route, results, hf, (key route results hf).2 hm⟩

/-- C17: route lookup order. When the request path is a key of `route_map_`,
`FindRoute` returns that literal entry with empty match results, whatever the
regex engine and the placeholder routes are, and `Routing` fails with "Method
not allowed" when that entry does not allow the method; otherwise `FindRoute`
returns the first entry of `route_vec_` whose pattern matches the whole path,
with the match results, and `route_vec_` holds the placeholder patterns in the
order of their first registration. With `/hello/{name}` registered for `POST`
and `/hello/xxx` for `GET`, `POST /hello/xxx` is "Method not allowed". -/
theorem C17_lookup_order (lib : StdLib) (regs : List Registration) (pre_args : PreArgs)
    (method target path : Str) :
    (∀ item, List.lookup path (Build regs).route_map_ = some item →
      (Build regs).FindRoute lib path = some (item, [])) ∧
    (∀ item, List.lookup (DecodeData (TargetPath target)) (Build regs).route_map_ = some item →
      item.IsAllowedMethod method = false →
      (Build regs).Routing lib pre_args method target = .error .MethodNotAllowed) ∧
    (List.lookup path (Build regs).route_map_ = none →
      ∀ item results, (Build regs).FindRoute lib path = some (item, results) ↔
        ∃ front back, (Build regs).route_vec_ = front ++ item :: back ∧
          (∀ x ∈ front, lib.regex_match x.regex_path_ path = none) ∧
          lib.regex_match item.regex_path_ path = some results) ∧
    (Build regs).route_vec_.map (fun it => it.regex_path_) =
      FirstOccurrences ((regs.filter (fun g => g.is_regex)).map (fun g => g.replaced_path)) ∧
    (Build OverlapRegistrations).Routing TestLib 0 "POST".toList "/hello/xxx".toList =
      .error .MethodNotAllowed ∧
    (Build OverlapRegistrations).Routing TestLib 0 "POST".toList "/hello/yyy".toList =
      .ok ⟨"OnHelloPath".toList, 0, [.plain (.string "yyy".toList)]⟩ := by
  refine ⟨?_, ?_, ?_, Build_vec_paths regs, by decide, by decide⟩
  · intro item h
    exact FindRoute_literal lib _ path item h
  · intro item h hm
    rw [Routing_method_not_allowed_iff]
    exact ⟨item, [], FindRoute_literal lib _ _ item h, hm⟩
  · intro h item results
    unfold BasicRouter.FindRoute
    rw [h]
    exact FindRegexRoute_some_iff lib path _ item results

/-- C17 at the overlapping registrations: the literal entry is returned for
`/hello/xxx`, the placeholder entry for `/hello/yyy`. -/
theorem C17_witness :
    (Build OverlapRegistrations).FindRoute TestLib "/hello/xxx".toList =
      some (⟨[], [("GET".toList, [⟨0, [], OnHello⟩])]⟩, []) ∧
    (Build OverlapRegistrations).FindRoute TestLib "/hello/yyy".toList =
      some (⟨"/hello/([^/]*)".toList, [("POST".toList, [⟨1, [], OnHelloPath⟩])]⟩,
        ["/hello/yyy".toList, "yyy".toList]) :=
  ⟨(C17_lookup_order TestLib OverlapRegistrations 0 "POST".toList "/hello/xxx".toList
      "/hello/xxx".toList).1 _ (by decide), by decide⟩

/-- C19 (evaluation at the failing input): the call
`AddRoute("/x", OnHelloPath, {"GET"})` on a default-constructed router throws
"Number of parameters does not match", yet it leaves an entry for `/x` in
`route_map_`; afterwards `GET /x` fails with "Method not allowed", while on the
router without the rejected call it fails with "Route not found". -/
theorem C19_rejected_registration_leaves_entry :
    (BasicRouter.empty.AddRoute "/x".toList OnHelloPath ["GET".toList]).2 =
      some .NumberOfParametersDoesNotMatch ∧
    (BasicRouter.empty.AddRoute "/x".toList OnHelloPath ["GET".toList]).1 =
      ⟨[], [("/x".toList, ⟨[], []⟩)]⟩ ∧
    (BasicRouter.empty.AddRoute "/x".toList OnHelloPath ["GET".toList]).1 ≠ BasicRouter.empty ∧
    (BasicRouter.empty.AddRoute "/x".toList OnHelloPath ["GET".toList]).1.Routing TestLib 0
      "GET".toList "/x".toList = .error .MethodNotAllowed ∧
    BasicRouter.empty.Routing TestLib 0 "GET".toList "/x".toList = .error .RouteNotFound := by
  decide

/-! ## Query parameter names -/

theorem take_find_eq_takeWhile (c : Char) (s : Str) :
    (match find c s with
      | some pos => s.take pos
      | none => s) = s.takeWhile (fun x => x != c) := by
  induction s with
  | nil => simp [find]
  | cons x t ih =>
    by_cases hx : x = c
    · subst hx
      simp [find, List.takeWhile]
    · have hb : (x != c) = true := by simpa using hx
      rw [find, if_neg hx, List.takeWhile_cons, hb]
      cases hf : find c t with
      | none =>
        rw [hf] at ih
        simp only [Option.map_none', if_true]
        rw [← ih]
      | some pos =>
        rw [hf] at ih
        simp only [Option.map_some', if_true, List.take_succ_cons]
        rw [← ih]

theorem declaration_name (str : Str) :
    (match SplitKeyValue str with
      | some (k, _) => ToLower k
      | none => ToLower str) = ToLower (DeclaredName str) := by
  unfold SplitKeyValue DeclaredName
  rw [← take_find_eq_takeWhile]
  cases find '=' str <;> rfl

theorem contains_ParseQuery_iff (query K : Str) :
    ArgumentMap.contains (ParseQuery query) K = true ↔
      ∃ seg ∈ split '&' query, ∃ k v,
        SplitKeyValue seg = some (k, v) ∧ ToLower (DecodeData k) = K := by
  unfold ArgumentMap.contains
  rw [find_ParseQuery, lookup_isSome_iff]
  unfold QueryPairs
  constructor
  · rintro ⟨kv, hkv, rfl⟩
    obtain ⟨seg, hseg, hsome⟩ := List.mem_filterMap.1 hkv
    cases hs : SplitKeyValue seg with
    | none => simp [hs] at hsome
    | some p =>
      rcases p with ⟨k, v⟩
      simp only [hs, Option.some.injEq] at hsome
      exact ⟨seg, hseg, k, v, hs, by rw [← hsome]⟩
  · rintro ⟨seg, hseg, k, v, hs, rfl⟩
    exact ⟨(ToLower (DecodeData k), DecodeData v),
      List.mem_filterMap.2 ⟨seg, hseg, by simp [hs]⟩, rfl⟩

/-- C15: query parameter names are matched case-insensitively. The names a
registration stores are the lower-cased texts before `'='` of its `'&'`-separated
declarations, in order; the argument map built for a request has a key equal to
the stored form of a declared name `n` iff some `key=value` segment of the query
has `lower (DecodeData key) = lower n`. Declared as `Name=x`, the parameter is
satisfied by the request keys `NAME` and `n%61me`. -/
theorem C15_names_case_insensitive :
    (∀ g : Registration,
      g.binder.capture_params_ =
        if '?' ∈ g.target then
          (split '&' (TargetQuery g.target)).map (fun d => ToLower (DeclaredName d))
        else []) ∧
    (∀ query n : Str,
      ArgumentMap.contains (ParseQuery query) (ToLower (DeclaredName n)) = true ↔
        ∃ seg ∈ split '&' query, ∃ k v,
          SplitKeyValue seg = some (k, v) ∧
            ToLower (DecodeData k) = ToLower (DeclaredName n)) ∧
    (Build MixedCaseRegistrations).route_map_ =
      [("/hello".toList, ⟨[], [("GET".toList, [⟨0, ["name".toList], OnName⟩])]⟩)] ∧
    (Build MixedCaseRegistrations).Routing TestLib 0 "GET".toList "/hello?NAME=v".toList =
      .ok ⟨"OnName".toList, 0, [.plain (.string "v".toList)]⟩ ∧
    (Build MixedCaseRegistrations).Routing TestLib 0 "GET".toList "/hello?n%61me=v".toList =
      .ok ⟨"OnName".toList, 0, [.plain (.string "v".toList)]⟩ ∧
    (Build MixedCaseRegistrations).Routing TestLib 0 "GET".toList "/hello?nam=v".toList =
      .error .ParameterMismatch := by
  refine ⟨?_, fun query n => contains_ParseQuery_iff query _, by decide, by decide, by decide,
    by decide⟩
  intro g
  show (SplitTarget g.target).2 = _
  unfold SplitTarget TargetQuery
  cases hf : find '?' g.target with
  | none =>
    have := (find_eq_none_iff '?' g.target).1 hf
    simp [this]
  | some pos =>
    have hmem : '?' ∈ g.target := by
      by_contra hc
      rw [(find_eq_none_iff '?' g.target).2 hc] at hf
      cases hf
    simp only [hmem, if_true]
    apply List.map_congr_left
    intro d _
    exact declaration_name d

/-! ## Placeholder routes -/

theorem ReplacePlaceholders_unfold (s : Str) :
    ReplacePlaceholders s =
      match PlaceholderSearch s with
      | some (before, _, after) => before ++ "([^/]*)".toList ++ ReplacePlaceholders after
      | none => s := by
  rw [← ReplacePlaceholdersLoop_fuel (s.length + 1) s (by omega), ReplacePlaceholdersLoop]
  cases hs : PlaceholderSearch s with
  | none => rfl
  | some res =>
    obtain ⟨b, f, a⟩ := res
    dsimp only
    rw [ReplacePlaceholdersLoop_fuel s.length a
      (by have := PlaceholderSearch_after_lt s b f a hs; omega)]

theorem CountPlaceholders_unfold (s : Str) :
    CountPlaceholders s =
      match PlaceholderSearch s with
      | some (_, _, after) => CountPlaceholders after + 1
      | none => 0 := by
  rw [← CountPlaceholdersLoop_fuel (s.length + 1) s (by omega), CountPlaceholdersLoop]
  cases hs : PlaceholderSearch s with
  | none => rfl
  | some res =>
    obtain ⟨b, f, a⟩ := res
    dsimp only
    rw [CountPlaceholdersLoop_fuel s.length a
      (by have := PlaceholderSearch_after_lt s b f a hs; omega)]

theorem ReplacePlaceholders_cons_lit (c : Char) (t : Str) (hc : c ≠ '{') :
    ReplacePlaceholders (c :: t) = c :: ReplacePlaceholders t := by
  rw [ReplacePlaceholders_unfold (c :: t), ReplacePlaceholders_unfold t, PlaceholderSearch]
  have hat : PlaceholderAt (c :: t) = none := by simp [PlaceholderAt, hc]
  rw [hat]
  dsimp only
  cases PlaceholderSearch t with
  | none => rfl
  | some res =>
    obtain ⟨b, f, a⟩ := res
    rfl

theorem ReplacePlaceholders_of_at (s : Str) (len : Nat) (h : PlaceholderAt s = some len) :
    ReplacePlaceholders s = "([^/]*)".toList ++ ReplacePlaceholders (s.drop len) := by
  rw [ReplacePlaceholders_unfold s]
  cases s with
  | nil => simp [PlaceholderAt] at h
  | cons c t =>
    rw [PlaceholderSearch, h]
    rfl

theorem Tokenize_cons_lit (c : Char) (x : Str) (hc : c ≠ '(') :
    Tokenize 0 (c :: x) = Tok.lit c :: Tokenize 0 x := by
  rw [Tokenize]
  have : ¬ ((c :: x).take 7 = "([^/]*)".toList) := by
    intro e
    have h0 : ((c :: x).take 7).head? = ("([^/]*)".toList).head? := by rw [e]
    simp at h0
    exact hc h0
  rw [if_neg this]

theorem Tokenize_group (x : Str) :
    Tokenize 0 ("([^/]*)".toList ++ x) = Tok.group :: Tokenize 0 x := by
  simp [Tokenize]

theorem GreedyGroup_isSome (k : Str → Option (List Str)) (s : Str) (n j : Nat) (hj : j ≤ n)
    (h : (k (s.drop j)).isSome = true) : (GreedyGroup k s n).isSome = true := by
  induction n with
  | zero =>
    have : j = 0 := by omega
    subst this
    rw [GreedyGroup]
    cases hk : k s with
    | none => simp [hk] at h
    | some caps => rfl
  | succ n ih =>
    rw [GreedyGroup]
    cases hk : k (s.drop (n + 1)) with
    | some caps => rfl
    | none =>
      dsimp only
      apply ih
      by_contra hc
      have : j = n + 1 := by omega
      subst this
      simp [hk] at h

theorem GreedyGroup_some (k : Str → Option (List Str)) (s : Str) (n : Nat) (caps : List Str)
    (h : GreedyGroup k s n = some caps) :
    ∃ j, j ≤ n ∧ (k (s.drop j)).isSome = true := by
  induction n with
  | zero =>
    rw [GreedyGroup] at h
    cases hk : k s with
    | none => rw [hk] at h; cases h
    | some c => exact ⟨0, Nat.le_refl _, by simp [hk]⟩
  | succ n ih =>
    rw [GreedyGroup] at h
    cases hk : k (s.drop (n + 1)) with
    | some c => exact ⟨n + 1, Nat.le_refl _, by simp [hk]⟩
    | none =>
      rw [hk] at h
      obtain ⟨j, hj, hs⟩ := ih h
      exact ⟨j, by omega, hs⟩

theorem toLower_eq_slash (x : Char) (h : x.toLower = '/') : x = '/' := by
  unfold Char.toLower at h
  dsimp only at h
  split_ifs at h with hu
  · exfalso
    generalize x.toNat = n at h hu
    obtain ⟨h1, h2⟩ := hu
    interval_cases n <;> exact absurd h (by decide)
  · exact h

theorem takeWhile_drop_le {α : Type} (p : α → Bool) (t : List α) (k : Nat)
    (hk : k ≤ (t.takeWhile p).length) :
    (t.drop k).takeWhile p = (t.takeWhile p).drop k ∧ t.take k = (t.takeWhile p).take k := by
  induction t generalizing k with
  | nil => simp
  | cons x t ih =>
    cases k with
    | zero => simp
    | succ k =>
      cases hp : p x with
      | false => simp [List.takeWhile_cons, hp] at hk
      | true =>
        simp only [List.takeWhile_cons, hp, if_true, List.length_cons] at hk ⊢
        have := ih k (by omega)
        simp [this.1, this.2]

theorem rfind_isSome_of_mem (c : Char) (s : Str) (h : c ∈ s) : ∃ j, rfind c s = some j := by
  induction s with
  | nil => simp at h
  | cons x t ih =>
    rw [rfind]
    cases hr : rfind c t with
    | some i => exact ⟨i + 1, rfl⟩
    | none =>
      dsimp only
      by_cases hx : x = c
      · exact ⟨0, by rw [if_pos hx]⟩
      · simp only [List.mem_cons] at h
        rcases h with h | h
        · exact absurd h.symm hx
        · obtain ⟨j, hj⟩ := ih h
          rw [hr] at hj; cases hj

/-- A match of the placeholder regex at an opening brace: the matched text is
the brace, a run without `'/'`, and a closing brace after which no closing brace
follows before the next `'/'`. -/
theorem PlaceholderAt_spec (t : Str) (len : Nat) (h : PlaceholderAt ('{' :: t) = some len) :
    ∃ a0 b, t = a0 ++ '}' :: b ∧ len = a0.length + 2 ∧ '/' ∉ a0 ∧
      '}' ∉ b.takeWhile (fun x => x != '/') := by
  rw [PlaceholderAt, if_pos rfl] at h
  cases hr : rfind '}' (t.takeWhile (fun x => x != '/')) with
  | none => rw [hr] at h; cases h
  | some j =>
    rw [hr] at h
    simp only [Option.some.injEq] at h
    obtain ⟨hj, hget, hno⟩ := rfind_lt _ _ j hr
    have hk1 := takeWhile_drop_le (fun x => x != '/') t (j + 1) (by omega)
    have hk0 := takeWhile_drop_le (fun x => x != '/') t j (by omega)
    have hjt : j < t.length := by
      have := (List.takeWhile_sublist (fun x : Char => x != '/') (l := t)).length_le
      omega
    have htj : t[j] = '}' := by
      have e1 : t.take (j + 1) = t.take j ++ [t[j]] := by
        rw [List.take_succ, List.getElem?_eq_getElem hjt]; rfl
      have e2 : (t.takeWhile (fun x => x != '/')).take (j + 1) =
          (t.takeWhile (fun x => x != '/')).take j ++ [(t.takeWhile (fun x => x != '/'))[j]] := by
        rw [List.take_succ, List.getElem?_eq_getElem hj]; rfl
      rw [hk1.2, hk0.2, e2] at e1
      have e3 := List.append_cancel_left e1
      simp only [List.cons.injEq, and_true] at e3
      rw [← e3]
      simp only [List.get?_eq_getElem?, List.getElem?_eq_getElem hj, Option.some.injEq] at hget
      exact hget
    refine ⟨t.take j, t.drop (j + 1), ?_, ?_, ?_, ?_⟩
    · rw [← htj, ← List.drop_eq_getElem_cons hjt, List.take_append_drop]
    · rw [List.length_take, Nat.min_eq_left (by omega)]; omega
    · rw [hk0.2]
      intro hm
      have := List.mem_takeWhile_imp (List.mem_of_mem_take hm)
      simp at this
    · rw [hk1.1]; exact hno

theorem PlaceholderAt_isSome (t : Str) (h : '}' ∈ t.takeWhile (fun x => x != '/')) :
    ∃ len, PlaceholderAt ('{' :: t) = some len := by
  obtain ⟨j, hj⟩ := rfind_isSome_of_mem _ _ h
  exact ⟨j + 2, by rw [PlaceholderAt, if_pos rfl, hj]⟩

theorem PieceOK_lit (c : Char) (h : PieceOK (Piece.lit c) = true) :
    c ≠ '{' ∧ c ≠ '}' ∧ c ≠ '(' := by
  simp only [PieceOK, IsRegexMeta, Bool.not_eq_true', List.contains_eq_any_beq,
    List.any_eq_false, beq_iff_eq] at h
  refine ⟨fun e => ?_, fun e => ?_, fun e => ?_⟩
  · exact h '{' (by simp) e
  · exact h '}' (by simp) e
  · exact h '(' (by simp) e

theorem Render_hole (name : Str) (ps : List Piece) :
    Render (Piece.hole name :: ps) = ('{' :: name ++ ['}']) ++ Render ps := by
  simp [Render]

/-- Cutting a rendered path after a closing brace that ends a run without `'/'`
and is the last closing brace before the next `'/'` cuts it between two pieces;
what is filled in before the cut has no `'/'`. -/
theorem Render_cut (ps : List Piece) (hok : PiecesOK ps = true) (a b : Str)
    (h : Render ps = a ++ b) (hslash : '/' ∉ a)
    (hlast : ∀ x, a.getLast? = some x → x = '}')
    (hrun : '}' ∉ b.takeWhile (fun x => x != '/')) :
    ∃ ps2, PiecesOK ps2 = true ∧ Render ps2 = b ∧
      ∀ vs : List Str, (∀ v ∈ vs, '/' ∉ v) →
        ∃ pre vs2, Fill ps vs = pre ++ Fill ps2 vs2 ∧ '/' ∉ pre ∧ ∀ v ∈ vs2, '/' ∉ v := by
  induction ps generalizing a with
  | nil =>
    simp only [Render] at h
    have hb : b = [] := (List.append_eq_nil.1 h.symm).2
    exact ⟨[], rfl, by rw [hb]; rfl, fun vs hvs => ⟨[], vs, by simp [Fill], by simp, hvs⟩⟩
  | cons p ps ih =>
    have hokp : PieceOK p = true := by
      simp only [PiecesOK, List.all_cons, Bool.and_eq_true] at hok; exact hok.1
    have hoks : PiecesOK ps = true := by
      simp only [PiecesOK, List.all_cons, Bool.and_eq_true] at hok; exact hok.2
    cases a with
    | nil =>
      exact ⟨p :: ps, hok, by simpa using h,
        fun vs hvs => ⟨[], vs, by simp, by simp, hvs⟩⟩
    | cons x a2 =>
      cases p with
      | lit c =>
        simp only [Render, List.cons_append, List.cons.injEq] at h
        obtain ⟨hcx, h2⟩ := h
        obtain ⟨_, hc2, _⟩ := PieceOK_lit c hokp
        have hne : a2 ≠ [] := by
          intro e
          subst e
          have := hlast x (by simp)
          rw [← hcx] at this
          exact hc2 this
        have hlast2 : ∀ y, a2.getLast? = some y → y = '}' := by
          intro y hy
          apply hlast y
          cases a2 with
          | nil => exact absurd rfl hne
          | cons z a3 => rw [List.getLast?_cons_cons]; exact hy
        have hslash2 : '/' ∉ a2 := fun hm => hslash (List.mem_cons_of_mem _ hm)
        obtain ⟨ps2, hok2, hr2, hfill⟩ := ih hoks a2 h2 hslash2 hlast2
        refine ⟨ps2, hok2, hr2, ?_⟩
        intro vs hvs
        obtain ⟨pre, vs2, hf, hp, hv2⟩ := hfill vs hvs
        refine ⟨c :: pre, vs2, by simp [Fill, hf], ?_, hv2⟩
        simp only [List.mem_cons, not_or]
        refine ⟨fun e => ?_, hp⟩
        apply hslash
        rw [← hcx, ← e]
        exact List.mem_cons_self _ _
      | hole name =>
        have hname : '/' ∉ name := by simpa [PieceOK] using hokp
        rw [Render_hole] at h
        have hX : ∀ y ∈ ('{' :: name ++ ['}']), y ≠ '/' := by
          intro y hy e
          subst e
          simp only [List.cons_append, List.mem_cons, List.mem_append, List.mem_singleton] at hy
          rcases hy with hy | hy | hy
          · exact absurd hy (by decide)
          · exact hname hy
          · exact absurd hy (by decide)
        rcases List.append_eq_append_iff.1 h with ⟨c', h1, h2⟩ | ⟨a', h1, h2⟩
        · -- the cut is after the placeholder
          by_cases hc' : c' = []
          · subst hc'
            rw [List.nil_append] at h2
            refine ⟨ps, hoks, h2, ?_⟩
            intro vs hvs
            cases vs with
            | nil => exact ⟨[], [], by simp [Fill], by simp, by simp⟩
            | cons v vt =>
              exact ⟨v, vt, by simp [Fill], hvs v (List.mem_cons_self _ _),
                fun w hw => hvs w (List.mem_cons_of_mem _ hw)⟩
          · have hslash2 : '/' ∉ c' := by
              intro hm; apply hslash; rw [h1]; simp [hm]
            have hlast2 : ∀ y, c'.getLast? = some y → y = '}' := by
              intro y hy
              apply hlast y
              rw [h1, List.getLast?_append_of_ne_nil _ hc']; exact hy
            obtain ⟨ps2, hok2, hr2, hfill⟩ := ih hoks c' h2 hslash2 hlast2
            refine ⟨ps2, hok2, hr2, ?_⟩
            intro vs hvs
            cases vs with
            | nil =>
              obtain ⟨pre, vs2, hf, hp, hv2⟩ := hfill [] (by simp)
              exact ⟨pre, vs2, by simp [Fill, hf], hp, hv2⟩
            | cons v vt =>
              obtain ⟨pre, vs2, hf, hp, hv2⟩ := hfill vt
                (fun w hw => hvs w (List.mem_cons_of_mem _ hw))
              refine ⟨v ++ pre, vs2, by simp [Fill, hf], ?_, hv2⟩
              simp only [List.mem_append, not_or]
              exact ⟨hvs v (List.mem_cons_self _ _), hp⟩
        · -- the cut is inside the placeholder or right after it
          by_cases ha' : a' = []
          · subst ha'
            rw [List.nil_append] at h2
            refine ⟨ps, hoks, h2.symm, ?_⟩
            intro vs hvs
            cases vs with
            | nil => exact ⟨[], [], by simp [Fill], by simp, by simp⟩
            | cons v vt =>
              exact ⟨v, vt, by simp [Fill], hvs v (List.mem_cons_self _ _),
                fun w hw => hvs w (List.mem_cons_of_mem _ hw)⟩
          · exfalso
            apply hrun
            have hl : a'.getLast? = some '}' := by
              have : (x :: a2 ++ a').getLast? = some '}' := by
                rw [← h1]
                exact List.getLast?_concat ('{' :: name)
              rw [List.getLast?_append_of_ne_nil _ ha'] at this
              exact this
            have hmem : '}' ∈ a' := List.mem_of_getLast?_eq_some hl
            have hall : ∀ y ∈ a', (fun x => x != '/') y = true := by
              intro y hy
              have : y ∈ ('{' :: name ++ ['}']) := by rw [h1]; simp [hy]
              simpa using hX y this
            rw [h2, List.takeWhile_append_of_pos hall]
            exact List.mem_append_left _ hmem

/-- The step of the search at a placeholder: the match found there, the rest of
the path as a rendering of pieces, and what is filled in for the match. -/
theorem Render_hole_step (name : Str) (ps : List Piece)
    (hok : PiecesOK (Piece.hole name :: ps) = true) :
    ∃ len ps2, PlaceholderAt (Render (Piece.hole name :: ps)) = some len ∧
      (Render (Piece.hole name :: ps)).drop len = Render ps2 ∧ PiecesOK ps2 = true ∧
      (Render ps2).length < (Render (Piece.hole name :: ps)).length ∧
      (Render (Piece.hole name :: ps)).count '/' = (Render ps2).count '/' ∧
      ∀ vs : List Str, (∀ v ∈ vs, '/' ∉ v) →
        ∃ pre vs2, Fill (Piece.hole name :: ps) vs = pre ++ Fill ps2 vs2 ∧ '/' ∉ pre ∧
          ∀ v ∈ vs2, '/' ∉ v := by
  have hname : '/' ∉ name := by
    simp only [PiecesOK, List.all_cons, Bool.and_eq_true] at hok
    simpa [PieceOK] using hok.1
  have hrender : Render (Piece.hole name :: ps) = '{' :: (name ++ '}' :: Render ps) := rfl
  have hmem : '}' ∈ (name ++ '}' :: Render ps).takeWhile (fun x => x != '/') := by
    have hall : ∀ y ∈ name, (fun x => x != '/') y = true := by
      intro y hy
      have : y ≠ '/' := fun e => hname (e ▸ hy)
      simpa using this
    rw [List.takeWhile_append_of_pos hall, List.takeWhile_cons]
    simp
  obtain ⟨len, hlen⟩ := PlaceholderAt_isSome _ hmem
  obtain ⟨a0, b, ht, hl, ha0, hrun⟩ := PlaceholderAt_spec _ len hlen
  have hsplit : Render (Piece.hole name :: ps) = ('{' :: a0 ++ ['}']) ++ b := by
    rw [hrender, ht]; simp
  have hslash : '/' ∉ ('{' :: a0 ++ ['}']) := by
    simp only [List.cons_append, List.mem_cons, List.mem_append, List.mem_singleton, not_or]
    exact ⟨by decide, ha0, by decide⟩
  have hlast : ∀ x, ('{' :: a0 ++ ['}']).getLast? = some x → x = '}' := by
    intro x hx
    have : ('{' :: a0 ++ ['}']).getLast? = some '}' := List.getLast?_concat ('{' :: a0)
    rw [this] at hx
    exact (Option.some.inj hx).symm
  obtain ⟨ps2, hok2, hr2, hfill⟩ := Render_cut _ hok _ b hsplit hslash hlast hrun
  have hdrop : (Render (Piece.hole name :: ps)).drop len = b := by
    rw [hsplit, hl]
    have : a0.length + 2 = ('{' :: a0 ++ ['}']).length := by simp
    rw [this, List.drop_left]
  refine ⟨len, ps2, by rw [hrender]; exact hlen, by rw [hdrop, hr2], hok2, ?_, ?_, hfill⟩
  · rw [hr2, hsplit]
    simp only [List.cons_append, List.length_cons, List.length_append, List.length_singleton,
      List.length_nil]
    omega
  · rw [hr2, hsplit, List.count_append]
    have : List.count '/' ('{' :: a0 ++ ['}']) = 0 := List.count_eq_zero.2 hslash
    omega

/-- Matching: a path obtained from the pieces by putting strings without `'/'`
in the placeholder positions is matched by the compiled pattern. -/
theorem MatchTokens_Fill (n : Nat) (ps : List Piece) (hn : (Render ps).length ≤ n)
    (hok : PiecesOK ps = true) (vs : List Str) (hvs : ∀ v ∈ vs, '/' ∉ v) :
    (MatchTokens (Tokenize 0 (ReplacePlaceholders (Render ps))) (Fill ps vs)).isSome = true := by
  induction n using Nat.strong_induction_on generalizing ps vs with
  | _ n ih =>
    cases ps with
    | nil =>
      have : ReplacePlaceholders (Render []) = [] := by
        rw [ReplacePlaceholders_unfold]; rfl
      rw [this]
      simp [Tokenize, MatchTokens, Fill]
    | cons p ps =>
      have hokp : PieceOK p = true := by
        simp only [PiecesOK, List.all_cons, Bool.and_eq_true] at hok; exact hok.1
      have hoks : PiecesOK ps = true := by
        simp only [PiecesOK, List.all_cons, Bool.and_eq_true] at hok; exact hok.2
      cases p with
      | lit c =>
        obtain ⟨hc1, _, hc3⟩ := PieceOK_lit c hokp
        simp only [Render, List.length_cons] at hn
        have hr : Render (Piece.lit c :: ps) = c :: Render ps := rfl
        have hf : Fill (Piece.lit c :: ps) vs = c :: Fill ps vs := by
          cases vs <;> rfl
        rw [hr, hf, ReplacePlaceholders_cons_lit c _ hc1, Tokenize_cons_lit c _ hc3, MatchTokens]
        simp only [if_true]
        exact ih (n - 1) (by omega) ps (by omega) hoks vs hvs
      | hole name =>
        obtain ⟨len, ps2, hat, hdrop, hok2, hlt, _, hfill⟩ := Render_hole_step name ps hok
        obtain ⟨pre, vs2, hf, hpre, hvs2⟩ := hfill vs hvs
        rw [ReplacePlaceholders_of_at _ len hat, hdrop, Tokenize_group, MatchTokens]
        apply GreedyGroup_isSome _ _ _ pre.length
        · rw [hf]
          have hall : ∀ y ∈ pre, (fun x => x != '/') y = true := by
            intro y hy
            have : y ≠ '/' := fun e => hpre (e ▸ hy)
            simpa using this
          rw [List.takeWhile_append_of_pos hall, List.length_append]
          omega
        · rw [hf, List.drop_left]
          exact ih (Render ps2).length (by omega) ps2 (Nat.le_refl _) hok2 vs2 hvs2

/-- Segment count: a path matched by the compiled pattern has as many `'/'` as
the registration path. -/
theorem MatchTokens_count (n : Nat) (ps : List Piece) (hn : (Render ps).length ≤ n)
    (hok : PiecesOK ps = true) (path : Str)
    (hm : (MatchTokens (Tokenize 0 (ReplacePlaceholders (Render ps))) path).isSome = true) :
    path.count '/' = (Render ps).count '/' := by
  induction n using Nat.strong_induction_on generalizing ps path with
  | _ n ih =>
    cases ps with
    | nil =>
      have : ReplacePlaceholders (Render []) = [] := by
        rw [ReplacePlaceholders_unfold]; rfl
      rw [this] at hm
      simp only [Tokenize, MatchTokens] at hm
      by_cases hp : path = []
      · rw [hp]; rfl
      · simp [hp] at hm
    | cons p ps =>
      have hokp : PieceOK p = true := by
        simp only [PiecesOK, List.all_cons, Bool.and_eq_true] at hok; exact hok.1
      have hoks : PiecesOK ps = true := by
        simp only [PiecesOK, List.all_cons, Bool.and_eq_true] at hok; exact hok.2
      cases p with
      | lit c =>
        obtain ⟨hc1, _, hc3⟩ := PieceOK_lit c hokp
        simp only [Render, List.length_cons] at hn
        have hr : Render (Piece.lit c :: ps) = c :: Render ps := rfl
        rw [hr, ReplacePlaceholders_cons_lit c _ hc1, Tokenize_cons_lit c _ hc3,
          MatchTokens] at hm
        cases path with
        | nil => simp at hm
        | cons x r =>
          dsimp only at hm
          by_cases hx : x.toLower = c.toLower
          · rw [if_pos hx] at hm
            have hrec := ih (n - 1) (by omega) ps (by omega) hoks r hm
            rw [hr, List.count_cons, List.count_cons, hrec]
            have hiff : (x = '/') ↔ (c = '/') := by
              constructor
              · intro e
                subst e
                exact toLower_eq_slash c (by rw [← hx]; rfl)
              · intro e
                subst e
                exact toLower_eq_slash x (by rw [hx]; rfl)
            by_cases hc : c = '/'
            · have hx2 := hiff.2 hc
              simp [hc, hx2]
            · have hx2 : ¬ x = '/' := fun e => hc (hiff.1 e)
              simp [hc, hx2]
          · rw [if_neg hx] at hm; simp at hm
      | hole name =>
        obtain ⟨len, ps2, hat, hdrop, hok2, hlt, hcount, _⟩ := Render_hole_step name ps hok
        rw [ReplacePlaceholders_of_at _ len hat, hdrop, Tokenize_group, MatchTokens] at hm
        dsimp only at hm
        cases hg : GreedyGroup (MatchTokens (Tokenize 0 (ReplacePlaceholders (Render ps2)))) path
            (path.takeWhile (fun x => x != '/')).length with
        | none => rw [hg] at hm; simp at hm
        | some caps =>
          obtain ⟨j, hj, hs⟩ := GreedyGroup_some _ _ _ caps hg
          have hrec := ih (Render ps2).length (by omega) ps2 (Nat.le_refl _) hok2 _ hs
          rw [hcount, ← hrec]
          have htd := takeWhile_drop_le (fun x => x != '/') path j hj
          have hzero : List.count '/' (path.take j) = 0 := by
            apply List.count_eq_zero.2
            rw [htd.2]
            intro hmem
            have := List.mem_takeWhile_imp (List.mem_of_mem_take hmem)
            simp at this
          conv_lhs => rw [← List.take_append_drop j path]
          rw [List.count_append, hzero, Nat.zero_add]

theorem ReplacePlaceholders_ne (ps : List Piece) (hok : PiecesOK ps = true)
    (hh : 1 ≤ HoleCount ps) : ReplacePlaceholders (Render ps) ≠ Render ps := by
  induction ps with
  | nil => simp [HoleCount] at hh
  | cons p ps ih =>
    have hokp : PieceOK p = true := by
      simp only [PiecesOK, List.all_cons, Bool.and_eq_true] at hok; exact hok.1
    have hoks : PiecesOK ps = true := by
      simp only [PiecesOK, List.all_cons, Bool.and_eq_true] at hok; exact hok.2
    cases p with
    | lit c =>
      obtain ⟨hc1, _, _⟩ := PieceOK_lit c hokp
      have hr : Render (Piece.lit c :: ps) = c :: Render ps := rfl
      rw [hr, ReplacePlaceholders_cons_lit c _ hc1]
      intro e
      simp only [List.cons.injEq, true_and] at e
      exact ih hoks (by simpa [HoleCount] using hh) e
    | hole name =>
      obtain ⟨len, ps2, hat, _, _, _, _, _⟩ := Render_hole_step name ps hok
      rw [ReplacePlaceholders_of_at _ len hat]
      intro e
      have h0 := congrArg List.head? e
      simp [Render] at h0

theorem SegmentRegexMatch_isSome (re s : Str) :
    (SegmentRegexMatch re s).isSome = (MatchTokens (Tokenize 0 re) s).isSome := by
  unfold SegmentRegexMatch
  cases MatchTokens (Tokenize 0 re) s <;> rfl

/-- C11 (amended): placeholder routes match by segment. For a registration whose
path is written by pieces (literal characters that are no regex metacharacters,
and at least one placeholder with a name free of `'/'`), the route table holds a
placeholder entry with the compiled pattern; every request path obtained by
putting a string without `'/'` in each placeholder position is matched by that
pattern, and `FindRoute` returns that entry for it unless the path is a key of
the literal routes or an entry registered earlier matches it; and a path whose
number of `'/'` differs from that of the registration path is never matched by
the pattern. The regex engine is taken to match the compiled pattern segment
by segment, as `SegmentRegexMatch` does. -/
theorem C11_placeholder_match (lib : StdLib) (regs : List Registration) (g : Registration)
    (ps : List Piece) (hg : g ∈ regs) (hpath : g.path = Render ps) (hok : PiecesOK ps = true)
    (hholes : 1 ≤ HoleCount ps)
    (hlib : ∀ s, lib.regex_match g.replaced_path s = SegmentRegexMatch g.replaced_path s) :
    ∃ front item back, (Build regs).route_vec_ = front ++ item :: back ∧
      item.regex_path_ = ReplacePlaceholders (Render ps) ∧
      (∀ vs : List Str, (∀ v ∈ vs, '/' ∉ v) →
        ∃ results, lib.regex_match item.regex_path_ (Fill ps vs) = some results ∧
          (List.lookup (Fill ps vs) (Build regs).route_map_ = none →
            (∀ x ∈ front, lib.regex_match x.regex_path_ (Fill ps vs) = none) →
            (Build regs).FindRoute lib (Fill ps vs) = some (item, results))) ∧
      (∀ path : Str, path.count '/' ≠ (Render ps).count '/' →
        lib.regex_match item.regex_path_ path = none) := by
  have hrp : g.replaced_path = ReplacePlaceholders (Render ps) := by
    rw [Registration.replaced_path, hpath]
  have hreg : g.is_regex = true := by
    simp only [Registration.is_regex, decide_eq_true_eq]
    rw [hrp, hpath]
    exact ReplacePlaceholders_ne ps hok hholes
  obtain ⟨item, hitem, hirp⟩ := List.mem_map.1
    ((Build_vec_mem_paths regs g.replaced_path).2 ⟨g, hg, hreg, rfl⟩)
  obtain ⟨front, back, hvec⟩ := List.append_of_mem hitem
  refine ⟨front, item, back, hvec, by rw [hirp, hrp], ?_, ?_⟩
  · intro vs hvs
    have hm := MatchTokens_Fill _ ps (Nat.le_refl _) hok vs hvs
    rw [← hrp, ← SegmentRegexMatch_isSome, ← hlib, ← hirp] at hm
    cases hr : lib.regex_match item.regex_path_ (Fill ps vs) with
    | none => rw [hr] at hm; cases hm
    | some results =>
      refine ⟨results, rfl, ?_⟩
      intro hl hfront
      unfold BasicRouter.FindRoute
      rw [hl]
      exact (FindRegexRoute_some_iff lib _ _ item results).2 ⟨front, back, hvec, hfront, hr⟩
  · intro path hcount
    rw [hirp, hlib]
    cases hr : SegmentRegexMatch g.replaced_path path with
    | none => rfl
    | some results =>
      exfalso
      apply hcount
      apply MatchTokens_count _ ps (Nat.le_refl _) hok
      rw [← hrp, ← SegmentRegexMatch_isSome, hr]
      rfl

/-- C11 at the router of the test and `/hello/{name}`: `/hello/xxx` resolves to
the placeholder entry, `/hello/xxx/yyyy` is not matched. -/
theorem C11_witness :
    (⟨"/hello/{name}".toList, OnHelloPath, ["GET".toList]⟩ : Registration) ∈ TestRegistrations ∧
    (⟨"/hello/{name}".toList, OnHelloPath, ["GET".toList]⟩ : Registration).path =
      Render HelloNamePieces ∧
    PiecesOK HelloNamePieces = true ∧ 1 ≤ HoleCount HelloNamePieces ∧
    Fill HelloNamePieces ["xxx".toList] = "/hello/xxx".toList ∧
    (Build TestRegistrations).FindRoute TestLib "/hello/xxx".toList =
      some (⟨"/hello/([^/]*)".toList, [("GET".toList, [⟨1, [], OnHelloPath⟩])]⟩,
        ["/hello/xxx".toList, "xxx".toList]) ∧
    TestLib.regex_match "/hello/([^/]*)".toList "/hello/xxx/yyyy".toList = none ∧
    ∃ front item back, (Build TestRegistrations).route_vec_ = front ++ item :: back ∧
      item.regex_path_ = ReplacePlaceholders (Render HelloNamePieces) ∧
      (∀ vs : List Str, (∀ v ∈ vs, '/' ∉ v) →
        ∃ results, TestLib.regex_match item.regex_path_ (Fill HelloNamePieces vs) =
            some results ∧
          (List.lookup (Fill HelloNamePieces vs) (Build TestRegistrations).route_map_ = none →
            (∀ x ∈ front, TestLib.regex_match x.regex_path_ (Fill HelloNamePieces vs) = none) →
            (Build TestRegistrations).FindRoute TestLib (Fill HelloNamePieces vs) =
              some (item, results))) ∧
      (∀ path : Str, path.count '/' ≠ (Render HelloNamePieces).count '/' →
        TestLib.regex_match item.regex_path_ path = none) :=
  ⟨by decide, by decide, by decide, by decide, by decide, by decide, by decide,
    C11_placeholder_match TestLib TestRegistrations
      ⟨"/hello/{name}".toList, OnHelloPath, ["GET".toList]⟩ HelloNamePieces
      (by decide) (by decide) (by decide) (by decide) (fun _ => rfl)⟩

/-- C11 (counterexample): with `/{kind}/list` registered before `/user/{id}`,
the request path `/user/list`, obtained from `/user/{id}` by putting `list` in
the placeholder position, does not resolve to that route: `FindRoute` returns
the entry of `/{kind}/list`, and `OnKind("user")` is invoked. -/
theorem C11_counterexample :
    (∀ g ∈ ShadowRegistrations, g.accepted = true) ∧
    Render UserIdPieces = "/user/{id}".toList ∧ PiecesOK UserIdPieces = true ∧
    HoleCount UserIdPieces = 1 ∧ '/' ∉ "list".toList ∧
    Fill UserIdPieces ["list".toList] = "/user/list".toList ∧
    (Build ShadowRegistrations).route_vec_.map (fun it => it.regex_path_) =
      ["/([^/]*)/list".toList, "/user/([^/]*)".toList] ∧
    ((Build ShadowRegistrations).FindRoute TestLib "/user/list".toList).map
        (fun found => (found.1.regex_path_, found.2)) =
      some ("/([^/]*)/list".toList, ["/user/list".toList, "user".toList]) ∧
    (Build ShadowRegistrations).Routing TestLib 0 "GET".toList "/user/list".toList =
      .ok ⟨"OnKind".toList, 0, [.plain (.string "user".toList)]⟩ := by
  decide

/-! ## Registration: arity and the construction of the route regex -/

/-- When the library compiles the pattern of the registration, the run of
`AddRoute` is the one `AddRoute` describes. -/
theorem AddRouteOrTerminate_of_compiles (regex_compiles : Str → Bool) (r : BasicRouter)
    (target : Str) (func : HandlerFn) (methods : List Str)
    (h : regex_compiles (ReplacePlaceholders (SplitTarget target).1) = true) :
    r.AddRouteOrTerminate regex_compiles target func methods =
      some (r.AddRoute target func methods) := by
  unfold BasicRouter.AddRouteOrTerminate BasicRouter.AddRoute
  dsimp only
  by_cases hne : ReplacePlaceholders (SplitTarget target).1 ≠ (SplitTarget target).1
  · rw [if_pos hne, if_pos hne]
    cases hf : List.find? (fun it => decide (it.regex_path_ =
        ReplacePlaceholders (SplitTarget target).1)) r.route_vec_ with
    | some it =>
      dsimp only
      cases it.AddHandleFunc (CountPlaceholders (SplitTarget target).1)
        (List.map ToUpper methods) (SplitTarget target).2 func <;> rfl
    | none =>
      simp only [RouteItem.make, h, if_true]
      cases (⟨ReplacePlaceholders (SplitTarget target).1, []⟩ : RouteItem).AddHandleFunc
        (CountPlaceholders (SplitTarget target).1)
        (List.map ToUpper methods) (SplitTarget target).2 func <;> rfl
  · rw [if_neg hne, if_neg hne]
    cases hf : List.lookup (SplitTarget target).1 r.route_map_ with
    | some it =>
      dsimp only
      cases it.AddHandleFunc (CountPlaceholders (SplitTarget target).1)
        (List.map ToUpper methods) (SplitTarget target).2 func <;> rfl
    | none =>
      dsimp only
      cases (⟨[], []⟩ : RouteItem).AddHandleFunc (CountPlaceholders (SplitTarget target).1)
        (List.map ToUpper methods) (SplitTarget target).2 func <;> rfl

/-- A run of `AddRoute` that does not end the program is the one `AddRoute`
describes. -/
theorem AddRouteOrTerminate_some (regex_compiles : Str → Bool) (r : BasicRouter)
    (target : Str) (func : HandlerFn) (methods : List Str) (x : BasicRouter × Option Error)
    (h : r.AddRouteOrTerminate regex_compiles target func methods = some x) :
    x = r.AddRoute target func methods := by
  by_cases hc : regex_compiles (ReplacePlaceholders (SplitTarget target).1) = true
  · rw [AddRouteOrTerminate_of_compiles regex_compiles r target func methods hc] at h
    exact (Option.some.inj h).symm
  · have hc2 : regex_compiles (ReplacePlaceholders (SplitTarget target).1) = false := by
      simpa using hc
    revert h
    unfold BasicRouter.AddRouteOrTerminate BasicRouter.AddRoute
    dsimp only
    by_cases hne : ReplacePlaceholders (SplitTarget target).1 ≠ (SplitTarget target).1
    · rw [if_pos hne, if_pos hne]
      cases hf : List.find? (fun it => decide (it.regex_path_ =
          ReplacePlaceholders (SplitTarget target).1)) r.route_vec_ with
      | some it =>
        dsimp only
        cases it.AddHandleFunc (CountPlaceholders (SplitTarget target).1)
          (List.map ToUpper methods) (SplitTarget target).2 func <;>
          (intro h; exact (Option.some.inj h).symm)
      | none =>
        simp only [RouteItem.make, hc2, Bool.false_eq_true, if_false]
        intro h
        cases h
    · rw [if_neg hne, if_neg hne]
      cases hf : List.lookup (SplitTarget target).1 r.route_map_ with
      | some it =>
        dsimp only
        cases it.AddHandleFunc (CountPlaceholders (SplitTarget target).1)
          (List.map ToUpper methods) (SplitTarget target).2 func <;>
          (intro h; exact (Option.some.inj h).symm)
      | none =>
        dsimp only
        cases (⟨[], []⟩ : RouteItem).AddHandleFunc (CountPlaceholders (SplitTarget target).1)
          (List.map ToUpper methods) (SplitTarget target).2 func <;>
          (intro h; exact (Option.some.inj h).symm)

theorem CountPlaceholders_cons_lit (c : Char) (t : Str) (hc : c ≠ '{') :
    CountPlaceholders (c :: t) = CountPlaceholders t := by
  rw [CountPlaceholders_unfold (c :: t), CountPlaceholders_unfold t, PlaceholderSearch]
  have hat : PlaceholderAt (c :: t) = none := by simp [PlaceholderAt, hc]
  rw [hat]
  dsimp only
  cases PlaceholderSearch t with
  | none => rfl
  | some res =>
    obtain ⟨b, f, a⟩ := res
    rfl

theorem CountPlaceholders_of_at (s : Str) (len : Nat) (h : PlaceholderAt s = some len) :
    CountPlaceholders s = CountPlaceholders (s.drop len) + 1 := by
  rw [CountPlaceholders_unfold s]
  cases s with
  | nil => simp [PlaceholderAt] at h
  | cons c t =>
    rw [PlaceholderSearch, h]

theorem PiecesOK_cons (p : Piece) (ps : List Piece) (hok : PiecesOK (p :: ps) = true) :
    PieceOK p = true ∧ PiecesOK ps = true := by
  simp only [PiecesOK, List.all_cons, Bool.and_eq_true] at hok
  exact hok

theorem PiecesOK_append (ps1 ps2 : List Piece) (hok : PiecesOK (ps1 ++ ps2) = true) :
    PiecesOK ps1 = true ∧ PiecesOK ps2 = true := by
  simp only [PiecesOK, List.all_append, Bool.and_eq_true] at hok
  exact hok

theorem Render_append (ps1 ps2 : List Piece) :
    Render (ps1 ++ ps2) = Render ps1 ++ Render ps2 := by
  induction ps1 with
  | nil => rfl
  | cons p ps1 ih =>
    cases p with
    | lit c => simp [Render, ih]
    | hole name => simp [Render, ih]

/-- Cutting a rendered path after a closing brace that ends a run without `'/'`
and is the last closing brace before the next `'/'` cuts the list of pieces in
two. -/
theorem Render_cut_pieces (ps : List Piece) (hok : PiecesOK ps = true) (a b : Str)
    (h : Render ps = a ++ b) (hslash : '/' ∉ a)
    (hlast : ∀ x, a.getLast? = some x → x = '}')
    (hrun : '}' ∉ b.takeWhile (fun x => x != '/')) :
    ∃ ps1 ps2, ps = ps1 ++ ps2 ∧ Render ps1 = a ∧ Render ps2 = b := by
  induction ps generalizing a with
  | nil =>
    simp only [Render] at h
    have hb := List.append_eq_nil.1 h.symm
    exact ⟨[], [], rfl, by rw [hb.1]; rfl, by rw [hb.2]; rfl⟩
  | cons p ps ih =>
    obtain ⟨hokp, hoks⟩ := PiecesOK_cons p ps hok
    cases a with
    | nil => exact ⟨[], p :: ps, rfl, rfl, by simpa using h⟩
    | cons x a2 =>
      cases p with
      | lit c =>
        simp only [Render, List.cons_append, List.cons.injEq] at h
        obtain ⟨hcx, h2⟩ := h
        obtain ⟨_, hc2, _⟩ := PieceOK_lit c hokp
        have hne : a2 ≠ [] := by
          intro e
          subst e
          have := hlast x (by simp)
          rw [← hcx] at this
          exact hc2 this
        have hlast2 : ∀ y, a2.getLast? = some y → y = '}' := by
          intro y hy
          apply hlast y
          cases a2 with
          | nil => exact absurd rfl hne
          | cons z a3 => rw [List.getLast?_cons_cons]; exact hy
        have hslash2 : '/' ∉ a2 := fun hm => hslash (List.mem_cons_of_mem _ hm)
        obtain ⟨ps1, ps2, hps, hr1, hr2⟩ := ih hoks a2 h2 hslash2 hlast2
        exact ⟨Piece.lit c :: ps1, ps2, by rw [hps]; rfl, by simp [Render, hr1, hcx], hr2⟩
      | hole name =>
        have hname : '/' ∉ name := by simpa [PieceOK] using hokp
        rw [Render_hole] at h
        have hX : ∀ y ∈ ('{' :: name ++ ['}']), y ≠ '/' := by
          intro y hy e
          subst e
          simp only [List.cons_append, List.mem_cons, List.mem_append, List.mem_singleton] at hy
          rcases hy with hy | hy | hy
          · exact absurd hy (by decide)
          · exact hname hy
          · exact absurd hy (by decide)
        rcases List.append_eq_append_iff.1 h with ⟨c', h1, h2⟩ | ⟨a', h1, h2⟩
        · by_cases hc' : c' = []
          · subst hc'
            rw [List.nil_append] at h2
            rw [List.append_nil] at h1
            exact ⟨[Piece.hole name], ps, rfl, by rw [h1, Render_hole]; simp [Render], h2⟩
          · have hslash2 : '/' ∉ c' := by
              intro hm; apply hslash; rw [h1]; simp [hm]
            have hlast2 : ∀ y, c'.getLast? = some y → y = '}' := by
              intro y hy
              apply hlast y
              rw [h1, List.getLast?_append_of_ne_nil _ hc']; exact hy
            obtain ⟨ps1, ps2, hps, hr1, hr2⟩ := ih hoks c' h2 hslash2 hlast2
            exact ⟨Piece.hole name :: ps1, ps2, by rw [hps]; rfl,
              by rw [Render_hole, hr1, h1], hr2⟩
        · by_cases ha' : a' = []
          · subst ha'
            rw [List.nil_append] at h2
            rw [List.append_nil] at h1
            exact ⟨[Piece.hole name], ps, rfl, by rw [← h1, Render_hole]; simp [Render],
              h2.symm⟩
          · exfalso
            apply hrun
            have hl : a'.getLast? = some '}' := by
              have : (x :: a2 ++ a').getLast? = some '}' := by
                rw [← h1]
                exact List.getLast?_concat ('{' :: name)
              rw [List.getLast?_append_of_ne_nil _ ha'] at this
              exact this
            have hmem : '}' ∈ a' := List.mem_of_getLast?_eq_some hl
            have hall : ∀ y ∈ a', (fun x => x != '/') y = true := by
              intro y hy
              have : y ∈ ('{' :: name ++ ['}']) := by rw [h1]; simp [hy]
              simpa using hX y this
            rw [h2, List.takeWhile_append_of_pos hall]
            exact List.mem_append_left _ hmem

theorem HoleSegmentsFrom_seen_append (ps1 ps2 : List Piece) (h : '/' ∉ Render ps1) :
    HoleSegmentsFrom true (ps1 ++ ps2) = HoleSegmentsFrom true ps2 := by
  induction ps1 with
  | nil => rfl
  | cons p ps1 ih =>
    cases p with
    | lit c =>
      simp only [Render, List.mem_cons, not_or] at h
      have hc : ¬ c = '/' := fun e => h.1 e.symm
      simp only [List.cons_append, HoleSegmentsFrom, if_neg hc]
      exact ih h.2
    | hole name =>
      simp only [Render, List.mem_cons, List.mem_append, not_or] at h
      simp only [List.cons_append, HoleSegmentsFrom, if_true, Nat.zero_add]
      exact ih h.2.2.2

theorem HoleSegmentsFrom_seen_eq (ps : List Piece) (hok : PiecesOK ps = true)
    (hrun : '}' ∉ (Render ps).takeWhile (fun x => x != '/')) :
    HoleSegmentsFrom true ps = HoleSegmentsFrom false ps := by
  induction ps with
  | nil => rfl
  | cons p ps ih =>
    obtain ⟨hokp, hoks⟩ := PiecesOK_cons p ps hok
    cases p with
    | lit c =>
      by_cases hc : c = '/'
      · simp only [HoleSegmentsFrom, if_pos hc]
      · simp only [HoleSegmentsFrom, if_neg hc]
        apply ih hoks
        intro hm
        apply hrun
        have hcb : (c != '/') = true := by simpa using hc
        rw [Render, List.takeWhile_cons, if_pos hcb]
        exact List.mem_cons_of_mem _ hm
    | hole name =>
      exfalso
      apply hrun
      have hname : '/' ∉ name := by simpa [PieceOK] using hokp
      have hall : ∀ y ∈ ('{' :: name), (fun x => x != '/') y = true := by
        intro y hy
        simp only [List.mem_cons] at hy
        rcases hy with hy | hy
        · subst hy; decide
        · have : y ≠ '/' := fun e => hname (e ▸ hy)
          simpa using this
      have e : Render (Piece.hole name :: ps) = ('{' :: name) ++ ('}' :: Render ps) := by
        simp [Render]
      rw [e, List.takeWhile_append_of_pos hall, List.takeWhile_cons]
      simp

/-- The counting loop of `AddRoute` counts the path segments that hold a
placeholder. -/
theorem CountPlaceholders_Render (n : Nat) (ps : List Piece) (hn : ps.length ≤ n)
    (hok : PiecesOK ps = true) : CountPlaceholders (Render ps) = HoleSegments ps := by
  induction n using Nat.strong_induction_on generalizing ps with
  | _ n ih =>
    cases ps with
    | nil =>
      rw [CountPlaceholders_unfold]
      rfl
    | cons p ps =>
      obtain ⟨hokp, hoks⟩ := PiecesOK_cons p ps hok
      simp only [List.length_cons] at hn
      cases p with
      | lit c =>
        obtain ⟨hc1, _, _⟩ := PieceOK_lit c hokp
        have hr : Render (Piece.lit c :: ps) = c :: Render ps := rfl
        rw [hr, CountPlaceholders_cons_lit c _ hc1, ih (n - 1) (by omega) ps (by omega) hoks]
        simp only [HoleSegments, HoleSegmentsFrom, ite_self]
      | hole name =>
        have hname : '/' ∉ name := by simpa [PieceOK] using hokp
        have hrender : Render (Piece.hole name :: ps) = '{' :: (name ++ '}' :: Render ps) := rfl
        have hmem : '}' ∈ (name ++ '}' :: Render ps).takeWhile (fun x => x != '/') := by
          have hall : ∀ y ∈ name, (fun x => x != '/') y = true := by
            intro y hy
            have : y ≠ '/' := fun e => hname (e ▸ hy)
            simpa using this
          rw [List.takeWhile_append_of_pos hall, List.takeWhile_cons]
          simp
        obtain ⟨len, hlen⟩ := PlaceholderAt_isSome _ hmem
        obtain ⟨a0, b, ht, hl, ha0, hrun⟩ := PlaceholderAt_spec _ len hlen
        have hsplit : Render (Piece.hole name :: ps) = ('{' :: a0 ++ ['}']) ++ b := by
          rw [hrender, ht]; simp
        have hslash : '/' ∉ ('{' :: a0 ++ ['}']) := by
          simp only [List.cons_append, List.mem_cons, List.mem_append, List.mem_singleton, not_or]
          exact ⟨by decide, ha0, by decide⟩
        have hlast : ∀ x, ('{' :: a0 ++ ['}']).getLast? = some x → x = '}' := by
          intro x hx
          have : ('{' :: a0 ++ ['}']).getLast? = some '}' := List.getLast?_concat ('{' :: a0)
          rw [this] at hx
          exact (Option.some.inj hx).symm
        obtain ⟨ps1, ps2, hps, hr1, hr2⟩ :=
          Render_cut_pieces _ hok _ b hsplit hslash hlast hrun
        have hdrop : (Render (Piece.hole name :: ps)).drop len = b := by
          rw [hsplit, hl]
          have : a0.length + 2 = ('{' :: a0 ++ ['}']).length := by simp
          rw [this, List.drop_left]
        cases ps1 with
        | nil =>
          exfalso
          rw [Render] at hr1
          simp at hr1
        | cons q ps1 =>
          simp only [List.cons_append, List.cons.injEq] at hps
          obtain ⟨hq, hps⟩ := hps
          subst hq
          have hok2 : PiecesOK ps2 = true := by
            rw [hps] at hoks
            exact (PiecesOK_append ps1 ps2 hoks).2
          have hlen2 : ps2.length ≤ ps.length := by
            rw [hps, List.length_append]; omega
          have hs1 : '/' ∉ Render ps1 := by
            intro hm
            apply hslash
            rw [← hr1, Render_hole]
            exact List.mem_append_right _ hm
          rw [CountPlaceholders_of_at _ len (by rw [hrender]; exact hlen), hdrop, ← hr2,
            ih ps2.length (by omega) ps2 (Nat.le_refl _) hok2]
          simp only [HoleSegments, HoleSegmentsFrom, Bool.false_eq_true, if_false]
          rw [hps, HoleSegmentsFrom_seen_append ps1 ps2 hs1,
            HoleSegmentsFrom_seen_eq ps2 hok2 (by rw [hr2]; exact hrun)]
          omega

theorem HoleSegmentsFrom_le (seen : Bool) (ps : List Piece) :
    HoleSegmentsFrom seen ps ≤ HoleCount ps := by
  induction ps generalizing seen with
  | nil => simp [HoleSegmentsFrom, HoleCount]
  | cons p ps ih =>
    cases p with
    | lit c =>
      simp only [HoleSegmentsFrom, HoleCount]
      split_ifs
      · exact ih false
      · exact ih seen
    | hole name =>
      simp only [HoleSegmentsFrom, HoleCount]
      have := ih true
      split_ifs <;> omega

theorem HoleSegmentsFrom_apart (seen : Bool) (ps : List Piece)
    (h : HolesApartFrom seen ps = true) :
    HoleSegmentsFrom seen ps = HoleCount ps := by
  induction ps generalizing seen with
  | nil => simp [HoleSegmentsFrom, HoleCount]
  | cons p ps ih =>
    cases p with
    | lit c =>
      simp only [HolesApartFrom] at h
      simp only [HoleSegmentsFrom, HoleCount]
      split_ifs at h ⊢
      · exact ih false h
      · exact ih seen h
    | hole name =>
      simp only [HolesApartFrom, Bool.and_eq_true, Bool.not_eq_true'] at h
      simp only [HoleSegmentsFrom, HoleCount, h.1, Bool.false_eq_true, if_false]
      rw [ih true h.2]
      omega

/-- The pattern compiled from pieces is made of plain literals and groups. -/
theorem SegmentRegexCompiles_Render (n : Nat) (ps : List Piece) (hn : (Render ps).length ≤ n)
    (hok : PiecesOK ps = true) :
    SegmentRegexCompiles (ReplacePlaceholders (Render ps)) = true := by
  induction n using Nat.strong_induction_on generalizing ps with
  | _ n ih =>
    cases ps with
    | nil =>
      have : ReplacePlaceholders (Render []) = [] := by
        rw [ReplacePlaceholders_unfold]; rfl
      rw [this]
      rfl
    | cons p ps =>
      obtain ⟨hokp, hoks⟩ := PiecesOK_cons p ps hok
      cases p with
      | lit c =>
        obtain ⟨hc1, _, hc3⟩ := PieceOK_lit c hokp
        simp only [Render, List.length_cons] at hn
        have hr : Render (Piece.lit c :: ps) = c :: Render ps := rfl
        have hrec := ih (n - 1) (by omega) ps (by omega) hoks
        rw [hr, ReplacePlaceholders_cons_lit c _ hc1]
        unfold SegmentRegexCompiles at hrec ⊢
        rw [Tokenize_cons_lit c _ hc3, List.all_cons, hrec, Bool.and_true]
        exact hokp
      | hole name =>
        obtain ⟨len, ps2, hat, hdrop, hok2, hlt, _, _⟩ := Render_hole_step name ps hok
        have hrec := ih (Render ps2).length (by omega) ps2 (Nat.le_refl _) hok2
        rw [ReplacePlaceholders_of_at _ len hat, hdrop]
        unfold SegmentRegexCompiles at hrec ⊢
        rw [Tokenize_group, List.all_cons, hrec]
        rfl

/-- `AddRoute` throws exactly when the count of the counting loop plus the
number of query declarations differs from the arity of the handler. -/
theorem AddRoute_throws_iff (r : BasicRouter) (target : Str) (func : HandlerFn)
    (methods : List Str) :
    ((r.AddRoute target func methods).2 = some .NumberOfParametersDoesNotMatch ↔
      CountPlaceholders (TargetPath target) + QueryDeclCount target ≠ func.kArgNum) ∧
    ((r.AddRoute target func methods).2 = none ↔
      CountPlaceholders (TargetPath target) + QueryDeclCount target = func.kArgNum) := by
  have h1 := AddRoute_eq r ⟨target, func, methods⟩
  simp only at h1
  rw [h1]
  simp only [Registration.accepted, Registration.capture_params, Registration.path,
    SplitTarget_fst, SplitTarget_snd_length]
  rw [Nat.add_comm]
  by_cases h : CountPlaceholders (TargetPath target) + QueryDeclCount target = func.kArgNum
  · simp [h]
  · simp [h]

/-- C14 (amended): the arity check of a registration. When the path part of the
target (up to the first `'?'`) is written by literal characters that are no
regex metacharacter and by placeholders `{name}` with a name free of `'/'`, and
the library compiles patterns made of such literals and of groups `([^/]*)`, the
call of `AddRoute` does not end the program; it throws "Number of parameters
does not match" iff the number of path segments that hold a placeholder plus
the number of `'&'`-separated query declarations after the first `'?'` differs
from the handler's parameter count without the context parameter, and succeeds
otherwise. The number of segments that hold a placeholder is at most the number
of placeholders, and equal to it when no segment holds two of them. -/
theorem C14_registration_arity (regex_compiles : Str → Bool)
    (hre : ∀ re, SegmentRegexCompiles re = true → regex_compiles re = true)
    (r : BasicRouter) (target : Str) (ps : List Piece) (func : HandlerFn) (methods : List Str)
    (hpath : (SplitTarget target).1 = Render ps) (hok : PiecesOK ps = true) :
    (∃ r2 err, r.AddRouteOrTerminate regex_compiles target func methods = some (r2, err) ∧
      (err = some .NumberOfParametersDoesNotMatch ↔
        HoleSegments ps + QueryDeclCount target ≠ func.kArgNum) ∧
      (err = none ↔ HoleSegments ps + QueryDeclCount target = func.kArgNum)) ∧
    HoleSegments ps ≤ HoleCount ps ∧
    (HolesApart ps = true → HoleSegments ps = HoleCount ps) := by
  refine ⟨?_, HoleSegmentsFrom_le false ps, HoleSegmentsFrom_apart false ps⟩
  have hc : regex_compiles (ReplacePlaceholders (SplitTarget target).1) = true := by
    rw [hpath]
    exact hre _ (SegmentRegexCompiles_Render _ ps (Nat.le_refl _) hok)
  have hcount := CountPlaceholders_Render _ ps (Nat.le_refl _) hok
  have key := AddRoute_throws_iff r target func methods
  rw [← SplitTarget_fst, hpath, hcount] at key
  exact ⟨(r.AddRoute target func methods).1, (r.AddRoute target func methods).2,
    AddRouteOrTerminate_of_compiles regex_compiles r target func methods hc, key.1, key.2⟩

/-- C14 at `/a/{x}/b/{y}?k` registered on the router of the test: with a handler
of three parameters the call succeeds, the two placeholders being in two
segments. -/
theorem C14_witness :
    (∀ re, SegmentRegexCompiles re = true → SegmentRegexCompiles re = true) ∧
    (SplitTarget "/a/{x}/b/{y}?k".toList).1 = Render TwoSegmentPieces ∧
    PiecesOK TwoSegmentPieces = true ∧
    HoleSegments TwoSegmentPieces = 2 ∧ QueryDeclCount "/a/{x}/b/{y}?k".toList = 1 ∧
    OnHelloArg.kArgNum = 3 ∧
    ((TestRouter.AddRouteOrTerminate SegmentRegexCompiles "/a/{x}/b/{y}?k".toList OnHelloArg
        ["GET".toList]).map Prod.snd = some none) ∧
    ((∃ r2 err, TestRouter.AddRouteOrTerminate SegmentRegexCompiles "/a/{x}/b/{y}?k".toList
          OnHelloArg ["GET".toList] = some (r2, err) ∧
        (err = some .NumberOfParametersDoesNotMatch ↔
          HoleSegments TwoSegmentPieces + QueryDeclCount "/a/{x}/b/{y}?k".toList ≠
            OnHelloArg.kArgNum) ∧
        (err = none ↔
          HoleSegments TwoSegmentPieces + QueryDeclCount "/a/{x}/b/{y}?k".toList =
            OnHelloArg.kArgNum)) ∧
      HoleSegments TwoSegmentPieces ≤ HoleCount TwoSegmentPieces ∧
      (HolesApart TwoSegmentPieces = true →
        HoleSegments TwoSegmentPieces = HoleCount TwoSegmentPieces)) :=
  ⟨fun _ h => h, by decide, by decide, by decide, by decide, by decide, by decide,
    C14_registration_arity SegmentRegexCompiles (fun _ h => h) TestRouter
      "/a/{x}/b/{y}?k".toList TwoSegmentPieces OnHelloArg ["GET".toList]
      (by decide) (by decide)⟩

/-- C14 (counterexample): `/x/{a}-{b}` has two placeholder tokens and no query
declaration, and `OnPair` has two parameters besides the context, yet `AddRoute`
throws "Number of parameters does not match": the counting loop finds one match,
from the first opening brace to the last closing brace of the segment. And for
`/a(/{x}` with `OnName`, where the counts agree, the call neither throws nor
succeeds: the pattern `/a(/([^/]*)` does not compile and the program ends in the
constructor of `RouteItem`. -/
theorem C14_counterexample :
    (SplitTarget "/x/{a}-{b}".toList).1 = Render DashPieces ∧ PiecesOK DashPieces = true ∧
    NamesPlain DashPieces = true ∧ HoleCount DashPieces = 2 ∧
    QueryDeclCount "/x/{a}-{b}".toList = 0 ∧ OnPair.kArgNum = 2 ∧
    CountPlaceholders (SplitTarget "/x/{a}-{b}".toList).1 = 1 ∧
    (BasicRouter.empty.AddRouteOrTerminate SegmentRegexCompiles "/x/{a}-{b}".toList OnPair
        ["GET".toList]).map Prod.snd = some (some .NumberOfParametersDoesNotMatch) ∧
    (BasicRouter.empty.AddRoute "/x/{a}-{b}".toList OnPair ["GET".toList]).2 =
      some .NumberOfParametersDoesNotMatch ∧
    CountPlaceholders (SplitTarget "/a(/{x}".toList).1 + QueryDeclCount "/a(/{x}".toList =
      OnName.kArgNum ∧
    ReplacePlaceholders (SplitTarget "/a(/{x}".toList).1 = "/a(/([^/]*)".toList ∧
    SegmentRegexCompiles "/a(/([^/]*)".toList = false ∧
    BasicRouter.empty.AddRouteOrTerminate SegmentRegexCompiles "/a(/{x}".toList OnName
        ["GET".toList] = none := by
  decide

end Netkit
